import Mathlib

/-!
# gobook: apachereport, cgrep and americanise

A shallow embedding of three programs of the repository and the properties
of their specification.

* Go strings and byte slices are lists of characters (`Str`).
* Go's `int` is the 64-bit two's complement integer: `wrapInt`.
* A file is its data followed by end-of-stream or by a read error.
* Goroutines and channels are explicit state machines: one `step` per
  goroutine, a schedule is the list of goroutines in the order they move.
-/

set_option linter.unusedTactic false
set_option linter.unreachableTactic false
set_option linter.unnecessarySeqFocus false

namespace Gobook

/-! ## Definitions -/

/-- Go string (also a byte slice). -/
abbrev Str := List Char

/-- Go's `int` on a 64-bit platform: the result of an arithmetic operation is
reduced to the two's complement range. -/
def wrapInt (x : Int) : Int := (x + 2 ^ 63) % 2 ^ 64 - 2 ^ 63

/-! ### safemap -/

/-- Modelled from the spec: package `safemap` is imported by apachereport but is
not among the sources. The aggregator is a key to counter store; here the
finite table of its key/value pairs (values are the Go `int`s stored by the
updater). -/
abbrev SafeMap := List (Str × Int)

/-- Modelled from the spec: `safemap.New()`, the aggregator with no key. -/
def SafeMap.New : SafeMap := []

/-- Modelled from the spec: the value stored for a key, if any. -/
def SafeMap.Find : SafeMap → Str → Option Int
  | [], _ => none
  | (k, v) :: m, key => if k = key then some v else SafeMap.Find m key

/-- Modelled from the spec: store `value` under `key`, replacing the value of
an existing entry. -/
def SafeMap.Insert : SafeMap → Str → Int → SafeMap
  | [], key, value => [(key, value)]
  | (k, v) :: m, key, value =>
    if k = key then (key, value) :: m else (k, v) :: SafeMap.Insert m key value

/-- Modelled from the spec: `Update(key, updateFn)`, the indivisible "read
current value (or absent), compute new value via updateFn, store new value".
For an absent key the updater gets the zero value and `found = false`. -/
def SafeMap.Update (m : SafeMap) (key : Str) (updater : Int → Bool → Int) : SafeMap :=
  match SafeMap.Find m key with
  | some value => SafeMap.Insert m key (updater value true)
  | none => SafeMap.Insert m key (updater 0 false)

/-- Modelled from the spec: `Close()` hands out the underlying map (the
snapshot). -/
def SafeMap.Close (m : SafeMap) : SafeMap := m

/-! ### apachereport: the updater -/

/-- The closure `incrementer` of `processLines`:
`if found { return value.(int) + 1 }; return 1`. -/
def incrementer (value : Int) (found : Bool) : Int :=
  if found then wrapInt (value + 1) else 1

/-- The `pageMap.Update(key, incrementer)` calls of the workers, applied one
after another in the order in which they happen. -/
def applyUpdates (m : SafeMap) (keys : List Str) : SafeMap :=
  keys.foldl (fun acc key => SafeMap.Update acc key incrementer) m

/-! ### apachereport: the pattern `GET[ \t]+([^ \t\n]+[.]html?)`

Go's `regexp` returns the match a backtracking matcher finds first: the
leftmost start, and at each repetition the longest run that lets the rest of
the pattern match. -/

/-- The class `[ \t]`. -/
def isBlank (c : Char) : Bool := c = ' ' || c = '\t'

/-- The class `[^ \t\n]`. -/
def isPathChar (c : Char) : Bool := !(c = ' ' || c = '\t' || c = '\n')

/-- The part `[.]html?` at the head of the text: the text it matches. -/
def matchDotHtml : Str → Option Str
  | '.' :: 'h' :: 't' :: 'm' :: 'l' :: _ => some ['.', 'h', 't', 'm', 'l']
  | '.' :: 'h' :: 't' :: 'm' :: _ => some ['.', 'h', 't', 'm']
  | _ => none

/-- The part `[^ \t\n]*[.]html?` at the head of the text: the text it matches. The
repetition first tries to take one more character. -/
def matchPathRest : Str → Option Str
  | [] => none
  | c :: cs =>
    match (if isPathChar c then matchPathRest cs else none) with
    | some m => some (c :: m)
    | none => matchDotHtml (c :: cs)

/-- The group `([^ \t\n]+[.]html?)` at the head of the text: the text it
matches. -/
def matchPath : Str → Option Str
  | [] => none
  | c :: cs =>
    if isPathChar c then
      match matchPathRest cs with
      | some m => some (c :: m)
      | none => none
    else none

/-- The part `[ \t]*([^ \t\n]+[.]html?)` at the head of the text: the text of the
group. -/
def matchBlanksPath : Str → Option Str
  | [] => none
  | c :: cs =>
    match (if isBlank c then matchBlanksPath cs else none) with
    | some g => some g
    | none => matchPath (c :: cs)

/-- The whole pattern at the head of the text: the text of the group. -/
def matchHere : Str → Option Str
  | 'G' :: 'E' :: 'T' :: c :: cs => if isBlank c then matchBlanksPath cs else none
  | _ => none

/-- The call `getRx.FindStringSubmatch(line)`: `matches[1]` of the leftmost match, or
`none` for `matches == nil`. -/
def FindStringSubmatch : Str → Option Str
  | [] => none
  | c :: cs =>
    match matchHere (c :: cs) with
    | some g => some g
    | none => FindStringSubmatch cs

/-- The body of the worker loop of `processLines` for one line. -/
def processLine (pageMap : SafeMap) (line : Str) : SafeMap :=
  match FindStringSubmatch line with
  | some g => SafeMap.Update pageMap g incrementer
  | none => pageMap

/-- The workers' loop bodies run one after another on the lines, in the order
in which their updates happen. -/
def processAll (pageMap : SafeMap) (lines : List Str) : SafeMap :=
  lines.foldl processLine pageMap

/-! ### Files and buffered readers -/

/-- An open file as a `bufio.Reader` sees it: the data still to be read, and
whether the stream ends in a read error (`failing`) or in `io.EOF`. -/
structure File where
  data : Str
  failing : Bool
  deriving DecidableEq, Repr

/-- The errors a read returns. -/
inductive ReadErr where
  | eof
  | other
  deriving DecidableEq, Repr

/-- The file system: `os.Open` fails on a name that maps to `none`. -/
abbrev FileSystem := Str → Option File

/-- The data up to and including the first newline, and the data after it;
`none` when there is no newline. -/
def cutLine : Str → Option (Str × Str)
  | [] => none
  | c :: cs =>
    if c = '\n' then some (['\n'], cs)
    else match cutLine cs with
      | some (line, rest) => some (c :: line, rest)
      | none => none

/-- The call `reader.ReadString('\n')` (and `ReadBytes('\n')`): the data up to and
including the delimiter; when the stream ends before a delimiter, the data read
so far together with the error. Returns the line, the error and the reader
after the call. -/
def ReadString (f : File) : Str × Option ReadErr × File :=
  match cutLine f.data with
  | some (line, rest) => (line, none, { f with data := rest })
  | none => (f.data, some (if f.failing then ReadErr.other else ReadErr.eof),
      { f with data := [] })

/-- A line written by package `log`. -/
inductive Diag where
  | openFailed (filename : Str)
  | readFailed (filename : Str)
  | readFailedAt (lino : Int)
  | invalidRegexp
  deriving DecidableEq, Repr

/-! ### apachereport: readLines -/

/-- What `readLines` has done to the `lines` channel and to the log. `fatal`
is `log.Fatal` (the program exits). -/
structure ReadLinesOut where
  sent : List Str
  closed : Bool
  log : List Diag
  fatal : Bool
  deriving DecidableEq, Repr

/-- The `for` loop of `readLines`; `fuel` bounds the number of iterations and
`none` means the bound was reached. -/
def readLinesLoop (filename : Str) : Nat → File → List Str → Option (List Str × List Diag)
  | 0, _, _ => none
  | fuel + 1, reader, sent =>
    match ReadString reader with
    | (line, err, reader2) =>
      let sent2 := if line ≠ [] then sent ++ [line] else sent
      match err with
      | some e => some (sent2, if e ≠ ReadErr.eof then [Diag.readFailed filename] else [])
      | none => readLinesLoop filename fuel reader2 sent2

/-- The function `readLines(filename, lines)`. -/
def readLines (fs : FileSystem) (filename : Str) : Option ReadLinesOut :=
  match fs filename with
  | none => some { sent := [], closed := false, log := [Diag.openFailed filename], fatal := true }
  | some file =>
    match readLinesLoop filename (file.data.length + 1) file [] with
    | none => none
    | some (sent, log) => some { sent := sent, closed := true, log := log, fatal := false }

/-! ### cgrep: Job.Do and doJobs -/

/-- The struct `Result`. -/
structure Result where
  filename : Str
  lino : Int
  line : Str
  deriving DecidableEq, Repr

/-- The function `bytes.TrimRight(s, cutset)`: `s` without its trailing bytes that are in
`cutset`. -/
def TrimRight (s : Str) (cutset : Str) : Str :=
  (s.reverse.dropWhile (fun c => decide (c ∈ cutset))).reverse

/-- The `for lino := 1; ; lino++` loop of `Job.Do`. `lineRx` is
`lineRx.Match`; `fuel` bounds the iterations. -/
def doLoop (lineRx : Str → Bool) (filename : Str) :
    Nat → Int → File → List Result → Option (List Result × List Diag)
  | 0, _, _, _ => none
  | fuel + 1, lino, reader, results =>
    match ReadString reader with
    | (line0, err, reader2) =>
      let line := TrimRight line0 ['\n', '\r']
      let results2 := if lineRx line then results ++ [Result.mk filename lino line] else results
      match err with
      | some e => some (results2, if e ≠ ReadErr.eof then [Diag.readFailedAt lino] else [])
      | none => doLoop lineRx filename fuel (wrapInt (lino + 1)) reader2 results2

/-- The method `Job.Do(lineRx)`: the Results sent on `job.results`, in order,
and the lines logged. -/
def Job.Do (fs : FileSystem) (lineRx : Str → Bool) (filename : Str) :
    Option (List Result × List Diag) :=
  match fs filename with
  | none => some ([], [Diag.openFailed filename])
  | some file => doLoop lineRx filename (file.data.length + 1) 1 file []

/-- The loop `for job := range jobs { job.Do(lineRx) }` of one `doJobs` worker
over the jobs it receives: all Results sent and all lines logged. -/
def doJobs (fs : FileSystem) (lineRx : Str → Bool) :
    List Str → Option (List Result × List Diag)
  | [] => some ([], [])
  | filename :: jobs =>
    match Job.Do fs lineRx filename with
    | none => none
    | some (rs, ds) =>
      match doJobs fs lineRx jobs with
      | none => none
      | some (rs2, ds2) => some (rs ++ rs2, ds ++ ds2)

/-- The function `minimum(x, ys...)`. -/
def minimum (x : Nat) (ys : List Nat) : Nat :=
  ys.foldl (fun x y => if y < x then y else x) x

/-! ### cgrep: the goroutines of `main` and `grep`

One state machine for the whole program. A goroutine moves by one `step`; a
step that would block is `none`. `log.Fatalf` sets `aborted`, a send on a
closed channel or a second `close` sets `panicked`; both end the program, and
so does the return of `main`. -/

namespace Cgrep

/-- What a run is started with: `workers`, the files, the result of
`regexp.Compile(os.Args[1])` (`none`: the pattern is invalid) and the list that
`commandLineFiles` returns. -/
structure Config where
  workers : Nat
  fs : FileSystem
  lineRx : Option (Str → Bool)
  filenames : List Str

/-- Where `main` is: before `regexp.Compile`; in `grep` with `addJobs` and
`k` workers started; in `processResults`; returned. -/
inductive MainPc where
  | start
  | spawning (k : Nat)
  | draining
  | exited
  deriving DecidableEq, Repr

/-- Where `addJobs` is: `running todo` is the loop with `todo` still to send,
then `close(jobs)`. -/
inductive AddPc where
  | notStarted
  | running (todo : List Str)
  | finished
  deriving DecidableEq, Repr

/-- Where a `doJobs` worker is: at `range jobs`; inside `job.Do` with the
Results still to send; at `done <- struct{}{}`; returned. -/
inductive WorkerPc where
  | idle
  | busy (pending : List Result)
  | signalling
  | finished
  deriving DecidableEq, Repr

/-- Where `awaitCompletion` is: `waiting i` is the loop at index `i`, then
`close(results)`. -/
inductive AwaitPc where
  | notStarted
  | waiting (i : Nat)
  | finished
  deriving DecidableEq, Repr

/-- A started worker, with its history: the done signals it has sent and the
jobs it has received. -/
structure Worker where
  pc : WorkerPc
  signals : Nat
  processed : List Str
  deriving DecidableEq, Repr

/-- The program state: the goroutines, the three channels (`done` holds only
its number of signals), what has been printed and logged, and the history
counters `received` (signals taken by `awaitCompletion`) and `closes` (times
`results` was closed). -/
structure State where
  main : MainPc
  adder : AddPc
  ws : List Worker
  awaiter : AwaitPc
  jobs : List Str
  jobsClosed : Bool
  results : List Result
  resultsClosed : Bool
  done : Nat
  received : Nat
  closes : Nat
  printed : List Result
  log : List Diag
  aborted : Bool
  panicked : Bool
  deriving DecidableEq, Repr

/-- The goroutines. -/
inductive Actor where
  | main
  | addJobs
  | doJobs (i : Nat)
  | awaitCompletion
  deriving DecidableEq, Repr

/-- The state in which `main` is entered. -/
def init : State :=
  { main := .start, adder := .notStarted, ws := [], awaiter := .notStarted,
    jobs := [], jobsClosed := false, results := [], resultsClosed := false,
    done := 0, received := 0, closes := 0, printed := [], log := [],
    aborted := false, panicked := false }

/-- The capacity of `results`: `minimum(1000, len(filenames))`. -/
def resultsCap (c : Config) : Nat := minimum 1000 [c.filenames.length]

/-- One move of `main`: compile the pattern (or `log.Fatalf`), `go addJobs`,
`go doJobs` for each worker, `go awaitCompletion`, then the loop of
`processResults`. -/
def stepMain (c : Config) (s : State) : Option State :=
  match s.main with
  | .start =>
    match c.lineRx with
    | none => some { s with aborted := true, log := s.log ++ [Diag.invalidRegexp] }
    | some _ => some { s with main := .spawning 0, adder := .running c.filenames }
  | .spawning k =>
    if k < c.workers then
      some { s with main := .spawning (k + 1), ws := s.ws ++ [⟨.idle, 0, []⟩] }
    else some { s with main := .draining, awaiter := .waiting 0 }
  | .draining =>
    match s.results with
    | r :: rest => some { s with results := rest, printed := s.printed ++ [r] }
    | [] => if s.resultsClosed then some { s with main := .exited } else none
  | .exited => none

/-- One move of `addJobs`: send the next Job when `jobs` has room, or close
`jobs` after the last. -/
def stepAddJobs (c : Config) (s : State) : Option State :=
  match s.adder with
  | .running (filename :: todo) =>
    if s.jobsClosed then some { s with panicked := true }
    else if s.jobs.length < c.workers then
      some { s with jobs := s.jobs ++ [filename], adder := .running todo }
    else none
  | .running [] =>
    if s.jobsClosed then some { s with panicked := true }
    else some { s with jobsClosed := true, adder := .finished }
  | _ => none

/-- One move of worker `i` of `doJobs`: receive a Job and run `job.Do` up to
its first send; send the next Result when `results` has room (or, on an
unbuffered `results`, hand it to `processResults`); return from `job.Do`;
leave the loop when `jobs` is closed and empty; send the done signal. -/
def stepDoJobs (c : Config) (i : Nat) (s : State) : Option State :=
  match s.ws.get? i with
  | none => none
  | some w =>
    match w.pc with
    | .idle =>
      match s.jobs with
      | filename :: rest =>
        match c.lineRx with
        | none => none
        | some lineRx =>
          match Job.Do c.fs lineRx filename with
          | none => none
          | some (rs, ds) =>
            some { s with
              jobs := rest
              ws := s.ws.set i { w with pc := .busy rs, processed := w.processed ++ [filename] }
              log := s.log ++ ds }
      | [] =>
        if s.jobsClosed then some { s with ws := s.ws.set i { w with pc := .signalling } }
        else none
    | .busy [] => some { s with ws := s.ws.set i { w with pc := .idle } }
    | .busy (r :: rs) =>
      if s.resultsClosed then some { s with panicked := true }
      else if s.results.length < resultsCap c then
        some { s with results := s.results ++ [r], ws := s.ws.set i { w with pc := .busy rs } }
      else if resultsCap c = 0 ∧ s.main = .draining then
        some { s with printed := s.printed ++ [r], ws := s.ws.set i { w with pc := .busy rs } }
      else none
    | .signalling =>
      if s.done < c.workers then
        some { s with
          done := s.done + 1
          ws := s.ws.set i { w with pc := .finished, signals := w.signals + 1 } }
      else none
    | .finished => none

/-- One move of `awaitCompletion`: receive a done signal, or close `results`
after the loop. -/
def stepAwait (c : Config) (s : State) : Option State :=
  match s.awaiter with
  | .waiting i =>
    if i < c.workers then
      if 0 < s.done then
        some { s with done := s.done - 1, received := s.received + 1, awaiter := .waiting (i + 1) }
      else none
    else if s.resultsClosed then some { s with panicked := true }
    else some { s with resultsClosed := true, closes := s.closes + 1, awaiter := .finished }
  | _ => none

/-- One move of a goroutine; nothing moves once the program has ended. -/
def step (c : Config) (a : Actor) (s : State) : Option State :=
  if s.aborted ∨ s.panicked ∨ s.main = .exited then none
  else
    match a with
    | .main => stepMain c s
    | .addJobs => stepAddJobs c s
    | .doJobs i => stepDoJobs c i s
    | .awaitCompletion => stepAwait c s

/-- The state after the goroutines have moved in the order of the schedule;
`none` when the schedule asks a blocked goroutine to move. -/
def run (c : Config) : List Actor → State → Option State
  | [], s => some s
  | a :: sched, s =>
    match step c a s with
    | none => none
    | some s2 => run c sched s2

/-- The Done state: `main` has returned from `processResults`, `addJobs`, all
`workers` workers and `awaitCompletion` have returned, and the program
neither aborted nor panicked. -/
def Done (c : Config) (s : State) : Prop :=
  s.main = .exited ∧ s.adder = .finished ∧ s.ws.length = c.workers ∧
  (∀ w ∈ s.ws, w.pc = .finished) ∧ s.awaiter = .finished ∧
  s.aborted = false ∧ s.panicked = false

/-- The steps a Job costs once it is in `jobs`: it is received, each of its
Results is sent and then printed, and `job.Do` returns. -/
def jobCost (c : Config) (filename : Str) : Nat :=
  match c.lineRx with
  | none => 0
  | some lineRx =>
    match Job.Do c.fs lineRx filename with
    | none => 0
    | some (rs, _) => 2 + 2 * rs.length

/-- The steps `main` has still to make itself, and for the workers it has
not started yet. -/
def mainCost (c : Config) : MainPc → Nat
  | .start => 4 * c.workers + 3
  | .spawning k => 4 * (c.workers - k) + 2
  | .draining => 1
  | .exited => 0

/-- The steps `addJobs` has still to make, and those of the Jobs it will send. -/
def addCost (c : Config) : AddPc → Nat
  | .notStarted => (c.filenames.map (fun f => 1 + jobCost c f)).sum + 1
  | .running t => (t.map (fun f => 1 + jobCost c f)).sum + 1
  | .finished => 0

/-- The steps a worker has still to make with its current Job and to leave,
and those its Results and its done signal cost the receivers. -/
def workerCost : WorkerPc → Nat
  | .idle => 3
  | .busy pending => 2 * pending.length + 4
  | .signalling => 2
  | .finished => 0

/-- The `close(results)` of `awaitCompletion`. -/
def awaitCost : AwaitPc → Nat
  | .finished => 0
  | _ => 1

/-- A bound on the number of steps a run can still make from a state. -/
def stepsLeft (c : Config) (s : State) : Nat :=
  if s.aborted then 0
  else
    mainCost c s.main + addCost c s.adder + (s.ws.map (fun w => workerCost w.pc)).sum +
    (s.jobs.map (jobCost c)).sum + s.results.length + s.done + awaitCost s.awaiter

/-- The file names `addJobs` has still to send. -/
def todo (c : Config) : AddPc → List Str
  | .notStarted => c.filenames
  | .running t => t
  | .finished => []

/-- What holds in every state a run can reach. -/
structure Inv (c : Config) (s : State) : Prop where
  notPanicked : s.panicked = false
  abortedStart : s.aborted = true → c.lineRx = none ∧ s.main = .start
  patternOk : s.main ≠ .start → c.lineRx ≠ none
  mainStart : s.main = .start → s.ws = [] ∧ s.adder = .notStarted ∧ s.awaiter = .notStarted ∧
    s.jobs = [] ∧ s.results = [] ∧ s.done = 0 ∧ s.printed = [] ∧ s.jobsClosed = false
  mainSpawning : ∀ k, s.main = .spawning k → s.ws.length = k ∧ k ≤ c.workers ∧
    s.awaiter = .notStarted ∧ s.adder ≠ .notStarted
  mainLate : s.main = .draining ∨ s.main = .exited → s.ws.length = c.workers ∧
    s.awaiter ≠ .notStarted ∧ s.adder ≠ .notStarted
  awaitNotStarted : s.awaiter = .notStarted →
    s.received = 0 ∧ s.resultsClosed = false ∧ s.closes = 0
  awaitWaiting : ∀ i, s.awaiter = .waiting i →
    i ≤ c.workers ∧ s.received = i ∧ s.resultsClosed = false ∧ s.closes = 0
  awaitFinished : s.awaiter = .finished → s.received = c.workers ∧ s.resultsClosed = true ∧
    s.closes = 1 ∧ s.done = 0 ∧ ∀ w ∈ s.ws, w.pc = .finished
  signals : ∀ w ∈ s.ws, w.signals = if w.pc = .finished then 1 else 0
  doneCount : s.done + s.received = (s.ws.map (fun w => w.signals)).sum
  adderClosed : s.jobsClosed = true ↔ s.adder = .finished
  workerLeft : ∀ w ∈ s.ws, w.pc = .signalling ∨ w.pc = .finished →
    s.jobsClosed = true ∧ s.jobs = []
  exitedClosed : s.main = .exited → s.resultsClosed = true ∧ s.results = []
  units : ((s.ws.map (fun w => w.processed)).flatten ++ s.jobs ++ todo c s.adder).Perm
    c.filenames

/-- The Results `job.Do` sends for a file name. -/
def resultsOf (c : Config) (filename : Str) : List Result :=
  match c.lineRx with
  | none => []
  | some lineRx =>
    match Job.Do c.fs lineRx filename with
    | none => []
    | some (rs, _) => rs

/-- The lines `job.Do` logs for a file name. -/
def logOf (c : Config) (filename : Str) : List Diag :=
  match c.lineRx with
  | none => []
  | some lineRx =>
    match Job.Do c.fs lineRx filename with
    | none => []
    | some (_, ds) => ds

/-- The Results a worker has still to send for its current Job. -/
def pendingOf (w : Worker) : List Result :=
  match w.pc with
  | .busy pending => pending
  | _ => []

/-- What holds in every state a run can reach: the history of the Results and
of the log. -/
structure Hist (c : Config) (s : State) : Prop where
  results : (s.printed ++ s.results ++ (s.ws.map pendingOf).flatten ++
      ((s.jobs ++ todo c s.adder).map (resultsOf c)).flatten).Perm
    ((c.filenames.map (resultsOf c)).flatten)
  log : s.aborted = false →
    (s.log ++ ((s.jobs ++ todo c s.adder).map (logOf c)).flatten).Perm
      ((c.filenames.map (logOf c)).flatten)

end Cgrep

/-! ### apachereport: the goroutines of `main`

The same kind of state machine as for cgrep. `log.Fatal` in `readLines` sets
`aborted` and ends the program. -/

namespace Apache

/-- What a run is started with: `workers`, the files and `os.Args[1]`. -/
structure Config where
  workers : Nat
  fs : FileSystem
  filename : Str

/-- Where `main` is: before `go readLines`; in `processLines` with `k`
workers started; in the loop of `waitUntil` at index `i`; returned, after
`showResults`. -/
inductive MainPc where
  | start
  | spawning (k : Nat)
  | waiting (i : Nat)
  | exited
  deriving DecidableEq, Repr

/-- Where `readLines` is: at `os.Open`; in the loop with the reader's state;
at `close(lines)`; returned. -/
inductive ReaderPc where
  | notStarted
  | opening
  | reading (reader : File)
  | closing
  | finished
  deriving DecidableEq, Repr

/-- Where a worker of `processLines` is: at `range lines`; with a line
received; at `done <- struct{}{}`; returned. -/
inductive WorkerPc where
  | idle
  | holding (line : Str)
  | signalling
  | finished
  deriving DecidableEq, Repr

/-- A started worker, with its history: the done signals it has sent and the
lines it has received. -/
structure Worker where
  pc : WorkerPc
  signals : Nat
  processed : List Str
  deriving DecidableEq, Repr

/-- The program state: the goroutines, the channels `lines` and `done` (only
its number of signals), the page map, what `showResults` was given, the log,
and the history: the lines `readLines` has sent (`produced`), the lines whose
loop body has run (`updated`) and the signals `waitUntil` has received. -/
structure State where
  main : MainPc
  reader : ReaderPc
  ws : List Worker
  lines : List Str
  linesClosed : Bool
  done : Nat
  pageMap : SafeMap
  shown : Option SafeMap
  produced : List Str
  updated : List Str
  received : Nat
  log : List Diag
  aborted : Bool
  panicked : Bool
  deriving DecidableEq, Repr

/-- The goroutines. -/
inductive Actor where
  | main
  | readLines
  | worker (i : Nat)
  deriving DecidableEq, Repr

/-- The state in which `main` is entered (with `pageMap := safemap.New()`). -/
def init : State :=
  { main := .start, reader := .notStarted, ws := [], lines := [], linesClosed := false,
    done := 0, pageMap := SafeMap.New, shown := none, produced := [], updated := [],
    received := 0, log := [], aborted := false, panicked := false }

/-- One move of `main`: `go readLines`; in `processLines` start the next
worker, or return; in `waitUntil` receive a done signal; after the loop
`showResults` takes the snapshot and `main` returns. -/
def stepMain (c : Config) (s : State) : Option State :=
  match s.main with
  | .start => some { s with main := .spawning 0, reader := .opening }
  | .spawning k =>
    if k < c.workers then
      some { s with main := .spawning (k + 1), ws := s.ws ++ [⟨.idle, 0, []⟩] }
    else some { s with main := .waiting 0 }
  | .waiting i =>
    if i < c.workers then
      if 0 < s.done then
        some { s with done := s.done - 1, received := s.received + 1, main := .waiting (i + 1) }
      else none
    else some { s with shown := some (SafeMap.Close s.pageMap), main := .exited }
  | .exited => none

/-- One move of `readLines`: open the file (or `log.Fatal`); one turn of the
loop, which blocks while it has a line to send and `lines` is full; close
`lines`. -/
def stepReadLines (c : Config) (s : State) : Option State :=
  match s.reader with
  | .opening =>
    match c.fs c.filename with
    | none => some { s with aborted := true, log := s.log ++ [Diag.openFailed c.filename] }
    | some file => some { s with reader := .reading file }
  | .reading reader =>
    match ReadString reader with
    | (line, err, reader2) =>
      let next : ReaderPc := match err with
        | some _ => .closing
        | none => .reading reader2
      let log2 := match err with
        | some e => if e ≠ ReadErr.eof then s.log ++ [Diag.readFailed c.filename] else s.log
        | none => s.log
      if line ≠ [] then
        if s.linesClosed then some { s with panicked := true }
        else if s.lines.length < c.workers * 4 then
          some { s with
            lines := s.lines ++ [line], produced := s.produced ++ [line]
            reader := next, log := log2 }
        else none
      else some { s with reader := next, log := log2 }
  | .closing =>
    if s.linesClosed then some { s with panicked := true }
    else some { s with linesClosed := true, reader := .finished }
  | _ => none

/-- One move of worker `i`: receive a line; run the loop body on it; leave the
loop when `lines` is closed and empty; send the done signal. -/
def stepWorker (c : Config) (i : Nat) (s : State) : Option State :=
  match s.ws.get? i with
  | none => none
  | some w =>
    match w.pc with
    | .idle =>
      match s.lines with
      | line :: rest =>
        some { s with
          lines := rest
          ws := s.ws.set i { w with pc := .holding line, processed := w.processed ++ [line] } }
      | [] =>
        if s.linesClosed then some { s with ws := s.ws.set i { w with pc := .signalling } }
        else none
    | .holding line =>
      some { s with
        pageMap := processLine s.pageMap line, updated := s.updated ++ [line]
        ws := s.ws.set i { w with pc := .idle } }
    | .signalling =>
      if s.done < c.workers then
        some { s with
          done := s.done + 1
          ws := s.ws.set i { w with pc := .finished, signals := w.signals + 1 } }
      else none
    | .finished => none

/-- One move of a goroutine; nothing moves once the program has ended. -/
def step (c : Config) (a : Actor) (s : State) : Option State :=
  if s.aborted ∨ s.panicked ∨ s.main = .exited then none
  else
    match a with
    | .main => stepMain c s
    | .readLines => stepReadLines c s
    | .worker i => stepWorker c i s

/-- The state after the goroutines have moved in the order of the schedule;
`none` when the schedule asks a blocked goroutine to move. -/
def run (c : Config) : List Actor → State → Option State
  | [], s => some s
  | a :: sched, s =>
    match step c a s with
    | none => none
    | some s2 => run c sched s2

/-- The Done state: `main` has returned after `showResults`, `readLines` and
all `workers` workers have returned, and the program neither aborted nor
panicked. -/
def Done (c : Config) (s : State) : Prop :=
  s.main = .exited ∧ s.reader = .finished ∧ s.ws.length = c.workers ∧
  (∀ w ∈ s.ws, w.pc = .finished) ∧ s.shown = some s.pageMap ∧
  s.aborted = false ∧ s.panicked = false

/-- The done signals `waitUntil` has received, by where `main` is. -/
def mainReceived (c : Config) : MainPc → Nat
  | .start => 0
  | .spawning _ => 0
  | .waiting i => i
  | .exited => c.workers

/-- What holds in every state a run can reach: control and counting. -/
structure Inv (c : Config) (s : State) : Prop where
  notPanicked : s.panicked = false
  abortedOpen : s.aborted = true → c.fs c.filename = none
  mainStart : s.main = .start → s.ws = [] ∧ s.reader = .notStarted ∧ s.lines = [] ∧
    s.done = 0 ∧ s.linesClosed = false
  mainSpawning : ∀ k, s.main = .spawning k → s.ws.length = k ∧ k ≤ c.workers ∧
    s.reader ≠ .notStarted
  mainWaiting : ∀ i, s.main = .waiting i → s.ws.length = c.workers ∧ i ≤ c.workers ∧
    s.reader ≠ .notStarted
  mainExited : s.main = .exited → s.ws.length = c.workers ∧ s.reader ≠ .notStarted ∧
    s.done = 0 ∧ s.shown = some s.pageMap ∧ ∀ w ∈ s.ws, w.pc = .finished
  received : s.received = mainReceived c s.main
  shownNone : s.main ≠ .exited → s.shown = none
  signals : ∀ w ∈ s.ws, w.signals = if w.pc = .finished then 1 else 0
  doneCount : s.done + s.received = (s.ws.map (fun w => w.signals)).sum
  readerClosed : s.linesClosed = true ↔ s.reader = .finished
  workerLeft : ∀ w ∈ s.ws, w.pc = .signalling ∨ w.pc = .finished →
    s.linesClosed = true ∧ s.lines = []

/-- The steps `main` has still to make itself, and for the workers it has
not started yet. -/
def mainCost (c : Config) : MainPc → Nat
  | .start => 4 * c.workers + 3
  | .spawning k => 4 * (c.workers - k) + 2
  | .waiting _ => 1
  | .exited => 0

/-- A bound on the steps `readLines` has still to make, and on those of the
lines it will send. -/
def readerCost (c : Config) : ReaderPc → Nat
  | .notStarted => 1 + (match c.fs c.filename with
      | some f => 3 * f.data.length + 4
      | none => 0)
  | .opening => 1 + (match c.fs c.filename with
      | some f => 3 * f.data.length + 4
      | none => 0)
  | .reading f => 3 * f.data.length + 4
  | .closing => 1
  | .finished => 0

/-- The steps a worker has still to make with its line and to leave, and the
receive of its done signal. -/
def workerCost : WorkerPc → Nat
  | .idle => 3
  | .holding _ => 4
  | .signalling => 2
  | .finished => 0

/-- A bound on the number of steps a run can still make from a state. -/
def stepsLeft (c : Config) (s : State) : Nat :=
  if s.aborted then 0
  else
    mainCost c s.main + readerCost c s.reader + (s.ws.map (fun w => workerCost w.pc)).sum +
    2 * s.lines.length + s.done

/-- The line a worker has received and not yet worked on. -/
def held (w : Worker) : Option Str :=
  match w.pc with
  | .holding line => some line
  | _ => none

/-- The units `readLines` sends in the whole run, as the function `readLines`
gives them. -/
def sentUnits (c : Config) : Option (List Str) :=
  (readLines c.fs c.filename).map (fun o => o.sent)

/-- What holds in every state a run can reach: the history of the units. -/
structure Hist (c : Config) (s : State) : Prop where
  units : ((s.ws.map (fun w => w.processed)).flatten ++ s.lines).Perm s.produced
  heldUnits : (s.updated ++ s.ws.filterMap held).Perm
    (s.ws.map (fun w => w.processed)).flatten
  pageMap : s.pageMap = processAll SafeMap.New s.updated
  early : s.reader = .notStarted ∨ s.reader = .opening → s.produced = []
  unopened : c.fs c.filename = none → s.reader = .notStarted ∨ s.reader = .opening
  reading : ∀ f, s.reader = .reading f →
    (readLinesLoop c.filename (f.data.length + 1) f s.produced).map Prod.fst = sentUnits c
  closed : s.reader = .closing ∨ s.reader = .finished → sentUnits c = some s.produced

end Apache

/-! ### americanise

Texts are sequences of code points; lengths and sizes are counted in them. -/

/-- The function `unicode.IsSpace`. -/
def isSpace (c : Char) : Bool :=
  c = '\t' || c = '\n' || c.toNat = 0x0b || c.toNat = 0x0c || c = '\r' || c = ' ' ||
  c.toNat = 0x85 || c.toNat = 0xa0 || c.toNat = 0x1680 ||
  (0x2000 ≤ c.toNat && c.toNat ≤ 0x200a) || c.toNat = 0x2028 || c.toNat = 0x2029 ||
  c.toNat = 0x202f || c.toNat = 0x205f || c.toNat = 0x3000

/-- The scan of `strings.Fields`: `cur` is the field being read. -/
def FieldsAux : Str → Str → List Str
  | [], cur => if cur = [] then [] else [cur]
  | c :: cs, cur =>
    if isSpace c then
      if cur = [] then FieldsAux cs [] else cur :: FieldsAux cs []
    else FieldsAux cs (cur ++ [c])

/-- The function `strings.Fields(s)`: the maximal runs of non-space characters. -/
def Fields (s : Str) : List Str := FieldsAux s []

/-- The function `strings.Split(s, "\n")`: the pieces between the newlines, one more than
there are newlines. -/
def Split : Str → List Str
  | [] => [[]]
  | c :: cs =>
    if c = '\n' then [] :: Split cs
    else match Split cs with
      | [] => [[c]]
      | piece :: pieces => (c :: piece) :: pieces

/-- A Go `map[string]string`: the assignments made, the latest first. -/
abbrev StrMap := List (Str × Str)

/-- The lookup `m[key]` with its `found` flag. -/
def StrMap.get : StrMap → Str → Option Str
  | [], _ => none
  | (k, v) :: m, key => if k = key then some v else StrMap.get m key

/-- The loop of `makeReplacerFunction` over the lines of the table. -/
def usForBritish (lines : List Str) : StrMap :=
  lines.foldl (fun m line =>
    match Fields line with
    | [british, us] => (british, us) :: m
    | _ => m) []

/-- The closure that `makeReplacerFunction` returns, for the table text. -/
def replacer (text : Str) (word : Str) : Str :=
  match StrMap.get (usForBritish (Split text)) word with
  | some usWord => usWord
  | none => word

/-- The function `makeReplacerFunction(file)`; the table is `none` when `ioutil.ReadFile`
fails, and then so is the result. -/
def makeReplacerFunction (table : Option Str) : Option (Str → Str) :=
  match table with
  | none => none
  | some text => some (replacer text)

/-- The class `[A-Za-z]`. -/
def isLetter (c : Char) : Bool :=
  ('A' ≤ c && c ≤ 'Z') || ('a' ≤ c && c ≤ 'z')

/-- The scan of `ReplaceAllStringFunc` for `[A-Za-z]+`: `word` is the match
being read; a match ends at the first character that is not a letter. -/
def replaceWords (repl : Str → Str) : Str → Str → Str
  | [], word => if word = [] then [] else repl word
  | c :: cs, word =>
    if isLetter c then replaceWords repl cs (word ++ [c])
    else (if word = [] then [] else repl word) ++ c :: replaceWords repl cs []

/-- The call `wordRx.ReplaceAllStringFunc(line, repl)` for `wordRx = [A-Za-z]+`. -/
def ReplaceAllStringFunc (repl : Str → Str) (line : Str) : Str :=
  replaceWords repl line []

/-- An `io.Writer`, the `outFile` of `americanise`: the text it has taken, and
how many more characters it takes before its `Write` fails (`none`: it never
fails). -/
structure Writer where
  data : Str
  room : Option Nat
  deriving DecidableEq, Repr

/-- The call `w.Write(p)`: the writer after the call, the count `n` and whether
an error is returned. A text that does not fit is written as far as it fits,
and the error is returned with the short count. -/
def Writer.Write (w : Writer) (p : Str) : Writer × Nat × Bool :=
  match w.room with
  | none => (⟨w.data ++ p, none⟩, p.length, false)
  | some r =>
    if p.length ≤ r then (⟨w.data ++ p, some (r - p.length)⟩, p.length, false)
    else (⟨w.data ++ p.take r, some 0⟩, r, true)

/-- A `bufio.Writer`: the writer below it, the text in its buffer, the size of
the buffer, and whether a write below has failed (the error is then kept and
returned by every later call). -/
structure BufWriter where
  wr : Writer
  buf : Str
  size : Nat
  err : Bool
  deriving DecidableEq, Repr

/-- The size of the buffer of `bufio.NewWriter`. -/
def defaultBufSize : Nat := 4096

/-- The function `bufio.NewWriter(w)`. -/
def NewWriter (w : Writer) : BufWriter := ⟨w, [], defaultBufSize, false⟩

/-- The method `Available`: the room left in the buffer. -/
def BufWriter.Available (b : BufWriter) : Nat := b.size - b.buf.length

/-- The method `Flush`: the buffer is written below; after a failed write the
part not taken stays in the buffer and the error is kept. Returns the writer
after the call and whether an error is returned. -/
def BufWriter.Flush (b : BufWriter) : BufWriter × Bool :=
  if b.err then (b, true)
  else if b.buf = [] then (b, false)
  else
    match b.wr.Write b.buf with
    | (w, _, false) => ({ b with wr := w, buf := [] }, false)
    | (w, n, true) => ({ b with wr := w, buf := b.buf.drop n, err := true }, true)

/-- The loop of the method `WriteString`: while the text does not fit in the
buffer and no write has failed, the buffer is filled and flushed. Returns the
writer and the text still to be copied. -/
def BufWriter.WriteStringLoop : Nat → BufWriter → Str → Option (BufWriter × Str)
  | 0, _, _ => none
  | fuel + 1, b, s =>
    if b.Available < s.length ∧ b.err = false then
      BufWriter.WriteStringLoop fuel
        ({ b with buf := b.buf ++ s.take b.Available }).Flush.1 (s.drop b.Available)
    else some (b, s)

/-- The method `WriteString(s)`: after the loop the kept error is returned, or
the rest of the text is copied to the buffer. Returns the writer after the call
and whether an error is returned. -/
def BufWriter.WriteString (b : BufWriter) (s : Str) : Option (BufWriter × Bool) :=
  match BufWriter.WriteStringLoop (s.length + 2) b s with
  | none => none
  | some (b2, s2) =>
    if b2.err then some (b2, true)
    else some ({ b2 with buf := b2.buf ++ s2 }, false)

/-- The errors `americanise` returns. -/
inductive AmericaniseErr where
  | tableUnreadable
  | readFailed
  | writeFailed
  deriving DecidableEq, Repr

/-- How `americanise` ends: the error returned (`none` for `nil`) and `outFile`
after the call. -/
structure Outcome where
  err : Option AmericaniseErr
  outFile : Writer
  deriving DecidableEq, Repr

/-- The `for !eof` loop of `americanise`, up to its `return`: the value of
`err` and the buffered writer then. -/
def americaniseLoop (repl : Str → Str) :
    Nat → File → BufWriter → Option (Option AmericaniseErr × BufWriter)
  | 0, _, _ => none
  | fuel + 1, reader, writer =>
    match ReadString reader with
    | (line, err, reader2) =>
      if err = some ReadErr.other then some (some AmericaniseErr.readFailed, writer)
      else
        match writer.WriteString (ReplaceAllStringFunc repl line) with
        | none => none
        | some (writer2, true) => some (some AmericaniseErr.writeFailed, writer2)
        | some (writer2, false) =>
          if err = some ReadErr.eof then some (none, writer2)
          else americaniseLoop repl fuel reader2 writer2

/-- The function `americanise(inFile, outFile)`, with the table file: the loop,
then the deferred function, which flushes the writer when `err` is `nil` and
returns the error of the flush. -/
def americanise (table : Option Str) (inFile : File) (outFile : Writer) : Option Outcome :=
  match makeReplacerFunction table with
  | none => some ⟨some AmericaniseErr.tableUnreadable, (NewWriter outFile).wr⟩
  | some repl =>
    match americaniseLoop repl (inFile.data.length + 1) inFile (NewWriter outFile) with
    | none => none
    | some (some e, writer) => some ⟨some e, writer.wr⟩
    | some (none, writer) =>
      match writer.Flush with
      | (writer2, false) => some ⟨none, writer2.wr⟩
      | (writer2, true) => some ⟨some AmericaniseErr.writeFailed, writer2.wr⟩

/-- In the words of the spec: the ASCII letters. -/
def asciiLetters : List Char :=
  "ABCDEFGHIJKLMNOPQRSTUVWXYZabcdefghijklmnopqrstuvwxyz".toList

/-- In the words of the spec: the whitespace characters (those of Unicode's
White_Space property). -/
def whitespace : List Char :=
  [Char.ofNat 0x09, Char.ofNat 0x0a, Char.ofNat 0x0b, Char.ofNat 0x0c, Char.ofNat 0x0d,
   Char.ofNat 0x20, Char.ofNat 0x85, Char.ofNat 0xa0, Char.ofNat 0x1680,
   Char.ofNat 0x2000, Char.ofNat 0x2001, Char.ofNat 0x2002, Char.ofNat 0x2003,
   Char.ofNat 0x2004, Char.ofNat 0x2005, Char.ofNat 0x2006, Char.ofNat 0x2007,
   Char.ofNat 0x2008, Char.ofNat 0x2009, Char.ofNat 0x200a, Char.ofNat 0x2028,
   Char.ofNat 0x2029, Char.ofNat 0x202f, Char.ofNat 0x205f, Char.ofNat 0x3000]

/-- In the words of the spec: the lines of the table, the text between its
newlines. -/
def tableLines (text : Str) : List Str :=
  text.splitOnP (fun c => decide (c = '\n'))

/-- In the words of the spec: the whitespace-separated fields of a line. -/
def lineFields (line : Str) : List Str :=
  (line.splitOnP (fun c => decide (c ∈ whitespace))).filter (fun f => decide (f ≠ []))

/-- In the words of the spec: the pairs of the table lines with exactly two
whitespace-separated fields, in the order of the lines. -/
def tableEntries (text : Str) : List (Str × Str) :=
  (tableLines text).filterMap (fun line =>
    match lineFields line with
    | [british, us] => some (british, us)
    | _ => none)

/-- In the words of the spec: the second field of the last table line with
exactly two fields whose first field is the word. -/
def tableEntry (text : Str) (word : Str) : Option Str :=
  (((tableEntries text).filter (fun p => decide (p.1 = word))).getLast?).map (fun p => p.2)

/-- In the words of the spec: is the run a run of letters. -/
def isWord (seg : Str) : Bool := seg.all (fun c => decide (c ∈ asciiLetters))

/-- In the words of the spec: the maximal runs of letters and the maximal runs
of other characters of a text, in order. -/
def segments : Str → List Str
  | [] => []
  | c :: cs =>
    match segments cs with
    | [] => [[c]]
    | [] :: segs => [c] :: segs
    | (d :: seg) :: segs =>
      if decide (c ∈ asciiLetters) = decide (d ∈ asciiLetters) then (c :: d :: seg) :: segs
      else [c] :: (d :: seg) :: segs

/-- In the words of the spec: a run of letters that has a table entry becomes
that entry; every other run stays. -/
def substituteSegment (text : Str) (seg : Str) : Str :=
  if isWord seg then
    match tableEntry text seg with
    | some us => us
    | none => seg
  else seg

/-- In the words of the spec: the substitution applied to the whole text at
once. -/
def substituteText (table : Str) (text : Str) : Str :=
  ((segments text).map (substituteSegment table)).flatten

/-- In the words of the spec: the output file takes the text, it has room for
all of it. -/
def Writer.takes (w : Writer) (text : Str) : Bool :=
  match w.room with
  | none => true
  | some r => decide (text.length ≤ r)

/-- The buffered writer once the text `out` has been handed to it without an
error: a part `fl` of `out` has been written to the file, which was `w0` at
the start, and the rest is in the buffer. -/
def Buffered (w0 : Writer) (out : Str) (b : BufWriter) : Prop :=
  b.err = false ∧ 0 < b.size ∧ b.buf.length ≤ b.size ∧
  ∃ fl, fl ++ b.buf = out ∧ b.wr.data = w0.data ++ fl ∧
    b.wr.room = w0.room.map (fun r => r - fl.length) ∧ w0.takes fl = true

/-- What is written for the word being read when it ends. -/
def flush (repl : Str → Str) (word : Str) : Str := if word = [] then [] else repl word

/-- A run as the replacing function rewrites it. -/
def rewriteSegment (repl : Str → Str) (seg : Str) : Str :=
  match seg with
  | [] => []
  | d :: rest => if isLetter d then repl (d :: rest) else d :: rest

/-- The table and the input of the example: a word given twice, a line of three
fields, a line of one field, a word with a capital, a last line without
newline. -/
def americaniseTable : Str :=
  "colour colr\ncentre  center\none two three\nalone\n colour\tcolor \n".toList

/-- The input of the example. -/
def americaniseInput : Str := "The colour of the centre.\nColour, one alone".toList

/-- The input of the example with `colour` and `centre` replaced. -/
def americaniseOutput : Str := "The color of the center.\nColour, one alone".toList

/-- Is the line of the log an open failure. -/
def Diag.isOpenFailed : Diag → Bool
  | .openFailed _ => true
  | _ => false

/-! ### Example runs -/

/-- A cgrep run: one worker, the file `f` with the lines `foo` and `bar`, the
pattern `foo`. -/
def cgrepExample : Cgrep.Config :=
  { workers := 1, fs := fun _ => some ⟨"foo\nbar\n".toList, false⟩,
    lineRx := some (fun l => l = "foo".toList), filenames := ["f".toList] }

/-- An apachereport run: one worker, a log of two requests. -/
def apacheExample : Apache.Config :=
  { workers := 1, fs := fun _ => some ⟨"GET /a.html\nGET /a.html".toList, false⟩,
    filename := "f".toList }

/-- The state of `cgrepExample` after the first two steps of `main`. -/
def cgrepStarted : Cgrep.State :=
  { Cgrep.init with
    main := .spawning 1, adder := .running ["f".toList], ws := [⟨.idle, 0, []⟩] }

/-- The state of `apacheExample` after the first two steps of `main`. -/
def apacheStarted : Apache.State :=
  { Apache.init with main := .spawning 1, reader := .opening, ws := [⟨.idle, 0, []⟩] }

/-- The state in which cgrep ends when the pattern does not compile. -/
def Cgrep.abortedInit : Cgrep.State :=
  { Cgrep.init with aborted := true, log := [Diag.invalidRegexp] }

/-- An apachereport run whose input file cannot be opened. -/
def apacheNoFile : Apache.Config :=
  { workers := 1, fs := fun _ => none, filename := "f".toList }

/-- A cgrep run whose pattern does not compile. -/
def cgrepNoPattern : Cgrep.Config :=
  { workers := 1, fs := fun _ => none, lineRx := none, filenames := ["f".toList] }

/-- The state of `apacheNoFile` after `main` has started `readLines` and a
worker, and `readLines` has failed to open the file. -/
def apacheAborted : Apache.State :=
  { Apache.init with
    main := .spawning 1, reader := .opening, ws := [⟨.idle, 0, []⟩],
    log := [Diag.openFailed "f".toList], aborted := true }

/-- A schedule that takes `cgrepExample` to the Done state. -/
def cgrepSchedule : List Cgrep.Actor :=
  [.main, .main, .main, .addJobs, .addJobs, .doJobs 0, .doJobs 0, .main, .doJobs 0,
   .doJobs 0, .doJobs 0, .awaitCompletion, .awaitCompletion, .main]

/-- The state of `cgrepExample` after `cgrepSchedule`. -/
def cgrepDone : Cgrep.State :=
  { main := .exited, adder := .finished, ws := [⟨.finished, 1, ["f".toList]⟩],
    awaiter := .finished, jobs := [], jobsClosed := true, results := [],
    resultsClosed := true, done := 0, received := 1, closes := 1,
    printed := [⟨"f".toList, 1, "foo".toList⟩], log := [], aborted := false,
    panicked := false }

/-- A schedule that takes `apacheExample` to the Done state. -/
def apacheSchedule : List Apache.Actor :=
  [.main, .main, .readLines, .readLines, .readLines, .readLines, .worker 0, .worker 0,
   .worker 0, .worker 0, .worker 0, .main, .worker 0, .main, .main]

/-- The state of `apacheExample` after `apacheSchedule`. -/
def apacheDone : Apache.State :=
  { main := .exited, reader := .finished,
    ws := [⟨.finished, 1, ["GET /a.html\n".toList, "GET /a.html".toList]⟩],
    lines := [], linesClosed := true, done := 0, pageMap := [("/a.html".toList, 2)],
    shown := some [("/a.html".toList, 2)],
    produced := ["GET /a.html\n".toList, "GET /a.html".toList],
    updated := ["GET /a.html\n".toList, "GET /a.html".toList],
    received := 1, log := [], aborted := false, panicked := false }

/-- A cgrep run: two workers, the file `b` that cannot be opened and the file
`a` with the lines `foo` and `bar`, the pattern `foo`. -/
def cgrepMixed : Cgrep.Config :=
  { workers := 2,
    fs := fun f => if f = "a".toList then some ⟨"foo\nbar".toList, false⟩ else none,
    lineRx := some (fun l => l = "foo".toList), filenames := ["b".toList, "a".toList] }

/-- A schedule that takes `cgrepMixed` to the Done state, each worker
receiving one Job. -/
def cgrepMixedSchedule : List Cgrep.Actor :=
  [.main, .main, .main, .main, .addJobs, .addJobs, .addJobs, .doJobs 0, .doJobs 1,
   .doJobs 0, .doJobs 1, .main, .doJobs 1, .doJobs 0, .doJobs 1, .doJobs 0, .doJobs 1,
   .awaitCompletion, .awaitCompletion, .awaitCompletion, .main]

/-- The state of `cgrepMixed` after `cgrepMixedSchedule`. -/
def cgrepMixedDone : Cgrep.State :=
  { main := .exited, adder := .finished,
    ws := [⟨.finished, 1, ["b".toList]⟩, ⟨.finished, 1, ["a".toList]⟩],
    awaiter := .finished, jobs := [], jobsClosed := true, results := [],
    resultsClosed := true, done := 0, received := 2, closes := 1,
    printed := [⟨"a".toList, 1, "foo".toList⟩], log := [Diag.openFailed "b".toList],
    aborted := false, panicked := false }

/-- The units of a text: no unit is empty, a newline is only the last
character of a unit, and every unit but the last ends in a newline. -/
def AreLines (units : List Str) : Prop :=
  (∀ u ∈ units, u ≠ []) ∧ (∀ u ∈ units, '\n' ∉ u.dropLast) ∧
  (∀ u ∈ units.dropLast, u.getLast? = some '\n')

/-- The counter of a key as the table shows it: absent for `0`. -/
def shown (c : Nat) : Option Int := if c = 0 then none else some (c : Int)

/-! ## Theorems -/

theorem wrapInt_of_lt (x : Int) (h0 : 0 ≤ x) (h1 : x < 2 ^ 63) : wrapInt x = x := by
  unfold wrapInt
  omega

theorem Find_Insert (m : SafeMap) (key k : Str) (v : Int) :
    SafeMap.Find (SafeMap.Insert m key v) k
      = if key = k then some v else SafeMap.Find m k := by
  induction m with
  | nil => simp [SafeMap.Insert, SafeMap.Find]
  | cons p m ih =>
    obtain ⟨k', v'⟩ := p
    by_cases h : k' = key
    · subst h
      by_cases h2 : k' = k <;> simp [SafeMap.Insert, SafeMap.Find, h2]
    · by_cases h2 : k' = k
      · subst h2
        have : ¬ key = k' := fun e => h e.symm
        simp [SafeMap.Insert, SafeMap.Find, h, this]
      · simp [SafeMap.Insert, SafeMap.Find, h, h2, ih]

theorem Find_Update_incrementer (m : SafeMap) (key k : Str) :
    SafeMap.Find (SafeMap.Update m key incrementer) k
      = if key = k then
          (match SafeMap.Find m k with
            | some v => some (wrapInt (v + 1))
            | none => some 1)
        else SafeMap.Find m k := by
  unfold SafeMap.Update
  by_cases h : key = k
  · subst h
    cases hf : SafeMap.Find m key <;> simp [Find_Insert, incrementer]
  · cases hf : SafeMap.Find m key <;> simp [Find_Insert, h]

theorem Find_applyUpdates (keys : List Str) (k : Str) :
    ∀ (m : SafeMap) (c : Nat), SafeMap.Find m k = shown c → c + keys.count k < 2 ^ 63 →
      SafeMap.Find (applyUpdates m keys) k = shown (c + keys.count k) := by
  induction keys with
  | nil => intro m c hm _; simpa [applyUpdates] using hm
  | cons key keys ih =>
    intro m c hm hc
    have hstep : applyUpdates m (key :: keys)
        = applyUpdates (SafeMap.Update m key incrementer) keys := by
      simp [applyUpdates]
    rw [hstep]
    by_cases h : key = k
    · subst h
      have hc2 : (c + 1) + keys.count key < 2 ^ 63 := by
        simp only [List.count_cons_self] at hc; omega
      have hm2 : SafeMap.Find (SafeMap.Update m key incrementer) key = shown (c + 1) := by
        rw [Find_Update_incrementer, hm]
        by_cases hz : c = 0
        · subst hz; simp [shown]
        · have hw : wrapInt ((c : Int) + 1) = (c : Int) + 1 := by
            apply wrapInt_of_lt <;> omega
          simp [shown, hz, hw]
      rw [ih _ (c + 1) hm2 hc2, List.count_cons_self]
      congr 1; omega
    · have hcnt : (key :: keys).count k = keys.count k := by
        rw [List.count_cons_of_ne]; exact fun e => h e.symm
      rw [hcnt] at hc ⊢
      apply ih _ c _ hc
      rw [Find_Update_incrementer, if_neg h]; exact hm

theorem keys_Insert (m : SafeMap) (key : Str) (v : Int) :
    (SafeMap.Insert m key v).map Prod.fst
      = if key ∈ m.map Prod.fst then m.map Prod.fst else m.map Prod.fst ++ [key] := by
  induction m with
  | nil => simp [SafeMap.Insert]
  | cons p m ih =>
    obtain ⟨k', v'⟩ := p
    by_cases h : k' = key
    · subst h; simp [SafeMap.Insert]
    · have h2 : ¬ key = k' := fun e => h e.symm
      by_cases hin : key ∈ m.map Prod.fst
      · simp only [SafeMap.Insert, if_neg h, List.map_cons, ih, if_pos hin]
        simp [hin]
      · simp only [SafeMap.Insert, if_neg h, List.map_cons, ih, if_neg hin]
        simp only [List.mem_cons, h2, hin, or_self, if_false, List.cons_append]

theorem nodup_Insert (m : SafeMap) (key : Str) (v : Int) (h : (m.map Prod.fst).Nodup) :
    ((SafeMap.Insert m key v).map Prod.fst).Nodup := by
  rw [keys_Insert]
  split
  · exact h
  · rename_i hin
    rw [List.nodup_append]
    refine ⟨h, List.nodup_singleton _, ?_⟩
    intro a ha hb
    simp only [List.mem_singleton] at hb
    subst hb; exact hin ha

theorem nodup_applyUpdates (keys : List Str) :
    ∀ m : SafeMap, (m.map Prod.fst).Nodup → ((applyUpdates m keys).map Prod.fst).Nodup := by
  induction keys with
  | nil => intro m h; simpa [applyUpdates] using h
  | cons key keys ih =>
    intro m h
    have hstep : applyUpdates m (key :: keys)
        = applyUpdates (SafeMap.Update m key incrementer) keys := by
      simp [applyUpdates]
    rw [hstep]
    apply ih
    unfold SafeMap.Update
    split <;> exact nodup_Insert _ _ _ h

/-- C1. Aggregator counting: the atomic `Update(key, incrementer)` calls of the
workers, applied in any order to the empty map, leave every key mapped to the
number of its occurrences (a key never updated is absent), each key is held
once, and so the snapshot is the same for every permutation of the updates.
The length bound is the range of Go's `int` counter. -/
theorem aggregator_counts (keys : List Str) (hlen : keys.length < 2 ^ 63) :
    (∀ k, SafeMap.Find (SafeMap.Close (applyUpdates SafeMap.New keys)) k
        = if keys.count k = 0 then none else some (keys.count k : Int)) ∧
    ((SafeMap.Close (applyUpdates SafeMap.New keys)).map Prod.fst).Nodup ∧
    (∀ keys2 : List Str, keys2.Perm keys → ∀ k,
        SafeMap.Find (SafeMap.Close (applyUpdates SafeMap.New keys2)) k
          = SafeMap.Find (SafeMap.Close (applyUpdates SafeMap.New keys)) k) := by
  have main : ∀ ks : List Str, ks.length < 2 ^ 63 → ∀ k,
      SafeMap.Find (applyUpdates SafeMap.New ks) k = shown (ks.count k) := by
    intro ks hks k
    have hle : ks.count k ≤ ks.length := List.count_le_length _ _
    have := Find_applyUpdates ks k SafeMap.New 0 (by simp [SafeMap.New, SafeMap.Find, shown])
      (by omega)
    simpa using this
  refine ⟨fun k => ?_, ?_, fun keys2 hp k => ?_⟩
  · simpa [SafeMap.Close, shown] using main keys hlen k
  · exact nodup_applyUpdates keys SafeMap.New (by simp [SafeMap.New])
  · have hl2 : keys2.length < 2 ^ 63 := by rw [hp.length_eq]; exact hlen
    simp only [SafeMap.Close]
    rw [main keys2 hl2 k, main keys hlen k]
    unfold List.count
    rw [hp.countP_eq]

/-- C1 at the keys `a`, `b`, `a`. -/
theorem aggregator_counts_witness :
    (["a".toList, "b".toList, "a".toList] : List Str).length < 2 ^ 63 ∧
    SafeMap.Close (applyUpdates SafeMap.New ["a".toList, "b".toList, "a".toList])
      = [("a".toList, 2), ("b".toList, 1)] ∧
    (∀ k, SafeMap.Find
        (SafeMap.Close (applyUpdates SafeMap.New ["a".toList, "b".toList, "a".toList])) k
        = if (["a".toList, "b".toList, "a".toList] : List Str).count k = 0 then none
          else some ((["a".toList, "b".toList, "a".toList] : List Str).count k : Int)) :=
  ⟨by decide, by decide,
    (aggregator_counts ["a".toList, "b".toList, "a".toList] (by decide)).1⟩

/-! ### apachereport: counting pages -/

theorem cutLine_some (data line rest : Str) (h : cutLine data = some (line, rest)) :
    data = line ++ rest ∧ line ≠ [] ∧ line.getLast? = some '\n' ∧ '\n' ∉ line.dropLast := by
  induction data generalizing line rest with
  | nil => simp [cutLine] at h
  | cons c cs ih =>
    unfold cutLine at h
    by_cases hc : c = '\n'
    · rw [if_pos hc] at h
      simp only [Option.some.injEq, Prod.mk.injEq] at h
      obtain ⟨h1, h2⟩ := h
      subst h1 h2 hc
      simp
    · rw [if_neg hc] at h
      cases hcut : cutLine cs with
      | none => rw [hcut] at h; simp at h
      | some p =>
        obtain ⟨l, r⟩ := p
        rw [hcut] at h
        simp only [Option.some.injEq, Prod.mk.injEq] at h
        obtain ⟨h1, h2⟩ := h
        subst h1 h2
        obtain ⟨e, hne, hlast, hno⟩ := ih l r hcut
        refine ⟨by rw [e]; simp, by simp, ?_, ?_⟩
        · cases l with
          | nil => exact absurd rfl hne
          | cons a l2 => rw [List.getLast?_cons_cons]; exact hlast
        · cases l with
          | nil => exact absurd rfl hne
          | cons a l2 =>
            simp only [List.dropLast_cons₂, List.mem_cons, not_or]
            exact ⟨fun e => hc e.symm, hno⟩

theorem cutLine_none (data : Str) (h : cutLine data = none) : '\n' ∉ data := by
  induction data with
  | nil => simp
  | cons c cs ih =>
    unfold cutLine at h
    by_cases hc : c = '\n'
    · rw [if_pos hc] at h; simp at h
    · rw [if_neg hc] at h
      cases hcut : cutLine cs with
      | none =>
        simp only [List.mem_cons, not_or]
        exact ⟨fun e => hc e.symm, ih hcut⟩
      | some p => rw [hcut] at h; simp at h

theorem AreLines_cons (line : Str) (units : List Str) (hne : line ≠ [])
    (hlast : line.getLast? = some '\n') (hno : '\n' ∉ line.dropLast) (h : AreLines units) :
    AreLines (line :: units) := by
  obtain ⟨h1, h2, h3⟩ := h
  refine ⟨?_, ?_, ?_⟩
  · intro u hu
    rcases List.mem_cons.1 hu with e | e
    · rw [e]; exact hne
    · exact h1 u e
  · intro u hu
    rcases List.mem_cons.1 hu with e | e
    · rw [e]; exact hno
    · exact h2 u e
  · intro u hu
    cases units with
    | nil => simp at hu
    | cons v vs =>
      simp only [List.dropLast_cons₂, List.mem_cons] at hu
      rcases hu with e | e
      · rw [e]; exact hlast
      · exact h3 u e

theorem readLinesLoop_spec (filename : Str) (fuel : Nat) :
    ∀ (data : Str) (sent : List Str), data.length < fuel →
      ∃ units, readLinesLoop filename fuel ⟨data, false⟩ sent = some (sent ++ units, []) ∧
        units.flatten = data ∧ AreLines units := by
  induction fuel with
  | zero => intro data sent h; omega
  | succ fuel ih =>
    intro data sent hlen
    unfold readLinesLoop ReadString
    cases hcut : cutLine data with
    | none =>
      by_cases hd : data = []
      · subst hd
        exact ⟨[], by simp, by simp, by simp [AreLines]⟩
      · refine ⟨[data], by simp [hd], by simp, ?_⟩
        refine ⟨by simpa using hd, ?_, by simp⟩
        intro u hu hmem
        simp only [List.mem_singleton] at hu
        subst hu
        exact cutLine_none _ hcut (List.mem_of_mem_dropLast hmem)
    | some p =>
      obtain ⟨line, rest⟩ := p
      obtain ⟨e, hne, hlast, hno⟩ := cutLine_some data line rest hcut
      have hl : 0 < line.length := List.length_pos.2 hne
      have hrest : rest.length < fuel := by
        have := congrArg List.length e
        simp only [List.length_append] at this
        omega
      obtain ⟨units, hrun, hjoin, hlines⟩ := ih rest (sent ++ [line]) hrest
      refine ⟨line :: units, ?_, ?_, AreLines_cons line units hne hlast hno hlines⟩
      · simp only [hne, ne_eq, not_false_eq_true, if_true]
        simpa using hrun
      · simp [hjoin, e]

theorem readLinesLoop_trailing (filename : Str) (fuel : Nat) :
    ∀ (data : Str) (sent units : List Str), data.length < fuel →
      readLinesLoop filename fuel ⟨data, false⟩ sent = some (sent ++ units, []) →
      ∀ pre tail : Str, data = pre ++ tail → tail ≠ [] → '\n' ∉ tail →
        (pre = [] ∨ pre.getLast? = some '\n') → units.getLast? = some tail := by
  induction fuel with
  | zero => intro data sent units h; omega
  | succ fuel ih =>
    intro data sent units hlen hrun pre tail hsplit htail hno hpre
    unfold readLinesLoop ReadString at hrun
    cases hcut : cutLine data with
    | none =>
      have hnl := cutLine_none _ hcut
      have hp : pre = [] := by
        rcases hpre with h | h
        · exact h
        · exfalso; apply hnl; rw [hsplit]
          exact List.mem_append_left _ (List.mem_of_getLast?_eq_some h)
      subst hp
      simp only [List.nil_append] at hsplit
      subst hsplit
      rw [hcut] at hrun
      simp only [htail, ne_eq, not_false_eq_true, if_true, Option.some.injEq, Prod.mk.injEq,
        List.append_cancel_left_eq] at hrun
      rw [← hrun.1]; rfl
    | some p =>
      obtain ⟨line, rest⟩ := p
      obtain ⟨e, hne, hlast, hnol⟩ := cutLine_some data line rest hcut
      rw [hcut] at hrun
      simp only [hne, ne_eq, not_false_eq_true, if_true] at hrun
      have hl : 0 < line.length := List.length_pos.2 hne
      have hrest : rest.length < fuel := by
        have := congrArg List.length e
        simp only [List.length_append] at this
        omega
      obtain ⟨units2, hrun2, -, -⟩ := readLinesLoop_spec filename fuel rest (sent ++ [line]) hrest
      have hu : units = line :: units2 := by
        rw [hrun2] at hrun
        simp only [Option.some.injEq, Prod.mk.injEq, List.append_assoc, List.singleton_append,
          List.append_cancel_left_eq, and_true] at hrun
        exact hrun.symm
      have hsp : ∃ mid, pre = line ++ mid ∧ rest = mid ++ tail := by
        have h2 : pre ++ tail = line ++ rest := by rw [← hsplit, e]
        rcases List.append_eq_append_iff.1 h2 with ⟨a, ha1, ha2⟩ | ⟨c, hc1, hc2⟩
        · rcases hpre with hp | hp
          · exfalso; apply hno; rw [ha2]
            subst hp
            simp only [List.nil_append] at ha1
            subst ha1
            exact List.mem_append_left _ (List.mem_of_getLast?_eq_some hlast)
          · by_cases hemp : a = []
            · subst hemp
              simp only [List.append_nil, List.nil_append] at ha1 ha2
              exact ⟨[], by simp [ha1], by simp [ha2]⟩
            · exfalso; apply hnol
              rw [ha1, List.dropLast_append_of_ne_nil pre hemp]
              exact List.mem_append_left _ (List.mem_of_getLast?_eq_some hp)
        · exact ⟨c, hc1, hc2⟩
      obtain ⟨mid, hm1, hm2⟩ := hsp
      have hmid : mid = [] ∨ mid.getLast? = some '\n' := by
        by_cases hemp : mid = []
        · exact Or.inl hemp
        · right
          rcases hpre with hp | hp
          · rw [hp] at hm1
            have : line ++ mid = [] := hm1.symm
            simp only [List.append_eq_nil] at this
            exact absurd this.2 hemp
          · rw [hm1, List.getLast?_append_of_ne_nil _ hemp] at hp
            exact hp
      have := ih rest (sent ++ [line]) units2 hrest hrun2 mid tail hm2 htail hno hmid
      rw [hu]
      cases units2 with
      | nil => simp at this
      | cons v vs => rw [List.getLast?_cons_cons]; exact this

/-- C4. Work source splitting: for a file read to end-of-stream without error,
`readLines` sends, in order, the newline-delimited lines of the content, each
with its newline; a non-empty unterminated trailing line is the last unit; no
unit is empty; the units concatenated are the content; the channel is closed
after the last unit and nothing is logged. -/
theorem readLines_units (fs : FileSystem) (filename data : Str)
    (hopen : fs filename = some ⟨data, false⟩) :
    ∃ sent, readLines fs filename = some ⟨sent, true, [], false⟩ ∧
      sent.flatten = data ∧ AreLines sent ∧
      (∀ pre tail : Str, data = pre ++ tail → tail ≠ [] → '\n' ∉ tail →
        (pre = [] ∨ pre.getLast? = some '\n') → sent.getLast? = some tail) := by
  obtain ⟨units, hrun, hjoin, hlines⟩ :=
    readLinesLoop_spec filename (data.length + 1) data [] (Nat.lt_succ_self _)
  have htr := readLinesLoop_trailing filename (data.length + 1) data [] units
    (Nat.lt_succ_self _) hrun
  simp only [List.nil_append] at hrun
  refine ⟨units, ?_, hjoin, hlines, htr⟩
  simp only [readLines, hopen, hrun]

/-- C4 at the content `a\nb\n\nc`: three terminated lines and the trailing `c`. -/
theorem readLines_units_witness :
    readLines (fun _ => some ⟨"a\nb\n\nc".toList, false⟩) "f".toList
      = some ⟨["a\n".toList, "b\n".toList, "\n".toList, "c".toList], true, [], false⟩ ∧
    ∃ sent, readLines (fun _ => some ⟨"a\nb\n\nc".toList, false⟩) "f".toList
        = some ⟨sent, true, [], false⟩ ∧
      sent.flatten = "a\nb\n\nc".toList ∧ AreLines sent ∧
      (∀ pre tail : Str, "a\nb\n\nc".toList = pre ++ tail → tail ≠ [] → '\n' ∉ tail →
        (pre = [] ∨ pre.getLast? = some '\n') → sent.getLast? = some tail) :=
  ⟨by decide, readLines_units (fun _ => some ⟨"a\nb\n\nc".toList, false⟩) "f".toList
    "a\nb\n\nc".toList rfl⟩

/-! ### cgrep: one job -/

theorem cutLine_length (data line rest : Str) (h : cutLine data = some (line, rest)) :
    rest.length < data.length := by
  obtain ⟨e, hne, -, -⟩ := cutLine_some data line rest h
  have hl : 0 < line.length := List.length_pos.2 hne
  have := congrArg List.length e
  simp only [List.length_append] at this
  omega

theorem doLoop_isSome (lineRx : Str → Bool) (filename : Str) (failing : Bool) (fuel : Nat) :
    ∀ (data : Str) (lino : Int) (results : List Result), data.length < fuel →
      ∃ rs ds, doLoop lineRx filename fuel lino ⟨data, failing⟩ results
        = some (results ++ rs, ds) := by
  induction fuel with
  | zero => intro data lino results h; omega
  | succ fuel ih =>
    intro data lino results hlen
    unfold doLoop ReadString
    cases hcut : cutLine data with
    | none =>
      by_cases hm : lineRx (TrimRight data ['\n', '\r'])
      · exact ⟨[Result.mk filename lino (TrimRight data ['\n', '\r'])],
          if failing = true then [Diag.readFailedAt lino] else [], by simp [hm]⟩
      · exact ⟨[], if failing = true then [Diag.readFailedAt lino] else [], by simp [hm]⟩
    | some p =>
      obtain ⟨line, rest⟩ := p
      have hrest : rest.length < fuel := by
        have := cutLine_length data line rest hcut
        omega
      by_cases hm : lineRx (TrimRight line ['\n', '\r'])
      · obtain ⟨rs, ds, h⟩ := ih rest (wrapInt (lino + 1))
          (results ++ [Result.mk filename lino (TrimRight line ['\n', '\r'])]) hrest
        exact ⟨Result.mk filename lino (TrimRight line ['\n', '\r']) :: rs, ds, by simpa [hm] using h⟩
      · obtain ⟨rs, ds, h⟩ := ih rest (wrapInt (lino + 1)) results hrest
        exact ⟨rs, ds, by simpa [hm] using h⟩

theorem Job_Do_isSome (fs : FileSystem) (lineRx : Str → Bool) (filename : Str) :
    ∃ rs ds, Job.Do fs lineRx filename = some (rs, ds) := by
  unfold Job.Do
  cases hopen : fs filename with
  | none => exact ⟨[], _, rfl⟩
  | some file =>
    obtain ⟨data, failing⟩ := file
    obtain ⟨rs, ds, h⟩ := doLoop_isSome lineRx filename failing (data.length + 1) data 1 []
      (Nat.lt_succ_self _)
    exact ⟨rs, ds, by simpa using h⟩

theorem doJobs_isSome (fs : FileSystem) (lineRx : Str → Bool) (filenames : List Str) :
    ∃ rs ds, doJobs fs lineRx filenames = some (rs, ds) := by
  induction filenames with
  | nil => exact ⟨[], [], rfl⟩
  | cons fn rest ih =>
    obtain ⟨rs, ds, h⟩ := Job_Do_isSome fs lineRx fn
    obtain ⟨rs2, ds2, h2⟩ := ih
    exact ⟨rs ++ rs2, ds ++ ds2, by simp [doJobs, h, h2]⟩

theorem doLoop_log (lineRx : Str → Bool) (filename : Str) (fuel : Nat) :
    ∀ (reader : File) (lino : Int) (results rs : List Result) (ds : List Diag),
      doLoop lineRx filename fuel lino reader results = some (rs, ds) →
      ∀ d ∈ ds, ∀ fn, d ≠ Diag.openFailed fn := by
  induction fuel with
  | zero => intro reader lino results rs ds h; simp [doLoop] at h
  | succ fuel ih =>
    intro reader lino results rs ds h
    unfold doLoop at h
    cases herr : (ReadString reader).2.1 with
    | none =>
      simp only [herr] at h
      exact ih _ _ _ _ _ h
    | some e =>
      simp only [herr, Option.some.injEq, Prod.mk.injEq] at h
      intro d hd fn
      rw [← h.2] at hd
      by_cases he : e = ReadErr.eof
      · simp [he] at hd
      · simp only [ne_eq, he, not_false_eq_true, if_true, List.mem_singleton] at hd
        rw [hd]; simp

/-- C2. Search unit processing, the code at the file content `foo\n` and the
pattern `^$`, which matches the empty line only: the file has the one line
`foo` and no empty line, yet `Job.Do` sends a Result for a line 2 with the
empty text, made of the empty read that returns `io.EOF`. -/
theorem Job_Do_sends_line_after_final_newline :
    Job.Do (fun _ => some ⟨"foo\n".toList, false⟩) (fun line => decide (line = []))
      "f".toList
      = some ([⟨"f".toList, 2, []⟩], []) := by
  decide

/-! ### cgrep: what every reachable state satisfies -/

namespace Cgrep

theorem get?_split {α : Type} (l : List α) (i : Nat) (a : α) (h : l.get? i = some a) :
    ∃ l1 l2, l = l1 ++ a :: l2 ∧ ∀ b, l.set i b = l1 ++ b :: l2 := by
  induction l generalizing i with
  | nil => simp at h
  | cons x xs ih =>
    cases i with
    | zero =>
      simp only [List.get?_cons_zero, Option.some.injEq] at h
      subst h
      exact ⟨[], xs, rfl, fun b => rfl⟩
    | succ i =>
      simp only [List.get?_cons_succ] at h
      obtain ⟨l1, l2, e, hs⟩ := ih i h
      exact ⟨x :: l1, l2, by rw [e]; rfl, fun b => by rw [List.set_cons_succ, hs b]; rfl⟩

theorem Inv_init (c : Config) : Inv c init := by
  constructor <;> simp [init, todo]

theorem Inv_stepMain (c : Config) (s s2 : State) (h : Inv c s) (_ : s.aborted = false)
    (hs : stepMain c s = some s2) : Inv c s2 := by
  unfold stepMain at hs
  obtain ⟨h1, h2, h3, h4, h5, h6, h7, h8, h9, h10, h11, h12, h13, h14, h15⟩ := h
  cases hm : s.main with
  | start =>
    rw [hm] at hs
    obtain ⟨a1, a2, a3, a4, a5, a6, a7, a8⟩ := h4 hm
    cases hrx : c.lineRx with
    | none =>
      simp only [hrx, Option.some.injEq] at hs
      subst hs
      constructor <;> dsimp only <;> first
        | assumption
        | (simp [todo, *]; done)
        | (intros; simp_all [todo]; done)
        | (intros; simp_all [todo] <;> omega)
        | (simp_all [todo, List.forall_mem_append, List.forall_mem_cons]; done)
        | skip
    | some rx =>
      simp only [hrx, Option.some.injEq] at hs
      subst hs
      constructor <;> dsimp only <;> first
        | assumption
        | (simp [todo, *]; done)
        | (intros; simp_all [todo]; done)
        | (intros; simp_all [todo] <;> omega)
        | (simp_all [todo, List.forall_mem_append, List.forall_mem_cons]; done)
        | skip
  | spawning k =>
    rw [hm] at hs
    obtain ⟨a1, a2, a3, a4⟩ := h5 k hm
    by_cases hk : k < c.workers
    · simp only [hk, if_true, Option.some.injEq] at hs
      subst hs
      constructor <;> dsimp only <;> first
        | assumption
        | (simp [todo, *]; done)
        | (intros; simp_all [todo]; done)
        | (intros; simp_all [todo] <;> omega)
        | (simp_all [todo, List.forall_mem_append, List.forall_mem_cons]; done)
        | skip
      · intro w hw
        rcases List.mem_append.1 hw with hw | hw
        · exact h10 w hw
        · simp only [List.mem_singleton] at hw; subst hw; simp
      · intro w hw
        rcases List.mem_append.1 hw with hw | hw
        · exact h13 w hw
        · simp only [List.mem_singleton] at hw; subst hw; simp
    · simp only [hk, if_false, Option.some.injEq] at hs
      subst hs
      have : k = c.workers := by omega
      constructor <;> dsimp only <;> first
        | assumption
        | (simp [todo, *]; done)
        | (intros; simp_all [todo]; done)
        | (intros; simp_all [todo] <;> omega)
        | (simp_all [todo, List.forall_mem_append, List.forall_mem_cons]; done)
        | skip
  | draining =>
    rw [hm] at hs
    cases hr : s.results with
    | nil =>
      simp only [hr] at hs
      by_cases hc : s.resultsClosed = true
      · simp only [hc, if_true, Option.some.injEq] at hs
        subst hs
        constructor <;> dsimp only <;> first
        | assumption
        | (simp [todo, *]; done)
        | (intros; simp_all [todo]; done)
        | (intros; simp_all [todo] <;> omega)
        | (simp_all [todo, List.forall_mem_append, List.forall_mem_cons]; done)
        | skip
      · simp [hc] at hs
    | cons r rest =>
      simp only [hr, Option.some.injEq] at hs
      subst hs
      constructor <;> dsimp only <;> first
        | assumption
        | (simp [todo, *]; done)
        | (intros; simp_all [todo]; done)
        | (intros; simp_all [todo] <;> omega)
        | (simp_all [todo, List.forall_mem_append, List.forall_mem_cons]; done)
        | skip
  | exited => rw [hm] at hs; simp at hs

theorem Inv_stepAddJobs (c : Config) (s s2 : State) (h : Inv c s) (_ : s.aborted = false)
    (hs : stepAddJobs c s = some s2) : Inv c s2 := by
  unfold stepAddJobs at hs
  obtain ⟨h1, h2, h3, h4, h5, h6, h7, h8, h9, h10, h11, h12, h13, h14, h15⟩ := h
  have hstart : s.main ≠ .start → s.adder ≠ .notStarted := by
    intro hne
    cases hm : s.main with
    | start => exact absurd hm hne
    | spawning k => exact (h5 k hm).2.2.2
    | draining => exact (h6 (Or.inl hm)).2.2
    | exited => exact (h6 (Or.inr hm)).2.2
  cases ha : s.adder with
  | notStarted => rw [ha] at hs; simp at hs
  | finished => rw [ha] at hs; simp at hs
  | running t =>
    rw [ha] at hs
    have hjc : s.jobsClosed = false := by
      cases hj : s.jobsClosed with
      | false => rfl
      | true => rw [h12.1 hj] at ha; cases ha
    have hms : s.main ≠ .start := by
      intro hm; rw [(h4 hm).2.1] at ha; cases ha
    cases t with
    | nil =>
      simp only [hjc, Bool.false_eq_true, if_false, Option.some.injEq] at hs
      subst hs
      constructor <;> dsimp only <;> first
        | assumption
        | (simp [todo, *]; done)
        | (intros; simp_all [todo]; done)
        | (intros; simp_all [todo] <;> omega)
        | (simp_all [todo, List.forall_mem_append, List.forall_mem_cons]; done)
        | skip
    | cons fn rest =>
      simp only [hjc, Bool.false_eq_true, if_false] at hs
      by_cases hroom : s.jobs.length < c.workers
      · simp only [hroom, if_true, Option.some.injEq] at hs
        subst hs
        constructor <;> dsimp only <;> first
        | assumption
        | (simp [todo, *]; done)
        | (intros; simp_all [todo]; done)
        | (intros; simp_all [todo] <;> omega)
        | (simp_all [todo, List.forall_mem_append, List.forall_mem_cons]; done)
        | skip
      · simp [hroom] at hs

theorem Inv_stepDoJobs (c : Config) (i : Nat) (s s2 : State) (h : Inv c s)
    (_ : s.aborted = false) (hs : stepDoJobs c i s = some s2) : Inv c s2 := by
  unfold stepDoJobs at hs
  obtain ⟨h1, h2, h3, h4, h5, h6, h7, h8, h9, h10, h11, h12, h13, h14, h15⟩ := h
  cases hg : s.ws.get? i with
  | none => rw [hg] at hs; simp at hs
  | some w =>
    rw [hg] at hs
    obtain ⟨l1, l2, e, hset⟩ := get?_split s.ws i w hg
    simp only [hset] at hs
    have hms : s.main ≠ .start := by
      intro hm; rw [(h4 hm).1] at e; simp at e
    clear hset hg h4
    simp only [e, List.forall_mem_append, List.forall_mem_cons, List.map_append, List.map_cons,
      List.sum_append, List.sum_cons, List.flatten_append, List.flatten_cons, List.length_append,
      List.length_cons] at h5 h6 h9 h10 h11 h13 h15
    obtain ⟨pc, sg, pr⟩ := w
    dsimp only at h9 h10 h11 h13 h15 hs
    cases pc with
    | idle =>
      cases hj : s.jobs with
      | nil =>
        simp only [hj] at hs
        by_cases hc : s.jobsClosed = true
        · simp only [hc, if_true, Option.some.injEq] at hs
          subst hs
          constructor <;> dsimp only <;>
            (try simp only [List.forall_mem_append, List.forall_mem_cons, List.map_append,
              List.map_cons, List.sum_append, List.sum_cons, List.flatten_append,
              List.flatten_cons, List.length_append, List.length_cons]) <;> first
            | assumption
            | (intro hm; exact absurd hm hms)
            | (intro haw; have := (h9 haw).2.2.2.2.2.1; cases this)
            | omega
            | (refine ⟨h13.1, ?_, h13.2.2⟩; intro hx; rcases hx with hx | hx <;> cases hx; done)
            | (refine ⟨h13.1, ?_, h13.2.2⟩; intro _; exact h13.2.1 (Or.inl rfl))
            | (refine List.Perm.trans ?_ h15; rw [List.perm_iff_count]; intro a
               simp only [hj, List.count_append, List.count_cons, List.count_nil]; omega)
            | (simp [*]; done)
            | (simp_all; done)
            | skip
        · simp [hc] at hs
      | cons fn rest =>
        simp only [hj] at hs
        cases hrx : c.lineRx with
        | none => simp [hrx] at hs
        | some rx =>
          simp only [hrx] at hs
          cases hdo : Job.Do c.fs rx fn with
          | none => simp [hdo] at hs
          | some p =>
            obtain ⟨rs, ds⟩ := p
            simp only [hdo, Option.some.injEq] at hs
            subst hs
            constructor <;> dsimp only <;>
            (try simp only [List.forall_mem_append, List.forall_mem_cons, List.map_append,
              List.map_cons, List.sum_append, List.sum_cons, List.flatten_append,
              List.flatten_cons, List.length_append, List.length_cons]) <;> first
            | assumption
            | (intro hm; exact absurd hm hms)
            | (intro haw; have := (h9 haw).2.2.2.2.2.1; cases this)
            | omega
            | (refine ⟨h13.1, ?_, h13.2.2⟩; intro hx; rcases hx with hx | hx <;> cases hx; done)
            | (refine ⟨h13.1, ?_, h13.2.2⟩; intro _; exact h13.2.1 (Or.inl rfl))
            | (refine List.Perm.trans ?_ h15; rw [List.perm_iff_count]; intro a
               simp only [hj, List.count_append, List.count_cons, List.count_nil]; omega)
            | (simp [*]; done)
            | (simp_all; done)
            | skip
    | busy pending =>
      have hrc : s.resultsClosed = false := by
        cases hr : s.resultsClosed with
        | false => rfl
        | true =>
          exfalso
          cases haw : s.awaiter with
          | notStarted => have := (h7 haw).2.1; rw [hr] at this; cases this
          | waiting j => have := (h8 j haw).2.2.1; rw [hr] at this; cases this
          | finished => have := (h9 haw).2.2.2.2.2.1; cases this
      cases pending with
      | nil =>
        simp only [Option.some.injEq] at hs
        subst hs
        constructor <;> dsimp only <;>
            (try simp only [List.forall_mem_append, List.forall_mem_cons, List.map_append,
              List.map_cons, List.sum_append, List.sum_cons, List.flatten_append,
              List.flatten_cons, List.length_append, List.length_cons]) <;> first
            | assumption
            | (intro hm; exact absurd hm hms)
            | (intro haw; have := (h9 haw).2.2.2.2.2.1; cases this)
            | omega
            | (refine ⟨h13.1, ?_, h13.2.2⟩; intro hx; rcases hx with hx | hx <;> cases hx; done)
            | (refine ⟨h13.1, ?_, h13.2.2⟩; intro _; exact h13.2.1 (Or.inl rfl))
            | (refine List.Perm.trans ?_ h15; rw [List.perm_iff_count]; intro a
               simp only [hj, List.count_append, List.count_cons, List.count_nil]; omega)
            | (simp [*]; done)
            | (simp_all; done)
            | skip
      | cons r rs =>
        simp only [hrc, Bool.false_eq_true, if_false] at hs
        by_cases hroom : s.results.length < resultsCap c
        · simp only [hroom, if_true, Option.some.injEq] at hs
          subst hs
          constructor <;> dsimp only <;>
            (try simp only [List.forall_mem_append, List.forall_mem_cons, List.map_append,
              List.map_cons, List.sum_append, List.sum_cons, List.flatten_append,
              List.flatten_cons, List.length_append, List.length_cons]) <;> first
            | assumption
            | (intro hm; exact absurd hm hms)
            | (intro haw; have := (h9 haw).2.2.2.2.2.1; cases this)
            | omega
            | (refine ⟨h13.1, ?_, h13.2.2⟩; intro hx; rcases hx with hx | hx <;> cases hx; done)
            | (refine ⟨h13.1, ?_, h13.2.2⟩; intro _; exact h13.2.1 (Or.inl rfl))
            | (refine List.Perm.trans ?_ h15; rw [List.perm_iff_count]; intro a
               simp only [hj, List.count_append, List.count_cons, List.count_nil]; omega)
            | (simp [*]; done)
            | (simp_all; done)
            | skip
        · simp only [hroom, if_false] at hs
          by_cases hh : resultsCap c = 0 ∧ s.main = .draining
          · simp only [hh, and_self, if_true, Option.some.injEq] at hs
            subst hs
            constructor <;> dsimp only <;>
            (try simp only [List.forall_mem_append, List.forall_mem_cons, List.map_append,
              List.map_cons, List.sum_append, List.sum_cons, List.flatten_append,
              List.flatten_cons, List.length_append, List.length_cons]) <;> first
            | assumption
            | (intro hm; exact absurd hm hms)
            | (intro haw; have := (h9 haw).2.2.2.2.2.1; cases this)
            | omega
            | (refine ⟨h13.1, ?_, h13.2.2⟩; intro hx; rcases hx with hx | hx <;> cases hx; done)
            | (refine ⟨h13.1, ?_, h13.2.2⟩; intro _; exact h13.2.1 (Or.inl rfl))
            | (refine List.Perm.trans ?_ h15; rw [List.perm_iff_count]; intro a
               simp only [hj, List.count_append, List.count_cons, List.count_nil]; omega)
            | (simp [*]; done)
            | (simp_all; done)
            | skip
          · simp [hh] at hs
    | signalling =>
      by_cases hd : s.done < c.workers
      · simp only [hd, if_true, Option.some.injEq] at hs
        subst hs
        constructor <;> dsimp only <;>
            (try simp only [List.forall_mem_append, List.forall_mem_cons, List.map_append,
              List.map_cons, List.sum_append, List.sum_cons, List.flatten_append,
              List.flatten_cons, List.length_append, List.length_cons]) <;> first
            | assumption
            | (intro hm; exact absurd hm hms)
            | (intro haw; have := (h9 haw).2.2.2.2.2.1; cases this)
            | omega
            | (refine ⟨h13.1, ?_, h13.2.2⟩; intro hx; rcases hx with hx | hx <;> cases hx; done)
            | (refine ⟨h13.1, ?_, h13.2.2⟩; intro _; exact h13.2.1 (Or.inl rfl))
            | (refine List.Perm.trans ?_ h15; rw [List.perm_iff_count]; intro a
               simp only [hj, List.count_append, List.count_cons, List.count_nil]; omega)
            | (simp [*]; done)
            | (simp_all; done)
            | skip
      · simp [hd] at hs
    | finished => simp at hs

theorem sum_signals_le (ws : List Worker)
    (h : ∀ w ∈ ws, w.signals = if w.pc = .finished then 1 else 0) :
    (ws.map (fun w => w.signals)).sum ≤ ws.length ∧
    ((ws.map (fun w => w.signals)).sum = ws.length → ∀ w ∈ ws, w.pc = .finished) := by
  induction ws with
  | nil => simp
  | cons w ws ih =>
    have hw := h w (List.mem_cons_self _ _)
    obtain ⟨ih1, ih2⟩ := ih (fun x hx => h x (List.mem_cons_of_mem _ hx))
    simp only [List.map_cons, List.sum_cons, List.length_cons, List.forall_mem_cons]
    by_cases hf : w.pc = .finished
    · rw [if_pos hf] at hw
      refine ⟨by omega, fun hsum => ⟨hf, ih2 (by omega)⟩⟩
    · rw [if_neg hf] at hw
      refine ⟨by omega, fun hsum => ?_⟩
      omega

theorem Inv_stepAwait (c : Config) (s s2 : State) (h : Inv c s) (_ : s.aborted = false)
    (hs : stepAwait c s = some s2) : Inv c s2 := by
  unfold stepAwait at hs
  obtain ⟨h1, h2, h3, h4, h5, h6, h7, h8, h9, h10, h11, h12, h13, h14, h15⟩ := h
  cases ha : s.awaiter with
  | notStarted => rw [ha] at hs; simp at hs
  | finished => rw [ha] at hs; simp at hs
  | waiting i =>
    rw [ha] at hs
    obtain ⟨b1, b2, b3, b4⟩ := h8 i ha
    have hmain : s.main = .draining ∨ s.main = .exited := by
      cases hm : s.main with
      | start => have := (h4 hm).2.2.1; rw [ha] at this; cases this
      | spawning k => have := (h5 k hm).2.2.1; rw [ha] at this; cases this
      | draining => exact Or.inl rfl
      | exited => exact Or.inr rfl
    have hlen := (h6 hmain).1
    have hmx : s.main ≠ .exited := by
      intro hm; have := (h14 hm).1; rw [b3] at this; cases this
    have hms : s.main ≠ .start := by
      intro hm; rcases hmain with h | h <;> rw [hm] at h <;> cases h
    obtain ⟨hsum1, hsum2⟩ := sum_signals_le s.ws h10
    by_cases hi : i < c.workers
    · simp only [hi, if_true] at hs
      by_cases hd : 0 < s.done
      · simp only [hd, if_true, Option.some.injEq] at hs
        subst hs
        constructor <;> dsimp only <;> first
        | assumption
        | (simp [todo, *]; done)
        | (intros; simp_all [todo]; done)
        | (intros; simp_all [todo] <;> omega)
        | skip
      · simp [hd] at hs
    · simp only [hi, if_false, b3, Bool.false_eq_true, Option.some.injEq] at hs
      subst hs
      have hi2 : i = c.workers := by omega
      have hall : ∀ w ∈ s.ws, w.pc = .finished := hsum2 (by omega)
      have hd0 : s.done = 0 := by omega
      constructor <;> dsimp only <;> first
        | assumption
        | (simp [todo, *]; done)
        | (intros; simp_all [todo]; done)
        | (intros; simp_all [todo] <;> omega)
        | skip

theorem Inv_step (c : Config) (a : Actor) (s s2 : State) (h : Inv c s)
    (hs : step c a s = some s2) : Inv c s2 := by
  unfold step at hs
  by_cases hend : s.aborted = true ∨ s.panicked = true ∨ s.main = .exited
  · rw [if_pos hend] at hs; cases hs
  · rw [if_neg hend] at hs
    have hna : s.aborted = false := by
      cases hab : s.aborted with
      | false => rfl
      | true => exact absurd (Or.inl hab) hend
    cases a with
    | main => exact Inv_stepMain c s s2 h hna hs
    | addJobs => exact Inv_stepAddJobs c s s2 h hna hs
    | doJobs i => exact Inv_stepDoJobs c i s s2 h hna hs
    | awaitCompletion => exact Inv_stepAwait c s s2 h hna hs

theorem Inv_run (c : Config) (sched : List Actor) :
    ∀ s s2 : State, Inv c s → run c sched s = some s2 → Inv c s2 := by
  induction sched with
  | nil => intro s s2 h hr; simp only [run, Option.some.injEq] at hr; rw [← hr]; exact h
  | cons a sched ih =>
    intro s s2 h hr
    unfold run at hr
    cases hst : step c a s with
    | none => rw [hst] at hr; cases hr
    | some s1 =>
      rw [hst] at hr
      exact ih s1 s2 (Inv_step c a s s1 h hst) hr

theorem sum_signals_finished (ws : List Worker)
    (h : ∀ w ∈ ws, w.signals = if w.pc = .finished then 1 else 0)
    (hall : ∀ w ∈ ws, w.pc = .finished) :
    (ws.map (fun w => w.signals)).sum = ws.length := by
  induction ws with
  | nil => simp
  | cons w ws ih =>
    have hw := h w (List.mem_cons_self _ _)
    rw [if_pos (hall w (List.mem_cons_self _ _))] at hw
    have := ih (fun x hx => h x (List.mem_cons_of_mem _ hx))
      (fun x hx => hall x (List.mem_cons_of_mem _ hx))
    simp only [List.map_cons, List.sum_cons, List.length_cons]
    omega

theorem progress (c : Config) (s : State) (rx : Str → Bool) (hrx : c.lineRx = some rx)
    (hw : 0 < c.workers) (h : Inv c s) :
    Done c s ∨ ∃ a, (step c a s).isSome = true := by
  obtain ⟨h1, h2, h3, h4, h5, h6, h7, h8, h9, h10, h11, h12, h13, h14, h15⟩ := h
  have hna : s.aborted = false := by
    cases hab : s.aborted with
    | false => rfl
    | true => have := (h2 hab).1; rw [hrx] at this; cases this
  cases hm : s.main with
  | start => exact Or.inr ⟨.main, by simp [step, hna, h1, hm, stepMain, hrx]⟩
  | spawning k =>
    refine Or.inr ⟨.main, ?_⟩
    by_cases hk : k < c.workers <;> simp [step, hna, h1, hm, stepMain, hk]
  | exited =>
    left
    obtain ⟨hc, -⟩ := h14 hm
    obtain ⟨hlen, -, hadd⟩ := h6 (Or.inr hm)
    have haw : s.awaiter = .finished := by
      cases ha : s.awaiter with
      | notStarted => have := (h7 ha).2.1; rw [hc] at this; cases this
      | waiting i => have := (h8 i ha).2.2.1; rw [hc] at this; cases this
      | finished => rfl
    have hall := (h9 haw).2.2.2.2
    refine ⟨hm, ?_, hlen, hall, haw, hna, h1⟩
    cases hws : s.ws with
    | nil => rw [hws] at hlen; simp at hlen; omega
    | cons w rest =>
      have hmem : w ∈ s.ws := by rw [hws]; exact List.mem_cons_self _ _
      exact h12.1 (h13 w hmem (Or.inr (hall w hmem))).1
  | draining =>
    right
    obtain ⟨hlen, hawn, hadd⟩ := h6 (Or.inl hm)
    cases hr : s.results with
    | cons r rest => exact ⟨.main, by simp [step, hna, h1, hm, stepMain, hr]⟩
    | nil =>
      by_cases hc : s.resultsClosed = true
      · exact ⟨.main, by simp [step, hna, h1, hm, stepMain, hr, hc]⟩
      · cases ha : s.awaiter with
        | notStarted => exact absurd ha hawn
        | finished => exact absurd (h9 ha).2.1 hc
        | waiting i =>
          obtain ⟨b1, b2, b3, b4⟩ := h8 i ha
          by_cases hi : i < c.workers
          · by_cases hd : 0 < s.done
            · exact ⟨.awaitCompletion, by simp [step, hna, h1, hm, stepAwait, ha, hi, hd]⟩
            · have hnot : ¬ ∀ w ∈ s.ws, w.pc = .finished := by
                intro hall
                have := sum_signals_finished s.ws h10 hall
                omega
              push_neg at hnot
              obtain ⟨w, hmem, hpc⟩ := hnot
              obtain ⟨j, hj⟩ := List.mem_iff_get?.1 hmem
              rw [List.get?_eq_getElem?] at hj
              obtain ⟨pc, sg, pr⟩ := w
              dsimp only at hpc
              cases pc with
              | finished => exact absurd rfl hpc
              | signalling =>
                have : s.done < c.workers := by omega
                exact ⟨.doJobs j, by simp [step, hna, h1, hm, stepDoJobs, hj, this]⟩
              | busy pending =>
                cases pending with
                | nil => exact ⟨.doJobs j, by simp [step, hna, h1, hm, stepDoJobs, hj]⟩
                | cons r rs =>
                  by_cases hcap : resultsCap c = 0
                  · exact ⟨.doJobs j, by simp [step, hna, h1, hm, stepDoJobs, hj, b3, hr, hcap]⟩
                  · have : 0 < resultsCap c := Nat.pos_of_ne_zero hcap
                    exact ⟨.doJobs j, by simp [step, hna, h1, hm, stepDoJobs, hj, b3, hr, this]⟩
              | idle =>
                cases hjobs : s.jobs with
                | cons fn rest =>
                  obtain ⟨rs, ds, hdo⟩ := Job_Do_isSome c.fs rx fn
                  exact ⟨.doJobs j, by simp [step, hna, h1, hm, stepDoJobs, hj, hjobs, hrx, hdo]⟩
                | nil =>
                  by_cases hjc : s.jobsClosed = true
                  · exact ⟨.doJobs j, by simp [step, hna, h1, hm, stepDoJobs, hj, hjobs, hjc]⟩
                  · have hjc2 : s.jobsClosed = false := by simpa using hjc
                    refine ⟨.addJobs, ?_⟩
                    cases had : s.adder with
                    | notStarted => exact absurd had hadd
                    | finished => exact absurd (h12.2 had) hjc
                    | running t =>
                      cases t with
                      | nil => simp [step, hna, h1, hm, stepAddJobs, had, hjc2]
                      | cons fn rest =>
                        simp [step, hna, h1, hm, stepAddJobs, had, hjc2, hjobs, hw]
          · exact ⟨.awaitCompletion, by simp [step, hna, h1, hm, stepAwait, ha, hi, b3]⟩

theorem stepsLeft_step (c : Config) (a : Actor)
    (s s2 : State) (h : Inv c s) (hs : step c a s = some s2) :
    stepsLeft c s2 < stepsLeft c s := by
  have hnp := (Inv_step c a s s2 h hs).notPanicked
  unfold step at hs
  by_cases hend : s.aborted = true ∨ s.panicked = true ∨ s.main = .exited
  · rw [if_pos hend] at hs; cases hs
  · rw [if_neg hend] at hs
    have hna : s.aborted = false := by
      cases hab : s.aborted with
      | false => rfl
      | true => exact absurd (Or.inl hab) hend
    cases a with
    | main =>
      dsimp only at hs
      unfold stepMain at hs
      cases hm : s.main with
      | start =>
        rw [hm] at hs
        cases hrx : c.lineRx with
        | none =>
          simp only [hrx, Option.some.injEq] at hs
          subst hs
          simp only [stepsLeft]
          simp [mainCost, hm, hna]
        | some rx =>
          simp only [hrx, Option.some.injEq] at hs
          subst hs
          simp only [stepsLeft]
          simp [mainCost, addCost, awaitCost, workerCost, hm, hna, (h.mainStart hm).2.1] <;> omega
      | spawning k =>
        rw [hm] at hs
        by_cases hk : k < c.workers
        · simp only [hk, if_true, Option.some.injEq] at hs
          subst hs
          simp only [stepsLeft]
          simp [mainCost, addCost, awaitCost, workerCost, hna, hm] <;> omega
        · simp only [hk, if_false, Option.some.injEq] at hs
          subst hs
          simp only [stepsLeft]
          simp [mainCost, addCost, awaitCost, workerCost, hna, hm, (h.mainSpawning k hm).2.2.1] <;> omega
      | draining =>
        rw [hm] at hs
        cases hr : s.results with
        | nil =>
          simp only [hr] at hs
          by_cases hc : s.resultsClosed = true
          · simp only [hc, if_true, Option.some.injEq] at hs
            subst hs
            simp only [stepsLeft]
            simp [mainCost, addCost, awaitCost, workerCost, hna, hm] <;> omega
          · simp [hc] at hs
        | cons r rest =>
          simp only [hr, Option.some.injEq] at hs
          subst hs
          simp only [stepsLeft]
          simp [mainCost, addCost, awaitCost, workerCost, hna, hm, hr] <;> omega
      | exited => rw [hm] at hs; simp [stepMain] at hs
    | addJobs =>
      dsimp only at hs
      unfold stepAddJobs at hs
      cases ha : s.adder with
      | notStarted => rw [ha] at hs; simp at hs
      | finished => rw [ha] at hs; simp at hs
      | running t =>
        rw [ha] at hs
        cases t with
        | nil =>
          by_cases hjc : s.jobsClosed = true
          · simp only [hjc, if_true, Option.some.injEq] at hs
            subst hs; simp at hnp
          · simp only [hjc, if_false, Bool.false_eq_true, Option.some.injEq] at hs
            subst hs
            simp only [stepsLeft]
            simp [mainCost, addCost, awaitCost, workerCost, hna, ha] <;> omega
        | cons fn rest =>
          by_cases hjc : s.jobsClosed = true
          · simp only [hjc, if_true, Option.some.injEq] at hs
            subst hs; simp at hnp
          · simp only [hjc, if_false, Bool.false_eq_true] at hs
            by_cases hroom : s.jobs.length < c.workers
            · simp only [hroom, if_true, Option.some.injEq] at hs
              subst hs
              simp only [stepsLeft]
              simp [mainCost, addCost, awaitCost, workerCost, hna, ha] <;> omega
            · simp [hroom] at hs
    | awaitCompletion =>
      dsimp only at hs
      unfold stepAwait at hs
      cases ha : s.awaiter with
      | notStarted => rw [ha] at hs; simp at hs
      | finished => rw [ha] at hs; simp at hs
      | waiting i =>
        rw [ha] at hs
        by_cases hi : i < c.workers
        · simp only [hi, if_true] at hs
          by_cases hd : 0 < s.done
          · simp only [hd, if_true, Option.some.injEq] at hs
            subst hs
            simp only [stepsLeft]
            simp [mainCost, addCost, awaitCost, workerCost, hna, ha] <;> omega
          · simp [hd] at hs
        · simp only [hi, if_false] at hs
          by_cases hc : s.resultsClosed = true
          · simp only [hc, if_true, Option.some.injEq] at hs
            subst hs; simp at hnp
          · simp only [hc, if_false, Bool.false_eq_true, Option.some.injEq] at hs
            subst hs
            simp only [stepsLeft]
            simp [mainCost, addCost, awaitCost, workerCost, hna, ha] <;> omega
    | doJobs i =>
      dsimp only at hs
      unfold stepDoJobs at hs
      cases hg : s.ws.get? i with
      | none => rw [hg] at hs; simp at hs
      | some w =>
        rw [hg] at hs
        obtain ⟨l1, l2, e, hset⟩ := get?_split s.ws i w hg
        simp only [hset] at hs
        obtain ⟨pc, sg, pr⟩ := w
        dsimp only at hs
        cases pc with
        | idle =>
          cases hj : s.jobs with
          | nil =>
            simp only [hj] at hs
            by_cases hc : s.jobsClosed = true
            · simp only [hc, if_true, Option.some.injEq] at hs
              subst hs
              simp only [stepsLeft]
              simp [workerCost, e, hj, hna] <;> omega
            · simp [hc] at hs
          | cons fn rest =>
            simp only [hj] at hs
            cases hrx : c.lineRx with
            | none => simp [hrx] at hs
            | some rx =>
              simp only [hrx] at hs
              cases hdo : Job.Do c.fs rx fn with
              | none => simp [hdo] at hs
              | some p =>
                obtain ⟨rs, ds⟩ := p
                simp only [hdo, Option.some.injEq] at hs
                subst hs
                simp only [stepsLeft]
                simp [workerCost, e, hj, jobCost, hrx, hdo, hna] <;> omega
        | busy pending =>
          cases pending with
          | nil =>
            simp only [Option.some.injEq] at hs
            subst hs
            simp only [stepsLeft]
            simp [workerCost, e, hna] <;> omega
          | cons r rs =>
            by_cases hrc : s.resultsClosed = true
            · simp only [hrc, if_true, Option.some.injEq] at hs
              subst hs; simp at hnp
            · simp only [hrc, if_false, Bool.false_eq_true] at hs
              by_cases hroom : s.results.length < resultsCap c
              · simp only [hroom, if_true, Option.some.injEq] at hs
                subst hs
                simp only [stepsLeft]
                simp [workerCost, e, hna] <;> omega
              · simp only [hroom, if_false] at hs
                by_cases hh : resultsCap c = 0 ∧ s.main = .draining
                · simp only [hh, and_self, if_true, Option.some.injEq] at hs
                  subst hs
                  simp only [stepsLeft]
                  simp [workerCost, e, hh.2, hna] <;> omega
                · simp [hh] at hs
        | signalling =>
          by_cases hd : s.done < c.workers
          · simp only [hd, if_true, Option.some.injEq] at hs
            subst hs
            simp only [stepsLeft]
            simp [workerCost, e, hna] <;> omega
          · simp [hd] at hs
        | finished => simp at hs

theorem stepsLeft_run (c : Config) (sched : List Actor) :
    ∀ s s2 : State, Inv c s → run c sched s = some s2 →
      sched.length + stepsLeft c s2 ≤ stepsLeft c s := by
  induction sched with
  | nil =>
    intro s s2 _ hr
    simp only [run, Option.some.injEq] at hr
    rw [← hr]; simp
  | cons a sched ih =>
    intro s s2 h hr
    unfold run at hr
    cases hst : step c a s with
    | none => rw [hst] at hr; cases hr
    | some s1 =>
      rw [hst] at hr
      have h1 := stepsLeft_step c a s s1 h hst
      have h2 := ih s1 s2 (Inv_step c a s s1 h hst) hr
      simp only [List.length_cons]
      omega

theorem run_append (c : Config) (sched1 sched2 : List Actor) :
    ∀ s s1 : State, run c sched1 s = some s1 →
      run c (sched1 ++ sched2) s = run c sched2 s1 := by
  induction sched1 with
  | nil => intro s s1 h; simp only [run, Option.some.injEq] at h; rw [h]; rfl
  | cons a sched1 ih =>
    intro s s1 h
    cases hst : step c a s with
    | none => simp [run, hst] at h
    | some s' =>
      simp only [run, hst] at h
      simp only [List.cons_append, run, hst]
      exact ih s' s1 h

theorem reaches_Done (c : Config) (rx : Str → Bool) (hrx : c.lineRx = some rx)
    (hw : 0 < c.workers) (n : Nat) :
    ∀ s : State, Inv c s → stepsLeft c s ≤ n →
      ∃ sched s2, run c sched s = some s2 ∧ Done c s2 := by
  induction n with
  | zero =>
    intro s h hn
    rcases progress c s rx hrx hw h with hd | ⟨a, ha⟩
    · exact ⟨[], s, rfl, hd⟩
    · obtain ⟨s1, hs1⟩ := Option.isSome_iff_exists.1 ha
      have := stepsLeft_step c a s s1 h hs1
      omega
  | succ n ih =>
    intro s h hn
    rcases progress c s rx hrx hw h with hd | ⟨a, ha⟩
    · exact ⟨[], s, rfl, hd⟩
    · obtain ⟨s1, hs1⟩ := Option.isSome_iff_exists.1 ha
      have hlt := stepsLeft_step c a s s1 h hs1
      obtain ⟨sched, s2, hr, hd⟩ := ih s1 (Inv_step c a s s1 h hs1) (by omega)
      exact ⟨a :: sched, s2, by simp [run, hs1, hr], hd⟩

theorem Sent_init (c : Config) : Hist c init := by
  constructor <;> simp [init, todo]

theorem Sent_step (c : Config) (a : Actor) (s s2 : State) (h : Hist c s) (hi : Inv c s)
    (hs : step c a s = some s2) : Hist c s2 := by
  have hnp := (Inv_step c a s s2 hi hs).notPanicked
  unfold step at hs
  by_cases hend : s.aborted = true ∨ s.panicked = true ∨ s.main = .exited
  · rw [if_pos hend] at hs; cases hs
  · rw [if_neg hend] at hs
    have hna : s.aborted = false := by
      cases hab : s.aborted with
      | false => rfl
      | true => exact absurd (Or.inl hab) hend
    obtain ⟨h1, h2⟩ := h
    have h2 := h2 hna
    rw [List.perm_iff_count] at h1 h2
    cases a with
    | main =>
      dsimp only at hs
      unfold stepMain at hs
      cases hm : s.main with
      | start =>
        rw [hm] at hs
        have had := (hi.mainStart hm).2.1
        cases hrx : c.lineRx with
        | none =>
          simp only [hrx, Option.some.injEq] at hs
          subst hs
          constructor
          · rw [List.perm_iff_count]; exact h1
          · intro hx; cases hx
        | some rx =>
          simp only [hrx, Option.some.injEq] at hs
          subst hs
          constructor
          · rw [List.perm_iff_count]; intro x; have := h1 x
            try simp only [had, List.map_append, List.map_cons, List.map_nil,
              List.flatten_append, List.flatten_cons, List.flatten_nil, List.count_append,
              List.count_cons, List.count_nil, List.append_nil, List.nil_append,
              List.cons_append, pendingOf, todo] at this ⊢
            omega
          · intro _; rw [List.perm_iff_count]; intro x; have := h2 x
            try simp only [had, List.map_append, List.map_cons, List.map_nil,
              List.flatten_append, List.flatten_cons, List.flatten_nil, List.count_append,
              List.count_cons, List.count_nil, List.append_nil, List.nil_append,
              List.cons_append, pendingOf, todo] at this ⊢
            omega
      | spawning k =>
        rw [hm] at hs
        by_cases hk : k < c.workers
        · simp only [hk, if_true, Option.some.injEq] at hs
          subst hs
          constructor
          · rw [List.perm_iff_count]; intro x; have := h1 x
            try simp only [List.map_append, List.map_cons, List.map_nil, List.flatten_append,
              List.flatten_cons, List.flatten_nil, List.count_append, List.count_cons,
              List.count_nil, List.append_nil, List.nil_append, List.cons_append, pendingOf,
              todo] at this ⊢
            omega
          · intro _; rw [List.perm_iff_count]; intro x; have := h2 x
            try simp only [List.map_append, List.map_cons, List.map_nil, List.flatten_append,
              List.flatten_cons, List.flatten_nil, List.count_append, List.count_cons,
              List.count_nil, List.append_nil, List.nil_append, List.cons_append, pendingOf,
              todo] at this ⊢
            omega
        · simp only [hk, if_false, Option.some.injEq] at hs
          subst hs
          constructor
          · rw [List.perm_iff_count]; intro x; have := h1 x
            try simp only [List.map_append, List.map_cons, List.map_nil, List.flatten_append,
              List.flatten_cons, List.flatten_nil, List.count_append, List.count_cons,
              List.count_nil, List.append_nil, List.nil_append, List.cons_append, pendingOf,
              todo] at this ⊢
            omega
          · intro _; rw [List.perm_iff_count]; intro x; have := h2 x
            try simp only [List.map_append, List.map_cons, List.map_nil, List.flatten_append,
              List.flatten_cons, List.flatten_nil, List.count_append, List.count_cons,
              List.count_nil, List.append_nil, List.nil_append, List.cons_append, pendingOf,
              todo] at this ⊢
            omega
      | draining =>
        rw [hm] at hs
        cases hr : s.results with
        | nil =>
          simp only [hr] at hs
          by_cases hc : s.resultsClosed = true
          · simp only [hc, if_true, Option.some.injEq] at hs
            subst hs
            constructor
            · rw [List.perm_iff_count]; intro x; have := h1 x
              try simp only [hr, List.map_append, List.map_cons, List.map_nil,
                List.flatten_append, List.flatten_cons, List.flatten_nil, List.count_append,
                List.count_cons, List.count_nil, List.append_nil, List.nil_append,
                List.cons_append, pendingOf, todo] at this ⊢
              omega
            · intro _; rw [List.perm_iff_count]; intro x; have := h2 x
              try simp only [hr, List.map_append, List.map_cons, List.map_nil,
                List.flatten_append, List.flatten_cons, List.flatten_nil, List.count_append,
                List.count_cons, List.count_nil, List.append_nil, List.nil_append,
                List.cons_append, pendingOf, todo] at this ⊢
              omega
          · simp [hc] at hs
        | cons r rest =>
          simp only [hr, Option.some.injEq] at hs
          subst hs
          constructor
          · rw [List.perm_iff_count]; intro x; have := h1 x
            try simp only [hr, List.map_append, List.map_cons, List.map_nil,
              List.flatten_append, List.flatten_cons, List.flatten_nil, List.count_append,
              List.count_cons, List.count_nil, List.append_nil, List.nil_append,
              List.cons_append, pendingOf, todo] at this ⊢
            omega
          · intro _; rw [List.perm_iff_count]; intro x; have := h2 x
            try simp only [hr, List.map_append, List.map_cons, List.map_nil,
              List.flatten_append, List.flatten_cons, List.flatten_nil, List.count_append,
              List.count_cons, List.count_nil, List.append_nil, List.nil_append,
              List.cons_append, pendingOf, todo] at this ⊢
            omega
      | exited => rw [hm] at hs; simp [stepMain] at hs
    | addJobs =>
      dsimp only at hs
      unfold stepAddJobs at hs
      cases ha : s.adder with
      | notStarted => rw [ha] at hs; simp at hs
      | finished => rw [ha] at hs; simp at hs
      | running t =>
        rw [ha] at hs
        have hjc : s.jobsClosed = false := by
          cases hj : s.jobsClosed with
          | false => rfl
          | true => rw [hi.adderClosed.1 hj] at ha; cases ha
        cases t with
        | nil =>
          simp only [hjc, if_false, Bool.false_eq_true, Option.some.injEq] at hs
          subst hs
          constructor
          · rw [List.perm_iff_count]; intro x; have := h1 x
            try simp only [ha, List.map_append, List.map_cons, List.map_nil,
              List.flatten_append, List.flatten_cons, List.flatten_nil, List.count_append,
              List.count_cons, List.count_nil, List.append_nil, List.nil_append,
              List.cons_append, pendingOf, todo] at this ⊢
            omega
          · intro _; rw [List.perm_iff_count]; intro x; have := h2 x
            try simp only [ha, List.map_append, List.map_cons, List.map_nil,
              List.flatten_append, List.flatten_cons, List.flatten_nil, List.count_append,
              List.count_cons, List.count_nil, List.append_nil, List.nil_append,
              List.cons_append, pendingOf, todo] at this ⊢
            omega
        | cons fn rest =>
          simp only [hjc, if_false, Bool.false_eq_true] at hs
          by_cases hroom : s.jobs.length < c.workers
          · simp only [hroom, if_true, Option.some.injEq] at hs
            subst hs
            constructor
            · rw [List.perm_iff_count]; intro x; have := h1 x
              try simp only [ha, List.map_append, List.map_cons, List.map_nil,
                List.flatten_append, List.flatten_cons, List.flatten_nil, List.count_append,
                List.count_cons, List.count_nil, List.append_nil, List.nil_append,
                List.cons_append, pendingOf, todo] at this ⊢
              omega
            · intro _; rw [List.perm_iff_count]; intro x; have := h2 x
              try simp only [ha, List.map_append, List.map_cons, List.map_nil,
                List.flatten_append, List.flatten_cons, List.flatten_nil, List.count_append,
                List.count_cons, List.count_nil, List.append_nil, List.nil_append,
                List.cons_append, pendingOf, todo] at this ⊢
              omega
          · simp [hroom] at hs
    | awaitCompletion =>
      dsimp only at hs
      unfold stepAwait at hs
      cases ha : s.awaiter with
      | notStarted => rw [ha] at hs; simp at hs
      | finished => rw [ha] at hs; simp at hs
      | waiting i =>
        rw [ha] at hs
        by_cases hi2 : i < c.workers
        · simp only [hi2, if_true] at hs
          by_cases hd : 0 < s.done
          · simp only [hd, if_true, Option.some.injEq] at hs
            subst hs
            constructor
            · rw [List.perm_iff_count]; intro x; have := h1 x
              try simp only [ha, List.map_append, List.map_cons, List.map_nil,
                List.flatten_append, List.flatten_cons, List.flatten_nil, List.count_append,
                List.count_cons, List.count_nil, List.append_nil, List.nil_append,
                List.cons_append, pendingOf, todo] at this ⊢
              omega
            · intro _; rw [List.perm_iff_count]; intro x; have := h2 x
              try simp only [ha, List.map_append, List.map_cons, List.map_nil,
                List.flatten_append, List.flatten_cons, List.flatten_nil, List.count_append,
                List.count_cons, List.count_nil, List.append_nil, List.nil_append,
                List.cons_append, pendingOf, todo] at this ⊢
              omega
          · simp [hd] at hs
        · simp only [hi2, if_false] at hs
          by_cases hc : s.resultsClosed = true
          · simp only [hc, if_true, Option.some.injEq] at hs
            subst hs; simp at hnp
          · simp only [hc, if_false, Bool.false_eq_true, Option.some.injEq] at hs
            subst hs
            constructor
            · rw [List.perm_iff_count]; intro x; have := h1 x
              try simp only [ha, List.map_append, List.map_cons, List.map_nil,
                List.flatten_append, List.flatten_cons, List.flatten_nil, List.count_append,
                List.count_cons, List.count_nil, List.append_nil, List.nil_append,
                List.cons_append, pendingOf, todo] at this ⊢
              omega
            · intro _; rw [List.perm_iff_count]; intro x; have := h2 x
              try simp only [ha, List.map_append, List.map_cons, List.map_nil,
                List.flatten_append, List.flatten_cons, List.flatten_nil, List.count_append,
                List.count_cons, List.count_nil, List.append_nil, List.nil_append,
                List.cons_append, pendingOf, todo] at this ⊢
              omega
    | doJobs i =>
      dsimp only at hs
      unfold stepDoJobs at hs
      cases hg : s.ws.get? i with
      | none => rw [hg] at hs; simp at hs
      | some w =>
        rw [hg] at hs
        obtain ⟨l1, l2, e, hset⟩ := get?_split s.ws i w hg
        simp only [hset] at hs
        obtain ⟨pc, sg, pr⟩ := w
        simp only [e, List.map_append, List.map_cons, List.flatten_append, List.flatten_cons,
          List.count_append, pendingOf] at h1
        dsimp only at hs
        cases pc with
        | idle =>
          cases hj : s.jobs with
          | nil =>
            simp only [hj] at hs
            by_cases hc : s.jobsClosed = true
            · simp only [hc, if_true, Option.some.injEq] at hs
              subst hs
              constructor
              · rw [List.perm_iff_count]; intro x; have := h1 x
                try simp only [hj, List.map_append, List.map_cons, List.map_nil,
                  List.flatten_append, List.flatten_cons, List.flatten_nil, List.count_append,
                  List.count_cons, List.count_nil, List.append_nil, List.nil_append,
                  List.cons_append, pendingOf, todo] at this ⊢
                omega
              · intro _; rw [List.perm_iff_count]; intro x; have := h2 x
                try simp only [hj, List.map_append, List.map_cons, List.map_nil,
                  List.flatten_append, List.flatten_cons, List.flatten_nil, List.count_append,
                  List.count_cons, List.count_nil, List.append_nil, List.nil_append,
                  List.cons_append, pendingOf, todo] at this ⊢
                omega
            · simp [hc] at hs
          | cons fn rest =>
            simp only [hj] at hs
            cases hrx : c.lineRx with
            | none => simp [hrx] at hs
            | some rx =>
              simp only [hrx] at hs
              cases hdo : Job.Do c.fs rx fn with
              | none => simp [hdo] at hs
              | some p =>
                obtain ⟨rs, ds⟩ := p
                simp only [hdo, Option.some.injEq] at hs
                subst hs
                have hro : resultsOf c fn = rs := by simp [resultsOf, hrx, hdo]
                have hlo : logOf c fn = ds := by simp [logOf, hrx, hdo]
                constructor
                · rw [List.perm_iff_count]; intro x; have := h1 x
                  try simp only [hlo, hro, hj, List.map_append, List.map_cons, List.map_nil,
                    List.flatten_append, List.flatten_cons, List.flatten_nil,
                    List.count_append, List.count_cons, List.count_nil, List.append_nil,
                    List.nil_append, List.cons_append, pendingOf, todo] at this ⊢
                  omega
                · intro _; rw [List.perm_iff_count]; intro x; have := h2 x
                  try simp only [hlo, hro, hj, List.map_append, List.map_cons, List.map_nil,
                    List.flatten_append, List.flatten_cons, List.flatten_nil,
                    List.count_append, List.count_cons, List.count_nil, List.append_nil,
                    List.nil_append, List.cons_append, pendingOf, todo] at this ⊢
                  omega
        | busy pending =>
          cases pending with
          | nil =>
            simp only [Option.some.injEq] at hs
            subst hs
            constructor
            · rw [List.perm_iff_count]; intro x; have := h1 x
              try simp only [List.map_append, List.map_cons, List.map_nil, List.flatten_append,
                List.flatten_cons, List.flatten_nil, List.count_append, List.count_cons,
                List.count_nil, List.append_nil, List.nil_append, List.cons_append, pendingOf,
                todo] at this ⊢
              omega
            · intro _; rw [List.perm_iff_count]; intro x; have := h2 x
              try simp only [List.map_append, List.map_cons, List.map_nil, List.flatten_append,
                List.flatten_cons, List.flatten_nil, List.count_append, List.count_cons,
                List.count_nil, List.append_nil, List.nil_append, List.cons_append, pendingOf,
                todo] at this ⊢
              omega
          | cons r rs =>
            by_cases hrc : s.resultsClosed = true
            · simp only [hrc, if_true, Option.some.injEq] at hs
              subst hs; simp at hnp
            · simp only [hrc, if_false, Bool.false_eq_true] at hs
              by_cases hroom : s.results.length < resultsCap c
              · simp only [hroom, if_true, Option.some.injEq] at hs
                subst hs
                constructor
                · rw [List.perm_iff_count]; intro x; have := h1 x
                  try simp only [List.map_append, List.map_cons, List.map_nil,
                    List.flatten_append, List.flatten_cons, List.flatten_nil,
                    List.count_append, List.count_cons, List.count_nil, List.append_nil,
                    List.nil_append, List.cons_append, pendingOf, todo] at this ⊢
                  omega
                · intro _; rw [List.perm_iff_count]; intro x; have := h2 x
                  try simp only [List.map_append, List.map_cons, List.map_nil,
                    List.flatten_append, List.flatten_cons, List.flatten_nil,
                    List.count_append, List.count_cons, List.count_nil, List.append_nil,
                    List.nil_append, List.cons_append, pendingOf, todo] at this ⊢
                  omega
              · simp only [hroom, if_false] at hs
                by_cases hh : resultsCap c = 0 ∧ s.main = .draining
                · simp only [hh, and_self, if_true, Option.some.injEq] at hs
                  subst hs
                  constructor
                  · rw [List.perm_iff_count]; intro x; have := h1 x
                    try simp only [List.map_append, List.map_cons, List.map_nil,
                      List.flatten_append, List.flatten_cons, List.flatten_nil,
                      List.count_append, List.count_cons, List.count_nil, List.append_nil,
                      List.nil_append, List.cons_append, pendingOf, todo] at this ⊢
                    omega
                  · intro _; rw [List.perm_iff_count]; intro x; have := h2 x
                    try simp only [List.map_append, List.map_cons, List.map_nil,
                      List.flatten_append, List.flatten_cons, List.flatten_nil,
                      List.count_append, List.count_cons, List.count_nil, List.append_nil,
                      List.nil_append, List.cons_append, pendingOf, todo] at this ⊢
                    omega
                · simp [hh] at hs
        | signalling =>
          by_cases hd : s.done < c.workers
          · simp only [hd, if_true, Option.some.injEq] at hs
            subst hs
            constructor
            · rw [List.perm_iff_count]; intro x; have := h1 x
              try simp only [List.map_append, List.map_cons, List.map_nil, List.flatten_append,
                List.flatten_cons, List.flatten_nil, List.count_append, List.count_cons,
                List.count_nil, List.append_nil, List.nil_append, List.cons_append, pendingOf,
                todo] at this ⊢
              omega
            · intro _; rw [List.perm_iff_count]; intro x; have := h2 x
              try simp only [List.map_append, List.map_cons, List.map_nil, List.flatten_append,
                List.flatten_cons, List.flatten_nil, List.count_append, List.count_cons,
                List.count_nil, List.append_nil, List.nil_append, List.cons_append, pendingOf,
                todo] at this ⊢
              omega
          · simp [hd] at hs
        | finished => simp at hs

theorem Sent_run (c : Config) (sched : List Actor) :
    ∀ s s2 : State, Inv c s → Hist c s → run c sched s = some s2 → Hist c s2 := by
  induction sched with
  | nil => intro s s2 _ h hr; simp only [run, Option.some.injEq] at hr; rw [← hr]; exact h
  | cons a sched ih =>
    intro s s2 hi h hr
    unfold run at hr
    cases hst : step c a s with
    | none => rw [hst] at hr; cases hr
    | some s1 =>
      rw [hst] at hr
      exact ih s1 s2 (Inv_step c a s s1 hi hst) (Sent_step c a s s1 h hi hst) hr

theorem doJobs_eq (c : Config) (lineRx : Str → Bool) (hrx : c.lineRx = some lineRx)
    (jobs : List Str) :
    doJobs c.fs lineRx jobs
      = some ((jobs.map (resultsOf c)).flatten, (jobs.map (logOf c)).flatten) := by
  induction jobs with
  | nil => rfl
  | cons fn rest ih =>
    obtain ⟨rs, ds, hdo⟩ := Job_Do_isSome c.fs lineRx fn
    simp [doJobs, hdo, ih, resultsOf, logOf, hrx]

theorem Done_printed (c : Config) (hw : 0 < c.workers) (s : State) (hi : Inv c s)
    (hh : Hist c s) (hd : Done c s) :
    s.printed.Perm ((c.filenames.map (resultsOf c)).flatten) ∧
    s.log.Perm ((c.filenames.map (logOf c)).flatten) := by
  obtain ⟨m1, a1, l1, f1, -, ab, -⟩ := hd
  have hj : s.jobs = [] := by
    cases hws : s.ws with
    | nil => rw [hws] at l1; simp at l1; omega
    | cons w rest =>
      have hmem : w ∈ s.ws := by rw [hws]; exact List.mem_cons_self _ _
      exact (hi.workerLeft w hmem (Or.inr (f1 w hmem))).2
  have hres := (hi.exitedClosed m1).2
  have hpend : (s.ws.map pendingOf).flatten = [] := by
    rw [List.flatten_eq_nil_iff]
    intro l hl
    obtain ⟨w, hw2, rfl⟩ := List.mem_map.1 hl
    unfold pendingOf
    rw [f1 w hw2]
  have h1 := hh.results
  have h2 := hh.log ab
  rw [hj, a1, hres, hpend] at h1
  rw [hj, a1] at h2
  simp only [todo, List.append_nil, List.map_nil, List.flatten_nil] at h1 h2
  exact ⟨h1, h2⟩

end Cgrep

/-! ### apachereport: what every reachable state satisfies -/

namespace Apache

theorem signals_sum_le (ws : List Worker)
    (h : ∀ w ∈ ws, w.signals = if w.pc = .finished then 1 else 0) :
    (ws.map (fun w => w.signals)).sum ≤ ws.length ∧
    ((ws.map (fun w => w.signals)).sum = ws.length → ∀ w ∈ ws, w.pc = .finished) := by
  induction ws with
  | nil => simp
  | cons w ws ih =>
    have hw := h w (List.mem_cons_self _ _)
    obtain ⟨ih1, ih2⟩ := ih (fun x hx => h x (List.mem_cons_of_mem _ hx))
    simp only [List.map_cons, List.sum_cons, List.length_cons, List.forall_mem_cons]
    by_cases hf : w.pc = .finished
    · rw [if_pos hf] at hw
      refine ⟨by omega, fun hsum => ⟨hf, ih2 (by omega)⟩⟩
    · rw [if_neg hf] at hw
      refine ⟨by omega, fun hsum => ?_⟩
      omega

theorem signals_sum_finished (ws : List Worker)
    (h : ∀ w ∈ ws, w.signals = if w.pc = .finished then 1 else 0)
    (hall : ∀ w ∈ ws, w.pc = .finished) :
    (ws.map (fun w => w.signals)).sum = ws.length := by
  induction ws with
  | nil => simp
  | cons w ws ih =>
    have hw := h w (List.mem_cons_self _ _)
    rw [if_pos (hall w (List.mem_cons_self _ _))] at hw
    have := ih (fun x hx => h x (List.mem_cons_of_mem _ hx))
      (fun x hx => hall x (List.mem_cons_of_mem _ hx))
    simp only [List.map_cons, List.sum_cons, List.length_cons]
    omega

theorem Inv_at_init (c : Config) : Inv c init := by
  constructor <;> simp [init, mainReceived]

theorem Inv_main_step (c : Config) (s s2 : State) (h : Inv c s) (_ : s.aborted = false)
    (hs : stepMain c s = some s2) : Inv c s2 := by
  unfold stepMain at hs
  obtain ⟨h1, h2, h3, h4, h5, h6, h7, h8, h9, h10, h11, h12⟩ := h
  cases hm : s.main with
  | start =>
    rw [hm] at hs
    obtain ⟨a1, a2, a3, a4, a5⟩ := h3 hm
    simp only [Option.some.injEq] at hs
    subst hs
    constructor <;> dsimp only <;> first
        | assumption
        | (simp [mainReceived, SafeMap.Close, *]; done)
        | (intros; simp_all [mainReceived, SafeMap.Close]; done)
        | (intros; simp_all [mainReceived, SafeMap.Close] <;> omega)
        | skip
  | spawning k =>
    rw [hm] at hs
    obtain ⟨a1, a2, a3⟩ := h4 k hm
    by_cases hk : k < c.workers
    · simp only [hk, if_true, Option.some.injEq] at hs
      subst hs
      constructor <;> dsimp only <;> first
        | assumption
        | (simp [mainReceived, SafeMap.Close, *]; done)
        | (intros; simp_all [mainReceived, SafeMap.Close]; done)
        | (intros; simp_all [mainReceived, SafeMap.Close] <;> omega)
        | skip
      · intro w hw
        rcases List.mem_append.1 hw with hw | hw
        · exact h9 w hw
        · simp only [List.mem_singleton] at hw; subst hw; simp
      · intro w hw
        rcases List.mem_append.1 hw with hw | hw
        · exact h12 w hw
        · simp only [List.mem_singleton] at hw; subst hw; simp
    · simp only [hk, if_false, Option.some.injEq] at hs
      subst hs
      have : k = c.workers := by omega
      constructor <;> dsimp only <;> first
        | assumption
        | (simp [mainReceived, SafeMap.Close, *]; done)
        | (intros; simp_all [mainReceived, SafeMap.Close]; done)
        | (intros; simp_all [mainReceived, SafeMap.Close] <;> omega)
        | skip
  | waiting i =>
    rw [hm] at hs
    obtain ⟨a1, a2, a3⟩ := h5 i hm
    have hrec : s.received = i := by rw [h7, hm]; rfl
    obtain ⟨hsum1, hsum2⟩ := signals_sum_le s.ws h9
    by_cases hi : i < c.workers
    · simp only [hi, if_true] at hs
      by_cases hd : 0 < s.done
      · simp only [hd, if_true, Option.some.injEq] at hs
        subst hs
        constructor <;> dsimp only <;> first
        | assumption
        | (simp [mainReceived, SafeMap.Close, *]; done)
        | (intros; simp_all [mainReceived, SafeMap.Close]; done)
        | (intros; simp_all [mainReceived, SafeMap.Close] <;> omega)
        | skip
      · simp [hd] at hs
    · simp only [hi, if_false, Option.some.injEq] at hs
      subst hs
      have hi2 : i = c.workers := by omega
      have hall : ∀ w ∈ s.ws, w.pc = .finished := hsum2 (by omega)
      have hd0 : s.done = 0 := by omega
      constructor <;> dsimp only <;> first
        | assumption
        | (simp [mainReceived, SafeMap.Close, *]; done)
        | (intros; simp_all [mainReceived, SafeMap.Close]; done)
        | (intros; simp_all [mainReceived, SafeMap.Close] <;> omega)
        | skip
  | exited => rw [hm] at hs; simp at hs

theorem Inv_stepReadLines (c : Config) (s s2 : State) (h : Inv c s) (_ : s.aborted = false)
    (hs : stepReadLines c s = some s2) : Inv c s2 := by
  unfold stepReadLines at hs
  obtain ⟨h1, h2, h3, h4, h5, h6, h7, h8, h9, h10, h11, h12⟩ := h
  cases hr : s.reader with
  | notStarted => rw [hr] at hs; simp at hs
  | finished => rw [hr] at hs; simp at hs
  | opening =>
    rw [hr] at hs
    have hlc : s.linesClosed = false := by
      cases hj : s.linesClosed with
      | false => rfl
      | true => rw [h11.1 hj] at hr; cases hr
    have hms : s.main ≠ .start := by
      intro hm; rw [(h3 hm).2.1] at hr; cases hr
    cases hf : c.fs c.filename with
    | none =>
      simp only [hf, Option.some.injEq] at hs
      subst hs
      constructor <;> dsimp only <;> first
        | assumption
        | (simp [mainReceived, SafeMap.Close, *]; done)
        | (intros; simp_all [mainReceived, SafeMap.Close]; done)
        | (intros; simp_all [mainReceived, SafeMap.Close] <;> omega)
        | skip
    | some file =>
      simp only [hf, Option.some.injEq] at hs
      subst hs
      constructor <;> dsimp only <;> first
        | assumption
        | (simp [mainReceived, SafeMap.Close, *]; done)
        | (intros; simp_all [mainReceived, SafeMap.Close]; done)
        | (intros; simp_all [mainReceived, SafeMap.Close] <;> omega)
        | skip
  | closing =>
    rw [hr] at hs
    have hlc : s.linesClosed = false := by
      cases hj : s.linesClosed with
      | false => rfl
      | true => rw [h11.1 hj] at hr; cases hr
    have hms : s.main ≠ .start := by
      intro hm; rw [(h3 hm).2.1] at hr; cases hr
    simp only [hlc, Bool.false_eq_true, if_false, Option.some.injEq] at hs
    subst hs
    constructor <;> dsimp only <;> first
        | assumption
        | (simp [mainReceived, SafeMap.Close, *]; done)
        | (intros; simp_all [mainReceived, SafeMap.Close]; done)
        | (intros; simp_all [mainReceived, SafeMap.Close] <;> omega)
        | skip
  | reading f =>
    rw [hr] at hs
    have hlc : s.linesClosed = false := by
      cases hj : s.linesClosed with
      | false => rfl
      | true => rw [h11.1 hj] at hr; cases hr
    have hms : s.main ≠ .start := by
      intro hm; rw [(h3 hm).2.1] at hr; cases hr
    dsimp only at hs
    rcases hrs : ReadString f with ⟨line, err, r2⟩
    rw [hrs] at hs
    dsimp only at hs
    by_cases hl : line = []
    · simp only [hl, ne_eq, not_true_eq_false, if_false, Option.some.injEq] at hs
      subst hs
      cases err <;> dsimp only <;>
      (constructor <;> dsimp only <;> first
        | assumption
        | (simp [mainReceived, SafeMap.Close, *]; done)
        | (intros; simp_all [mainReceived, SafeMap.Close]; done)
        | (intros; simp_all [mainReceived, SafeMap.Close] <;> omega)
        | skip)
    · simp only [hl, ne_eq, not_false_eq_true, if_true, hlc, Bool.false_eq_true, if_false] at hs
      by_cases hroom : s.lines.length < c.workers * 4
      · simp only [hroom, if_true, Option.some.injEq] at hs
        subst hs
        cases err <;> dsimp only <;>
        (constructor <;> dsimp only <;> first
        | assumption
        | (simp [mainReceived, SafeMap.Close, *]; done)
        | (intros; simp_all [mainReceived, SafeMap.Close]; done)
        | (intros; simp_all [mainReceived, SafeMap.Close] <;> omega)
        | skip)
      · simp [hroom] at hs

theorem Inv_stepWorker (c : Config) (i : Nat) (s s2 : State) (h : Inv c s)
    (_ : s.aborted = false) (hs : stepWorker c i s = some s2) : Inv c s2 := by
  unfold stepWorker at hs
  obtain ⟨h1, h2, h3, h4, h5, h6, h7, h8, h9, h10, h11, h12⟩ := h
  cases hg : s.ws.get? i with
  | none => rw [hg] at hs; simp at hs
  | some w =>
    rw [hg] at hs
    obtain ⟨l1, l2, e, hset⟩ := Cgrep.get?_split s.ws i w hg
    simp only [hset] at hs
    have hms : s.main ≠ .start := by
      intro hm; rw [(h3 hm).1] at e; simp at e
    clear hset hg h3
    simp only [e, List.forall_mem_append, List.forall_mem_cons, List.map_append, List.map_cons,
      List.sum_append, List.sum_cons, List.flatten_append, List.flatten_cons, List.length_append,
      List.length_cons] at h4 h5 h6 h9 h10 h12
    obtain ⟨pc, sg, pr⟩ := w
    dsimp only at h6 h9 h10 h12 hs
    cases pc with
    | idle =>
      cases hj : s.lines with
      | nil =>
        simp only [hj] at hs
        by_cases hc : s.linesClosed = true
        · simp only [hc, if_true, Option.some.injEq] at hs
          subst hs
          constructor <;> dsimp only <;>
            (try simp only [List.forall_mem_append, List.forall_mem_cons, List.map_append,
              List.map_cons, List.sum_append, List.sum_cons, List.flatten_append,
              List.flatten_cons, List.length_append, List.length_cons]) <;> first
            | assumption
            | (intro hm; exact absurd hm hms)
            | (intro hm; have := (h6 hm).2.2.2.2.2.1; cases this)
            | omega
            | (refine ⟨h12.1, ?_, h12.2.2⟩; intro hx; rcases hx with hx | hx <;> cases hx; done)
            | (refine ⟨h12.1, ?_, h12.2.2⟩; intro _; exact h12.2.1 (Or.inl rfl))
            | (simp [*]; done)
            | (simp_all; done)
            | skip
        · simp [hc] at hs
      | cons line rest =>
        simp only [hj, Option.some.injEq] at hs
        subst hs
        constructor <;> dsimp only <;>
            (try simp only [List.forall_mem_append, List.forall_mem_cons, List.map_append,
              List.map_cons, List.sum_append, List.sum_cons, List.flatten_append,
              List.flatten_cons, List.length_append, List.length_cons]) <;> first
            | assumption
            | (intro hm; exact absurd hm hms)
            | (intro hm; have := (h6 hm).2.2.2.2.2.1; cases this)
            | omega
            | (refine ⟨h12.1, ?_, h12.2.2⟩; intro hx; rcases hx with hx | hx <;> cases hx; done)
            | (refine ⟨h12.1, ?_, h12.2.2⟩; intro _; exact h12.2.1 (Or.inl rfl))
            | (simp [*]; done)
            | (simp_all; done)
            | skip
    | holding line =>
      simp only [Option.some.injEq] at hs
      subst hs
      constructor <;> dsimp only <;>
            (try simp only [List.forall_mem_append, List.forall_mem_cons, List.map_append,
              List.map_cons, List.sum_append, List.sum_cons, List.flatten_append,
              List.flatten_cons, List.length_append, List.length_cons]) <;> first
            | assumption
            | (intro hm; exact absurd hm hms)
            | (intro hm; have := (h6 hm).2.2.2.2.2.1; cases this)
            | omega
            | (refine ⟨h12.1, ?_, h12.2.2⟩; intro hx; rcases hx with hx | hx <;> cases hx; done)
            | (refine ⟨h12.1, ?_, h12.2.2⟩; intro _; exact h12.2.1 (Or.inl rfl))
            | (simp [*]; done)
            | (simp_all; done)
            | skip
    | signalling =>
      by_cases hd : s.done < c.workers
      · simp only [hd, if_true, Option.some.injEq] at hs
        subst hs
        constructor <;> dsimp only <;>
            (try simp only [List.forall_mem_append, List.forall_mem_cons, List.map_append,
              List.map_cons, List.sum_append, List.sum_cons, List.flatten_append,
              List.flatten_cons, List.length_append, List.length_cons]) <;> first
            | assumption
            | (intro hm; exact absurd hm hms)
            | (intro hm; have := (h6 hm).2.2.2.2.2.1; cases this)
            | omega
            | (refine ⟨h12.1, ?_, h12.2.2⟩; intro hx; rcases hx with hx | hx <;> cases hx; done)
            | (refine ⟨h12.1, ?_, h12.2.2⟩; intro _; exact h12.2.1 (Or.inl rfl))
            | (simp [*]; done)
            | (simp_all; done)
            | skip
      · simp [hd] at hs
    | finished => simp at hs

theorem Inv_any_step (c : Config) (a : Actor) (s s2 : State) (h : Inv c s)
    (hs : step c a s = some s2) : Inv c s2 := by
  unfold step at hs
  by_cases hend : s.aborted = true ∨ s.panicked = true ∨ s.main = .exited
  · rw [if_pos hend] at hs; cases hs
  · rw [if_neg hend] at hs
    have hna : s.aborted = false := by
      cases hab : s.aborted with
      | false => rfl
      | true => exact absurd (Or.inl hab) hend
    cases a with
    | main => exact Inv_main_step c s s2 h hna hs
    | readLines => exact Inv_stepReadLines c s s2 h hna hs
    | worker i => exact Inv_stepWorker c i s s2 h hna hs

theorem Inv_reachable (c : Config) (sched : List Actor) :
    ∀ s s2 : State, Inv c s → run c sched s = some s2 → Inv c s2 := by
  induction sched with
  | nil => intro s s2 h hr; simp only [run, Option.some.injEq] at hr; rw [← hr]; exact h
  | cons a sched ih =>
    intro s s2 h hr
    unfold run at hr
    cases hst : step c a s with
    | none => rw [hst] at hr; cases hr
    | some s1 =>
      rw [hst] at hr
      exact ih s1 s2 (Inv_any_step c a s s1 h hst) hr

theorem ReadString_none (f f2 : File) (line : Str) (h : ReadString f = (line, none, f2)) :
    f2.data.length < f.data.length ∧ line ≠ [] ∧ f.data = line ++ f2.data ∧
    f2.failing = f.failing := by
  unfold ReadString at h
  cases hcut : cutLine f.data with
  | none => rw [hcut] at h; simp at h
  | some p =>
    obtain ⟨l, r⟩ := p
    rw [hcut] at h
    simp only [Prod.mk.injEq, true_and] at h
    obtain ⟨h1, h2⟩ := h
    subst h1 h2
    obtain ⟨e, hne, -, -⟩ := cutLine_some _ _ _ hcut
    exact ⟨cutLine_length _ _ _ hcut, hne, e, rfl⟩

theorem ReadString_some (f f2 : File) (line : Str) (e : ReadErr)
    (h : ReadString f = (line, some e, f2)) :
    line = f.data ∧ cutLine f.data = none ∧
    e = (if f.failing then ReadErr.other else ReadErr.eof) := by
  unfold ReadString at h
  cases hcut : cutLine f.data with
  | none =>
    rw [hcut] at h
    simp only [Prod.mk.injEq, Option.some.injEq] at h
    exact ⟨h.1.symm, rfl, h.2.1.symm⟩
  | some p =>
    obtain ⟨l, r⟩ := p
    rw [hcut] at h
    simp at h

theorem stepsLeft_decreases (c : Config) (a : Actor) (s s2 : State) (h : Inv c s)
    (hs : step c a s = some s2) : stepsLeft c s2 < stepsLeft c s := by
  have hnp := (Inv_any_step c a s s2 h hs).notPanicked
  unfold step at hs
  by_cases hend : s.aborted = true ∨ s.panicked = true ∨ s.main = .exited
  · rw [if_pos hend] at hs; cases hs
  · rw [if_neg hend] at hs
    have hna : s.aborted = false := by
      cases hab : s.aborted with
      | false => rfl
      | true => exact absurd (Or.inl hab) hend
    cases a with
    | main =>
      dsimp only at hs
      unfold stepMain at hs
      cases hm : s.main with
      | start =>
        simp only [hm, Option.some.injEq] at hs
        subst hs
        simp only [stepsLeft]
        simp [mainCost, readerCost, hm, hna, (h.mainStart hm).2.1] <;> omega
      | spawning k =>
        rw [hm] at hs
        by_cases hk : k < c.workers
        · simp only [hk, if_true, Option.some.injEq] at hs
          subst hs
          simp only [stepsLeft]
          simp [mainCost, workerCost, hm, hna] <;> omega
        · simp only [hk, if_false, Option.some.injEq] at hs
          subst hs
          simp only [stepsLeft]
          simp [mainCost, hm, hna] <;> omega
      | waiting i =>
        rw [hm] at hs
        by_cases hi : i < c.workers
        · simp only [hi, if_true] at hs
          by_cases hd : 0 < s.done
          · simp only [hd, if_true, Option.some.injEq] at hs
            subst hs
            simp only [stepsLeft]
            simp [mainCost, hm, hna] <;> omega
          · simp [hd] at hs
        · simp only [hi, if_false, Option.some.injEq] at hs
          subst hs
          simp only [stepsLeft]
          simp [mainCost, hm, hna] <;> omega
      | exited => rw [hm] at hs; simp [stepMain] at hs
    | readLines =>
      dsimp only at hs
      unfold stepReadLines at hs
      cases hr : s.reader with
      | notStarted => rw [hr] at hs; simp at hs
      | finished => rw [hr] at hs; simp at hs
      | opening =>
        rw [hr] at hs
        cases hf : c.fs c.filename with
        | none =>
          simp only [hf, Option.some.injEq] at hs
          subst hs
          simp only [stepsLeft]
          simp [readerCost, hr, hna, hf]
        | some file =>
          simp only [hf, Option.some.injEq] at hs
          subst hs
          simp only [stepsLeft]
          simp [readerCost, hr, hna, hf] <;> omega
      | closing =>
        rw [hr] at hs
        by_cases hlc : s.linesClosed = true
        · simp only [hlc, if_true, Option.some.injEq] at hs
          subst hs; simp at hnp
        · simp only [hlc, if_false, Bool.false_eq_true, Option.some.injEq] at hs
          subst hs
          simp only [stepsLeft]
          simp [readerCost, hr, hna] <;> omega
      | reading f =>
        rw [hr] at hs
        dsimp only at hs
        rcases hrs : ReadString f with ⟨line, err, r2⟩
        rw [hrs] at hs
        dsimp only at hs
        cases err with
        | none =>
          obtain ⟨hlen, hne, -, -⟩ := ReadString_none f r2 line hrs
          simp only [hne, ne_eq, not_false_eq_true, if_true] at hs
          by_cases hlc : s.linesClosed = true
          · simp only [hlc, if_true, Option.some.injEq] at hs
            subst hs; simp at hnp
          · simp only [hlc, if_false, Bool.false_eq_true] at hs
            by_cases hroom : s.lines.length < c.workers * 4
            · simp only [hroom, if_true, Option.some.injEq] at hs
              subst hs
              simp only [stepsLeft]
              simp [readerCost, hr, hna] <;> omega
            · simp [hroom] at hs
        | some e =>
          obtain ⟨hline, -, -⟩ := ReadString_some f r2 line e hrs
          by_cases hl : line = []
          · simp only [hl, ne_eq, not_true_eq_false, if_false, Option.some.injEq] at hs
            subst hs
            simp only [stepsLeft]
            simp [readerCost, hr, hna] <;> omega
          · simp only [hl, ne_eq, not_false_eq_true, if_true] at hs
            have hpos : 0 < f.data.length := by
              rw [← hline]; exact List.length_pos.2 hl
            by_cases hlc : s.linesClosed = true
            · simp only [hlc, if_true, Option.some.injEq] at hs
              subst hs; simp at hnp
            · simp only [hlc, if_false, Bool.false_eq_true] at hs
              by_cases hroom : s.lines.length < c.workers * 4
              · simp only [hroom, if_true, Option.some.injEq] at hs
                subst hs
                simp only [stepsLeft]
                simp [readerCost, hr, hna] <;> omega
              · simp [hroom] at hs
    | worker i =>
      dsimp only at hs
      unfold stepWorker at hs
      cases hg : s.ws.get? i with
      | none => rw [hg] at hs; simp at hs
      | some w =>
        rw [hg] at hs
        obtain ⟨l1, l2, e, hset⟩ := Cgrep.get?_split s.ws i w hg
        simp only [hset] at hs
        obtain ⟨pc, sg, pr⟩ := w
        dsimp only at hs
        cases pc with
        | idle =>
          cases hj : s.lines with
          | nil =>
            simp only [hj] at hs
            by_cases hc : s.linesClosed = true
            · simp only [hc, if_true, Option.some.injEq] at hs
              subst hs
              simp only [stepsLeft]
              simp [workerCost, e, hj, hna] <;> omega
            · simp [hc] at hs
          | cons line rest =>
            simp only [hj, Option.some.injEq] at hs
            subst hs
            simp only [stepsLeft]
            simp [workerCost, e, hj, hna] <;> omega
        | holding line =>
          simp only [Option.some.injEq] at hs
          subst hs
          simp only [stepsLeft]
          simp [workerCost, e, hna] <;> omega
        | signalling =>
          by_cases hd : s.done < c.workers
          · simp only [hd, if_true, Option.some.injEq] at hs
            subst hs
            simp only [stepsLeft]
            simp [workerCost, e, hna] <;> omega
          · simp [hd] at hs
        | finished => simp at hs

theorem readLinesLoop_fuel (filename : Str) (fuel1 : Nat) :
    ∀ (fuel2 : Nat) (f : File) (sent : List Str), f.data.length < fuel1 →
      f.data.length < fuel2 →
      readLinesLoop filename fuel1 f sent = readLinesLoop filename fuel2 f sent := by
  induction fuel1 with
  | zero => intro fuel2 f sent h; omega
  | succ fuel1 ih =>
    intro fuel2 f sent h1 h2
    cases fuel2 with
    | zero => omega
    | succ fuel2 =>
      unfold readLinesLoop
      rcases hrs : ReadString f with ⟨line, err, r2⟩
      cases err with
      | some e => rfl
      | none =>
        obtain ⟨hlen, -, -, -⟩ := ReadString_none f r2 line hrs
        dsimp only
        exact ih fuel2 r2 _ (by omega) (by omega)

theorem Hist_init (c : Config) : Hist c init := by
  constructor <;> simp [init, processAll, SafeMap.New]

theorem processAll_append (m : SafeMap) (xs : List Str) (line : Str) :
    processAll m (xs ++ [line]) = processLine (processAll m xs) line := by
  simp [processAll, List.foldl_append]

theorem Hist_stepMain (c : Config) (s s2 : State) (h : Hist c s) (hi : Inv c s)
    (hs : stepMain c s = some s2) : Hist c s2 := by
  unfold stepMain at hs
  obtain ⟨h1, h2, h3, h4, h5, h6, h7⟩ := h
  cases hm : s.main with
  | start =>
    rw [hm] at hs
    simp only [Option.some.injEq] at hs
    subst hs
    have hr := (hi.mainStart hm).2.1
    constructor <;> dsimp only <;> first
      | assumption
      | (simp [hr] at h4 ⊢; done)
      | (simp [hr] at h4 ⊢; assumption)
      | skip
  | spawning k =>
    rw [hm] at hs
    by_cases hk : k < c.workers
    · simp only [hk, if_true, Option.some.injEq] at hs
      subst hs
      constructor <;> dsimp only <;> first
        | assumption
        | (simpa [held] using h1)
        | (simpa [held] using h2)
        | skip
    · simp only [hk, if_false, Option.some.injEq] at hs
      subst hs
      constructor <;> dsimp only <;> assumption
  | waiting i =>
    rw [hm] at hs
    by_cases hi : i < c.workers
    · simp only [hi, if_true] at hs
      by_cases hd : 0 < s.done
      · simp only [hd, if_true, Option.some.injEq] at hs
        subst hs
        constructor <;> dsimp only <;> assumption
      · simp [hd] at hs
    · simp only [hi, if_false, Option.some.injEq] at hs
      subst hs
      constructor <;> dsimp only <;> assumption
  | exited => rw [hm] at hs; simp at hs

theorem Hist_stepReadLines (c : Config) (s s2 : State) (h : Hist c s) (hi : Inv c s)
    (hs : stepReadLines c s = some s2) : Hist c s2 := by
  unfold stepReadLines at hs
  obtain ⟨h1, h2, h3, h4, h5, h6, h7⟩ := h
  have hlc : s.reader ≠ .finished → s.linesClosed = false := by
    intro hne
    cases hj : s.linesClosed with
    | false => rfl
    | true => exact absurd (hi.readerClosed.1 hj) hne
  cases hr : s.reader with
  | notStarted => rw [hr] at hs; simp at hs
  | finished => rw [hr] at hs; simp at hs
  | opening =>
    rw [hr] at hs
    have hp : s.produced = [] := h4 (Or.inr hr)
    cases hf : c.fs c.filename with
    | none =>
      simp only [hf, Option.some.injEq] at hs
      subst hs
      constructor <;> dsimp only <;> first
        | assumption
        | (simp [hp, hf]; done)
    | some file =>
      simp only [hf, Option.some.injEq] at hs
      subst hs
      constructor <;> dsimp only <;> first
        | assumption
        | (simp [hf]; done)
        | skip
      intro f hfe
      simp only [ReaderPc.reading.injEq] at hfe
      subst hfe
      rw [hp]
      unfold sentUnits readLines
      rw [hf]
      dsimp only
      cases readLinesLoop c.filename (file.data.length + 1) file [] with
      | none => rfl
      | some p => rfl
  | closing =>
    rw [hr] at hs
    have h7' := h7 (Or.inl hr)
    have hun : c.fs c.filename ≠ none := by
      intro hf
      rcases h5 hf with hx | hx <;> rw [hr] at hx <;> cases hx
    simp only [hlc (by rw [hr]; simp), Bool.false_eq_true, if_false, Option.some.injEq] at hs
    subst hs
    constructor <;> dsimp only <;> first
      | assumption
      | (simp; done)
      | (intro _; assumption)
      | (intro hf; exact absurd hf hun)
  | reading f =>
    rw [hr] at hs
    dsimp only at hs
    have h6' := h6 f hr
    have hun : c.fs c.filename ≠ none := by
      intro hf
      rcases h5 hf with hx | hx <;> rw [hr] at hx <;> cases hx
    unfold readLinesLoop at h6'
    rcases hrs : ReadString f with ⟨line, err, r2⟩
    rw [hrs] at hs h6'
    dsimp only at hs h6'
    simp only [hlc (by rw [hr]; simp), Bool.false_eq_true, if_false] at hs
    cases err with
    | some e =>
      dsimp only at hs h6'
      have h6'' : sentUnits c = some (if line ≠ [] then s.produced ++ [line] else s.produced) := by
        simpa using h6'.symm
      by_cases hl : line = []
      · simp only [hl, ne_eq, not_true_eq_false, if_false, Option.some.injEq] at hs h6''
        subst hs
        constructor <;> dsimp only <;> first
          | assumption
          | (simp; done)
          | (intro _; assumption)
          | (intro hf; exact absurd hf hun)
      · simp only [hl, ne_eq, not_false_eq_true, if_true] at hs h6''
        by_cases hroom : s.lines.length < c.workers * 4
        · simp only [hroom, if_true, Option.some.injEq] at hs
          subst hs
          constructor <;> dsimp only <;> first
            | assumption
            | (simp; done)
            | (intro _; assumption)
            | (intro hf; exact absurd hf hun)
            | skip
          rw [← List.append_assoc]
          exact List.Perm.append_right _ h1
        · simp [hroom] at hs
    | none =>
      dsimp only at hs h6'
      obtain ⟨hlen, hne, -, -⟩ := ReadString_none f r2 line hrs
      simp only [hne, ne_eq, not_false_eq_true, if_true] at hs h6'
      have hfu := readLinesLoop_fuel c.filename (r2.data.length + 1) f.data.length r2
        (s.produced ++ [line]) (by omega) hlen
      by_cases hroom : s.lines.length < c.workers * 4
      · simp only [hroom, if_true, Option.some.injEq] at hs
        subst hs
        constructor <;> dsimp only <;> first
          | assumption
          | (simp; done)
          | (intro hf; exact absurd hf hun)
          | skip
        · rw [← List.append_assoc]
          exact List.Perm.append_right _ h1
        · intro f2 hx
          simp only [ReaderPc.reading.injEq] at hx
          subst hx
          rw [hfu]; exact h6'
      · simp [hroom] at hs

theorem Hist_stepWorker (c : Config) (i : Nat) (s s2 : State) (h : Hist c s)
    (hs : stepWorker c i s = some s2) : Hist c s2 := by
  unfold stepWorker at hs
  obtain ⟨h1, h2, h3, h4, h5, h6, h7⟩ := h
  cases hg : s.ws.get? i with
  | none => rw [hg] at hs; simp at hs
  | some w =>
    rw [hg] at hs
    obtain ⟨l1, l2, e, hset⟩ := Cgrep.get?_split s.ws i w hg
    simp only [hset] at hs
    clear hset hg
    rw [List.perm_iff_count] at h1 h2
    obtain ⟨pc, sg, pr⟩ := w
    simp only [e, List.map_append, List.map_cons, List.flatten_append, List.flatten_cons,
      List.filterMap_append, List.filterMap_cons, List.count_append, held] at h1 h2
    dsimp only at hs
    cases pc with
    | idle =>
      cases hj : s.lines with
      | nil =>
        simp only [hj] at hs
        by_cases hc : s.linesClosed = true
        · simp only [hc, if_true, Option.some.injEq] at hs
          subst hs
          constructor <;> dsimp only <;> first
            | assumption
            | (rw [List.perm_iff_count]; intro a; have hu := h1 a; have hh := h2 a
               simp only [hj, List.map_append, List.map_cons, List.flatten_append,
                 List.flatten_cons, List.filterMap_append, List.filterMap_cons,
                 List.count_append, List.count_cons, List.count_nil, held] at hu hh ⊢
               omega)
        · simp [hc] at hs
      | cons line rest =>
        simp only [hj, Option.some.injEq] at hs
        subst hs
        constructor <;> dsimp only <;> first
          | assumption
          | (rw [List.perm_iff_count]; intro a; have hu := h1 a; have hh := h2 a
             simp only [hj, List.map_append, List.map_cons, List.flatten_append,
               List.flatten_cons, List.filterMap_append, List.filterMap_cons,
               List.count_append, List.count_cons, List.count_nil, held] at hu hh ⊢
             omega)
    | holding line =>
      simp only [Option.some.injEq] at hs
      subst hs
      constructor <;> dsimp only <;> first
        | assumption
        | (rw [h3, processAll_append]; done)
        | (rw [List.perm_iff_count]; intro a; have hu := h1 a; have hh := h2 a
           simp only [List.map_append, List.map_cons, List.flatten_append,
             List.flatten_cons, List.filterMap_append, List.filterMap_cons,
             List.count_append, List.count_cons, List.count_nil, held] at hu hh ⊢
           omega)
    | signalling =>
      by_cases hd : s.done < c.workers
      · simp only [hd, if_true, Option.some.injEq] at hs
        subst hs
        constructor <;> dsimp only <;> first
          | assumption
          | (rw [List.perm_iff_count]; intro a; have hu := h1 a; have hh := h2 a
             simp only [List.map_append, List.map_cons, List.flatten_append,
               List.flatten_cons, List.filterMap_append, List.filterMap_cons,
               List.count_append, List.count_cons, List.count_nil, held] at hu hh ⊢
             omega)
      · simp [hd] at hs
    | finished => simp at hs

theorem Hist_step (c : Config) (a : Actor) (s s2 : State) (h : Hist c s) (hi : Inv c s)
    (hs : step c a s = some s2) : Hist c s2 := by
  unfold step at hs
  by_cases hend : s.aborted = true ∨ s.panicked = true ∨ s.main = .exited
  · rw [if_pos hend] at hs; cases hs
  · rw [if_neg hend] at hs
    cases a with
    | main => exact Hist_stepMain c s s2 h hi hs
    | readLines => exact Hist_stepReadLines c s s2 h hi hs
    | worker i => exact Hist_stepWorker c i s s2 h hs

theorem Hist_run (c : Config) (sched : List Actor) :
    ∀ s s2 : State, Inv c s → Hist c s → run c sched s = some s2 → Hist c s2 := by
  induction sched with
  | nil => intro s s2 _ h hr; simp only [run, Option.some.injEq] at hr; rw [← hr]; exact h
  | cons a sched ih =>
    intro s s2 hi h hr
    unfold run at hr
    cases hst : step c a s with
    | none => rw [hst] at hr; cases hr
    | some s1 =>
      rw [hst] at hr
      exact ih s1 s2 (Inv_any_step c a s s1 hi hst) (Hist_step c a s s1 h hi hst) hr

theorem can_move (c : Config) (s : State) (hw : 0 < c.workers) (h : Inv c s) :
    Done c s ∨ s.aborted = true ∨ ∃ a, (step c a s).isSome = true := by
  obtain ⟨h1, h2, h3, h4, h5, h6, h7, h8, h9, h10, h11, h12⟩ := h
  cases hna : s.aborted with
  | true => exact Or.inr (Or.inl rfl)
  | false =>
  cases hm : s.main with
  | start => exact Or.inr (Or.inr ⟨.main, by simp [step, hna, h1, hm, stepMain]⟩)
  | spawning k =>
    refine Or.inr (Or.inr ⟨.main, ?_⟩)
    by_cases hk : k < c.workers <;> simp [step, hna, h1, hm, stepMain, hk]
  | exited =>
    left
    obtain ⟨hlen, hrd, hd0, hshown, hall⟩ := h6 hm
    refine ⟨hm, ?_, hlen, hall, hshown, hna, h1⟩
    cases hws : s.ws with
    | nil => rw [hws] at hlen; simp at hlen; omega
    | cons w rest =>
      have hmem : w ∈ s.ws := by rw [hws]; exact List.mem_cons_self _ _
      exact h11.1 (h12 w hmem (Or.inr (hall w hmem))).1
  | waiting i =>
    right; right
    obtain ⟨hlen, hile, hrd⟩ := h5 i hm
    have hrec : s.received = i := by rw [h7, hm]; rfl
    by_cases hi : i < c.workers
    · by_cases hd : 0 < s.done
      · exact ⟨.main, by simp [step, hna, h1, hm, stepMain, hi, hd]⟩
      · have hnot : ¬ ∀ w ∈ s.ws, w.pc = .finished := by
          intro hall
          have := signals_sum_finished s.ws h9 hall
          omega
        push_neg at hnot
        obtain ⟨w, hmem, hpc⟩ := hnot
        obtain ⟨j, hj⟩ := List.mem_iff_get?.1 hmem
        rw [List.get?_eq_getElem?] at hj
        obtain ⟨pc, sg, pr⟩ := w
        dsimp only at hpc
        cases pc with
        | finished => exact absurd rfl hpc
        | signalling =>
          have : s.done < c.workers := by omega
          exact ⟨.worker j, by simp [step, hna, h1, hm, stepWorker, hj, this]⟩
        | holding line => exact ⟨.worker j, by simp [step, hna, h1, hm, stepWorker, hj]⟩
        | idle =>
          cases hl : s.lines with
          | cons line rest =>
            exact ⟨.worker j, by simp [step, hna, h1, hm, stepWorker, hj, hl]⟩
          | nil =>
            by_cases hlc : s.linesClosed = true
            · exact ⟨.worker j, by simp [step, hna, h1, hm, stepWorker, hj, hl, hlc]⟩
            · have hlc2 : s.linesClosed = false := by simpa using hlc
              refine ⟨.readLines, ?_⟩
              cases hr : s.reader with
              | notStarted => exact absurd hr hrd
              | finished => exact absurd (h11.2 hr) hlc
              | opening =>
                cases hf : c.fs c.filename <;> simp [step, hna, h1, hm, stepReadLines, hr, hf]
              | closing => simp [step, hna, h1, hm, stepReadLines, hr, hlc2]
              | reading f =>
                rcases hrs : ReadString f with ⟨line, err, r2⟩
                by_cases hline : line = []
                · simp [step, hna, h1, hm, stepReadLines, hr, hrs, hline]
                · simp [step, hna, h1, hm, stepReadLines, hr, hrs, hline, hlc2, hl, hw]
    · exact ⟨.main, by simp [step, hna, h1, hm, stepMain, hi]⟩

theorem stepsLeft_bounds_run (c : Config) (sched : List Actor) :
    ∀ s s2 : State, Inv c s → run c sched s = some s2 →
      sched.length + stepsLeft c s2 ≤ stepsLeft c s := by
  induction sched with
  | nil =>
    intro s s2 _ hr
    simp only [run, Option.some.injEq] at hr
    rw [← hr]; simp
  | cons a sched ih =>
    intro s s2 h hr
    unfold run at hr
    cases hst : step c a s with
    | none => rw [hst] at hr; cases hr
    | some s1 =>
      rw [hst] at hr
      have h1 := stepsLeft_decreases c a s s1 h hst
      have h2 := ih s1 s2 (Inv_any_step c a s s1 h hst) hr
      simp only [List.length_cons]
      omega

theorem run_concat (c : Config) (sched1 sched2 : List Actor) :
    ∀ s s1 : State, run c sched1 s = some s1 →
      run c (sched1 ++ sched2) s = run c sched2 s1 := by
  induction sched1 with
  | nil => intro s s1 h; simp only [run, Option.some.injEq] at h; rw [h]; rfl
  | cons a sched1 ih =>
    intro s s1 h
    cases hst : step c a s with
    | none => simp [run, hst] at h
    | some s' =>
      simp only [run, hst] at h
      simp only [List.cons_append, run, hst]
      exact ih s' s1 h

theorem Done_reachable (c : Config) (file : File) (hopen : c.fs c.filename = some file)
    (hw : 0 < c.workers) (n : Nat) :
    ∀ s : State, Inv c s → stepsLeft c s ≤ n →
      ∃ sched s2, run c sched s = some s2 ∧ Done c s2 := by
  induction n with
  | zero =>
    intro s h hn
    rcases can_move c s hw h with hd | hab | ⟨a, ha⟩
    · exact ⟨[], s, rfl, hd⟩
    · have := h.abortedOpen hab; rw [hopen] at this; cases this
    · obtain ⟨s1, hs1⟩ := Option.isSome_iff_exists.1 ha
      have := stepsLeft_decreases c a s s1 h hs1
      omega
  | succ n ih =>
    intro s h hn
    rcases can_move c s hw h with hd | hab | ⟨a, ha⟩
    · exact ⟨[], s, rfl, hd⟩
    · have := h.abortedOpen hab; rw [hopen] at this; cases this
    · obtain ⟨s1, hs1⟩ := Option.isSome_iff_exists.1 ha
      have hlt := stepsLeft_decreases c a s s1 h hs1
      obtain ⟨sched, s2, hr, hd⟩ := ih s1 (Inv_any_step c a s s1 h hs1) (by omega)
      exact ⟨a :: sched, s2, by simp [run, hs1, hr], hd⟩

end Apache

/-! ### The pipelines as a whole -/

/-- C9. Termination without deadlock: when the pattern compiles (cgrep) and
the input file opens (apachereport), with at least one worker, every run of
the goroutines, whatever the schedule, has at most `stepsLeft` steps, never
aborts or panics, is in the Done state or has a goroutine that can move, and
can be continued to the Done state. So every run ends, and ends in Done. -/
theorem pipelines_terminate (cg : Cgrep.Config) (rx : Str → Bool)
    (hrx : cg.lineRx = some rx) (hcw : 0 < cg.workers)
    (ap : Apache.Config) (file : File) (hopen : ap.fs ap.filename = some file)
    (haw : 0 < ap.workers) :
    (∀ sched s, Cgrep.run cg sched Cgrep.init = some s →
      sched.length ≤ Cgrep.stepsLeft cg Cgrep.init ∧
      s.aborted = false ∧ s.panicked = false ∧
      (Cgrep.Done cg s ∨ ∃ a, (Cgrep.step cg a s).isSome = true) ∧
      ∃ rest s2, Cgrep.run cg (sched ++ rest) Cgrep.init = some s2 ∧ Cgrep.Done cg s2) ∧
    (∀ sched s, Apache.run ap sched Apache.init = some s →
      sched.length ≤ Apache.stepsLeft ap Apache.init ∧
      s.aborted = false ∧ s.panicked = false ∧
      (Apache.Done ap s ∨ ∃ a, (Apache.step ap a s).isSome = true) ∧
      ∃ rest s2, Apache.run ap (sched ++ rest) Apache.init = some s2 ∧ Apache.Done ap s2) := by
  constructor
  · intro sched s hr
    have hi := Cgrep.Inv_run cg sched _ _ (Cgrep.Inv_init cg) hr
    have hlen := Cgrep.stepsLeft_run cg sched _ _ (Cgrep.Inv_init cg) hr
    have hna : s.aborted = false := by
      cases hab : s.aborted with
      | false => rfl
      | true => have := (hi.abortedStart hab).1; rw [hrx] at this; cases this
    refine ⟨by omega, hna, hi.notPanicked, Cgrep.progress cg s rx hrx hcw hi, ?_⟩
    obtain ⟨rest, s2, hr2, hd⟩ := Cgrep.reaches_Done cg rx hrx hcw _ s hi (Nat.le_refl _)
    exact ⟨rest, s2, by rw [Cgrep.run_append cg sched rest _ s hr]; exact hr2, hd⟩
  · intro sched s hr
    have hi := Apache.Inv_reachable ap sched _ _ (Apache.Inv_at_init ap) hr
    have hlen := Apache.stepsLeft_bounds_run ap sched _ _ (Apache.Inv_at_init ap) hr
    have hna : s.aborted = false := by
      cases hab : s.aborted with
      | false => rfl
      | true => have := hi.abortedOpen hab; rw [hopen] at this; cases this
    refine ⟨by omega, hna, hi.notPanicked, ?_, ?_⟩
    · rcases Apache.can_move ap s haw hi with hd | hab | he
      · exact Or.inl hd
      · rw [hna] at hab; cases hab
      · exact Or.inr he
    · obtain ⟨rest, s2, hr2, hd⟩ := Apache.Done_reachable ap file hopen haw _ s hi (Nat.le_refl _)
      exact ⟨rest, s2, by rw [Apache.run_concat ap sched rest _ s hr]; exact hr2, hd⟩

/-- C9 at the two example runs, after the first two steps of `main`. -/
theorem pipelines_terminate_witness :
    (Cgrep.run cgrepExample [.main, .main] Cgrep.init = some cgrepStarted ∧
      cgrepStarted.panicked = false ∧
      ∃ rest s2, Cgrep.run cgrepExample ([.main, .main] ++ rest) Cgrep.init = some s2 ∧
        Cgrep.Done cgrepExample s2) ∧
    (Apache.run apacheExample [.main, .main] Apache.init = some apacheStarted ∧
      apacheStarted.panicked = false ∧
      ∃ rest s2, Apache.run apacheExample ([.main, .main] ++ rest) Apache.init = some s2 ∧
        Apache.Done apacheExample s2) :=
  have h := pipelines_terminate cgrepExample (fun l => l = "foo".toList) rfl (by decide)
    apacheExample ⟨"GET /a.html\nGET /a.html".toList, false⟩ rfl (by decide)
  have e1 : Cgrep.run cgrepExample [.main, .main] Cgrep.init = some cgrepStarted := by decide
  have e2 : Apache.run apacheExample [.main, .main] Apache.init = some apacheStarted := by
    decide
  ⟨⟨e1, (h.1 _ _ e1).2.2.1, (h.1 _ _ e1).2.2.2.2⟩,
   ⟨e2, (h.2 _ _ e2).2.2.1, (h.2 _ _ e2).2.2.2.2⟩⟩

theorem Cgrep.closed_facts (c : Cgrep.Config) (s : Cgrep.State) (h : Cgrep.Inv c s) :
    s.received ≤ c.workers ∧ s.closes ≤ 1 ∧ (s.resultsClosed = false → s.closes = 0) ∧
    (s.resultsClosed = true → s.received = c.workers ∧ s.closes = 1 ∧
      s.ws.length = c.workers ∧ ∀ w ∈ s.ws, w.pc = .finished) := by
  have hlate : s.awaiter ≠ .notStarted → s.ws.length = c.workers := by
    intro hne
    cases hm : s.main with
    | start => exact absurd (h.mainStart hm).2.2.1 hne
    | spawning k => exact absurd (h.mainSpawning k hm).2.2.1 hne
    | draining => exact (h.mainLate (Or.inl hm)).1
    | exited => exact (h.mainLate (Or.inr hm)).1
  cases ha : s.awaiter with
  | notStarted =>
    obtain ⟨a1, a2, a3⟩ := h.awaitNotStarted ha
    refine ⟨by omega, by omega, fun _ => a3, fun hc => ?_⟩
    rw [a2] at hc; cases hc
  | waiting i =>
    obtain ⟨a1, a2, a3, a4⟩ := h.awaitWaiting i ha
    refine ⟨by omega, by omega, fun _ => a4, fun hc => ?_⟩
    rw [a3] at hc; cases hc
  | finished =>
    obtain ⟨a1, a2, a3, a4, a5⟩ := h.awaitFinished ha
    refine ⟨by omega, by omega, fun hc => ?_, fun _ => ⟨a1, a3, hlate (by rw [ha]; simp), a5⟩⟩
    rw [a2] at hc; cases hc

/-- C7. Completion tracking, in every state a run of cgrep or of apachereport
reaches: a worker has sent at most one done signal, and has sent it only after
it found its work channel closed and empty and left its loop; the signals sent
are those still in `done` and those received; `results` is closed at most once
and only with exactly `workers` signals received and every worker returned, so
that no worker can move and send a Result after the close; `showResults` gets
the map only with `workers` signals received and every worker returned; the
program has not panicked (a send on a closed channel would panic). -/
theorem completion_tracking (cg : Cgrep.Config) (sched1 : List Cgrep.Actor) (s1 : Cgrep.State)
    (h1 : Cgrep.run cg sched1 Cgrep.init = some s1)
    (ap : Apache.Config) (sched2 : List Apache.Actor) (s2 : Apache.State)
    (h2 : Apache.run ap sched2 Apache.init = some s2) :
    ((∀ w ∈ s1.ws, w.signals ≤ 1 ∧ (w.signals = 1 ↔ w.pc = .finished) ∧
        (w.pc = .signalling ∨ w.pc = .finished → s1.jobsClosed = true ∧ s1.jobs = [])) ∧
      s1.done + s1.received = (s1.ws.map (fun w => w.signals)).sum ∧
      s1.received ≤ cg.workers ∧ s1.closes ≤ 1 ∧
      (s1.resultsClosed = false → s1.closes = 0) ∧
      (s1.resultsClosed = true → s1.received = cg.workers ∧ s1.closes = 1 ∧
        s1.ws.length = cg.workers ∧ (∀ w ∈ s1.ws, w.pc = .finished) ∧
        ∀ i, Cgrep.stepDoJobs cg i s1 = none) ∧
      s1.panicked = false) ∧
    ((∀ w ∈ s2.ws, w.signals ≤ 1 ∧ (w.signals = 1 ↔ w.pc = .finished) ∧
        (w.pc = .signalling ∨ w.pc = .finished → s2.linesClosed = true ∧ s2.lines = [])) ∧
      s2.done + s2.received = (s2.ws.map (fun w => w.signals)).sum ∧
      s2.received ≤ ap.workers ∧
      (∀ m, s2.shown = some m → s2.received = ap.workers ∧ s2.ws.length = ap.workers ∧
        (∀ w ∈ s2.ws, w.pc = .finished) ∧ m = SafeMap.Close s2.pageMap) ∧
      s2.panicked = false) := by
  have hi1 := Cgrep.Inv_run cg sched1 _ _ (Cgrep.Inv_init cg) h1
  have hi2 := Apache.Inv_reachable ap sched2 _ _ (Apache.Inv_at_init ap) h2
  obtain ⟨c1, c2, c3, c4⟩ := Cgrep.closed_facts cg s1 hi1
  refine ⟨⟨?_, hi1.doneCount, c1, c2, c3, ?_, hi1.notPanicked⟩,
    ⟨?_, hi2.doneCount, ?_, ?_, hi2.notPanicked⟩⟩
  · intro w hw
    have hs := hi1.signals w hw
    refine ⟨?_, ?_, hi1.workerLeft w hw⟩
    · by_cases hf : w.pc = .finished <;> simp [hf] at hs <;> omega
    · by_cases hf : w.pc = .finished <;> simp [hf] at hs <;> simp [hf, hs]
  · intro hc
    obtain ⟨d1, d2, d3, d4⟩ := c4 hc
    refine ⟨d1, d2, d3, d4, fun i => ?_⟩
    unfold Cgrep.stepDoJobs
    cases hg : s1.ws.get? i with
    | none => rfl
    | some w =>
      have hmem : w ∈ s1.ws := List.mem_iff_get?.2 ⟨i, hg⟩
      have := d4 w hmem
      obtain ⟨pc, sg, pr⟩ := w
      dsimp only at this
      subst this
      rfl
  · intro w hw
    have hs := hi2.signals w hw
    refine ⟨?_, ?_, hi2.workerLeft w hw⟩
    · by_cases hf : w.pc = .finished <;> simp [hf] at hs <;> omega
    · by_cases hf : w.pc = .finished <;> simp [hf] at hs <;> simp [hf, hs]
  · rw [hi2.received]
    cases hm : s2.main with
    | start => simp [Apache.mainReceived]
    | spawning k => simp [Apache.mainReceived]
    | waiting i => exact (hi2.mainWaiting i hm).2.1
    | exited => simp [Apache.mainReceived]
  · intro m hm
    have hex : s2.main = .exited := by
      by_contra hne
      rw [hi2.shownNone hne] at hm; cases hm
    obtain ⟨e1, e2, e3, e4, e5⟩ := hi2.mainExited hex
    refine ⟨by rw [hi2.received, hex]; rfl, e1, e5, ?_⟩
    rw [e4] at hm
    simp only [Option.some.injEq] at hm
    rw [← hm]; rfl

/-- C8. No lost or duplicated units: when a run of cgrep, or of apachereport,
with at least one worker is in the Done state, the units the workers have
received, all workers together, are a permutation of the units of the source:
of the file names given to `addJobs`, and of the lines `readLines` sends, which
for apachereport are also the lines whose loop body has run. So every unit was
received by one worker, once. -/
theorem units_processed_once (cg : Cgrep.Config) (sched1 : List Cgrep.Actor)
    (s1 : Cgrep.State) (hcw : 0 < cg.workers)
    (h1 : Cgrep.run cg sched1 Cgrep.init = some s1) (hd1 : Cgrep.Done cg s1)
    (ap : Apache.Config) (sched2 : List Apache.Actor) (s2 : Apache.State)
    (haw : 0 < ap.workers)
    (h2 : Apache.run ap sched2 Apache.init = some s2) (hd2 : Apache.Done ap s2) :
    ((s1.ws.map (fun w => w.processed)).flatten.Perm cg.filenames ∧ s1.jobs = []) ∧
    (Apache.sentUnits ap = some s2.produced ∧
      (s2.ws.map (fun w => w.processed)).flatten.Perm s2.produced ∧
      s2.updated.Perm s2.produced ∧ s2.lines = []) := by
  have hi1 := Cgrep.Inv_run cg sched1 _ _ (Cgrep.Inv_init cg) h1
  have hi2 := Apache.Inv_reachable ap sched2 _ _ (Apache.Inv_at_init ap) h2
  have hh2 := Apache.Hist_run ap sched2 _ _ (Apache.Inv_at_init ap) (Apache.Hist_init ap) h2
  obtain ⟨m1, a1, l1, f1, -, -, -⟩ := hd1
  obtain ⟨m2, r2, l2, f2, -, -, -⟩ := hd2
  constructor
  · have hj : s1.jobs = [] := by
      cases hws : s1.ws with
      | nil => rw [hws] at l1; simp at l1; omega
      | cons w rest =>
        have hmem : w ∈ s1.ws := by rw [hws]; exact List.mem_cons_self _ _
        exact (hi1.workerLeft w hmem (Or.inr (f1 w hmem))).2
    have hu := hi1.units
    rw [hj, a1] at hu
    simp only [Cgrep.todo, List.append_nil] at hu
    exact ⟨hu, hj⟩
  · have hl : s2.lines = [] := by
      cases hws : s2.ws with
      | nil => rw [hws] at l2; simp at l2; omega
      | cons w rest =>
        have hmem : w ∈ s2.ws := by rw [hws]; exact List.mem_cons_self _ _
        exact (hi2.workerLeft w hmem (Or.inr (f2 w hmem))).2
    have hu := hh2.units
    rw [hl, List.append_nil] at hu
    have hheld : s2.ws.filterMap Apache.held = [] := by
      rw [List.filterMap_eq_nil_iff]
      intro w hw
      have := f2 w hw
      unfold Apache.held
      rw [this]
    have hh := hh2.heldUnits
    rw [hheld, List.append_nil] at hh
    exact ⟨hh2.closed (Or.inr r2), hu, hh.trans hu, hl⟩

theorem Cgrep.run_invalid_pattern (c : Cgrep.Config) (hrx : c.lineRx = none)
    (sched : List Cgrep.Actor) (s : Cgrep.State) (hr : Cgrep.run c sched Cgrep.init = some s) :
    (sched = [] ∧ s = Cgrep.init) ∨ (sched = [.main] ∧ s = Cgrep.abortedInit) := by
  cases sched with
  | nil =>
    simp only [Cgrep.run, Option.some.injEq] at hr
    exact Or.inl ⟨rfl, hr.symm⟩
  | cons a rest =>
    right
    unfold Cgrep.run at hr
    cases a with
    | addJobs => simp [Cgrep.step, Cgrep.init, Cgrep.stepAddJobs] at hr
    | doJobs i => simp [Cgrep.step, Cgrep.init, Cgrep.stepDoJobs] at hr
    | awaitCompletion => simp [Cgrep.step, Cgrep.init, Cgrep.stepAwait] at hr
    | main =>
      have hst : Cgrep.step c .main Cgrep.init = some Cgrep.abortedInit := by
        simp [Cgrep.step, Cgrep.init, Cgrep.stepMain, hrx, Cgrep.abortedInit]
      rw [hst] at hr
      dsimp only at hr
      cases rest with
      | nil =>
        simp only [Cgrep.run, Option.some.injEq] at hr
        exact ⟨rfl, hr.symm⟩
      | cons b rest2 =>
        unfold Cgrep.run at hr
        simp [Cgrep.step, Cgrep.abortedInit] at hr

theorem Apache.unopened_facts (c : Apache.Config) (hopen : c.fs c.filename = none)
    (hw : 0 < c.workers) (s : Apache.State) (hi : Apache.Inv c s) (hh : Apache.Hist c s) :
    s.produced = [] ∧ s.lines = [] ∧ (∀ w ∈ s.ws, w.processed = []) ∧ s.updated = [] ∧
    s.pageMap = SafeMap.New ∧ s.shown = none ∧ s.main ≠ .exited := by
  have hearly := hh.unopened hopen
  have hp := hh.early hearly
  have hu := hh.units
  rw [hp] at hu
  have hnil := List.Perm.eq_nil hu
  obtain ⟨hfl, hl⟩ := List.append_eq_nil.1 hnil
  have hhe := hh.heldUnits
  rw [hfl] at hhe
  have hup := (List.append_eq_nil.1 (List.Perm.eq_nil hhe)).1
  have hne : s.main ≠ .exited := by
    intro hm
    obtain ⟨e1, -, -, -, e5⟩ := hi.mainExited hm
    cases hws : s.ws with
    | nil => rw [hws] at e1; simp at e1; omega
    | cons w rest =>
      have hmem : w ∈ s.ws := by rw [hws]; exact List.mem_cons_self _ _
      have hfin := hi.readerClosed.1 (hi.workerLeft w hmem (Or.inr (e5 w hmem))).1
      rcases hearly with hx | hx <;> rw [hfin] at hx <;> cases hx
  refine ⟨hp, hl, ?_, hup, ?_, hi.shownNone hne, hne⟩
  · intro w hw
    have := List.flatten_eq_nil_iff.1 hfl w.processed (List.mem_map.2 ⟨w, hw, rfl⟩)
    exact this
  · rw [hh.pageMap, hup]; rfl

/-- C6, as amended. Fatal setup errors. cgrep: when the pattern does not
compile, the only step there is is `log.Fatalf` in `main`, before any goroutine
or worker is started. apachereport: when the input file cannot be opened, in
every state of every run no line has been sent, received or worked on, the page
map is empty and nothing is shown; the run has at most `stepsLeft` steps and,
until it has aborted, some goroutine can move: it ends in `log.Fatal`. -/
theorem fatal_setup_errors (cg : Cgrep.Config) (hrx : cg.lineRx = none)
    (ap : Apache.Config) (hopen : ap.fs ap.filename = none) (haw : 0 < ap.workers) :
    (∀ sched s, Cgrep.run cg sched Cgrep.init = some s →
      (sched = [] ∧ s = Cgrep.init) ∨ (sched = [.main] ∧ s = Cgrep.abortedInit)) ∧
    (∀ sched s, Apache.run ap sched Apache.init = some s →
      s.produced = [] ∧ s.lines = [] ∧ (∀ w ∈ s.ws, w.processed = []) ∧ s.updated = [] ∧
      s.pageMap = SafeMap.New ∧ s.shown = none ∧
      sched.length ≤ Apache.stepsLeft ap Apache.init ∧
      (s.aborted = true ∨ ∃ a, (Apache.step ap a s).isSome = true)) := by
  refine ⟨Cgrep.run_invalid_pattern cg hrx, fun sched s hr => ?_⟩
  have hi := Apache.Inv_reachable ap sched _ _ (Apache.Inv_at_init ap) hr
  have hh := Apache.Hist_run ap sched _ _ (Apache.Inv_at_init ap) (Apache.Hist_init ap) hr
  have hlen := Apache.stepsLeft_bounds_run ap sched _ _ (Apache.Inv_at_init ap) hr
  obtain ⟨f1, f2, f3, f4, f5, f6, f7⟩ := Apache.unopened_facts ap hopen haw s hi hh
  refine ⟨f1, f2, f3, f4, f5, f6, by omega, ?_⟩
  rcases Apache.can_move ap s haw hi with hd | hab | he
  · exact absurd hd.1 f7
  · exact Or.inl hab
  · exact Or.inr he

/-- C6 as stated fails: in this run of apachereport the input file cannot be
opened and the program aborts after a worker has been started. -/
theorem abort_after_worker_started :
    apacheNoFile.fs apacheNoFile.filename = none ∧
    ∃ sched s, Apache.run apacheNoFile sched Apache.init = some s ∧
      s.aborted = true ∧ s.ws = [⟨.idle, 0, []⟩] :=
  ⟨rfl, [.main, .main, .readLines], apacheAborted, by decide, rfl, rfl⟩

/-- C6, as amended, at `cgrepNoPattern` and `apacheNoFile`. -/
theorem fatal_setup_errors_witness :
    Cgrep.run cgrepNoPattern [.main] Cgrep.init = some Cgrep.abortedInit ∧
    Apache.run apacheNoFile [.main, .main, .readLines] Apache.init = some apacheAborted ∧
    ((∀ w ∈ apacheAborted.ws, w.processed = []) ∧ apacheAborted.pageMap = SafeMap.New ∧
      apacheAborted.shown = none) :=
  have h := fatal_setup_errors cgrepNoPattern rfl apacheNoFile rfl (by decide)
  have e : Apache.run apacheNoFile [.main, .main, .readLines] Apache.init
      = some apacheAborted := by decide
  ⟨by decide, e, (h.2 _ _ e).2.2.1, (h.2 _ _ e).2.2.2.2.1, (h.2 _ _ e).2.2.2.2.2.1⟩

/-- C7 at the Done states of the two example runs. -/
theorem completion_tracking_witness :
    Cgrep.run cgrepExample cgrepSchedule Cgrep.init = some cgrepDone ∧
    Apache.run apacheExample apacheSchedule Apache.init = some apacheDone ∧
    (cgrepDone.resultsClosed = true → cgrepDone.received = cgrepExample.workers ∧
      cgrepDone.closes = 1 ∧ cgrepDone.ws.length = cgrepExample.workers ∧
      (∀ w ∈ cgrepDone.ws, w.pc = .finished) ∧
      ∀ i, Cgrep.stepDoJobs cgrepExample i cgrepDone = none) ∧
    apacheDone.panicked = false :=
  have e1 : Cgrep.run cgrepExample cgrepSchedule Cgrep.init = some cgrepDone := by decide
  have e2 : Apache.run apacheExample apacheSchedule Apache.init = some apacheDone := by decide
  have h := completion_tracking cgrepExample cgrepSchedule cgrepDone e1
    apacheExample apacheSchedule apacheDone e2
  ⟨e1, e2, h.1.2.2.2.2.2.1, h.2.2.2.2.2⟩

/-- C8 at the Done states of the two example runs. -/
theorem units_processed_once_witness :
    Cgrep.run cgrepExample cgrepSchedule Cgrep.init = some cgrepDone ∧
    Cgrep.Done cgrepExample cgrepDone ∧
    Apache.run apacheExample apacheSchedule Apache.init = some apacheDone ∧
    Apache.Done apacheExample apacheDone ∧
    ((cgrepDone.ws.map (fun w => w.processed)).flatten.Perm cgrepExample.filenames ∧
      cgrepDone.jobs = []) ∧
    (Apache.sentUnits apacheExample = some apacheDone.produced ∧
      (apacheDone.ws.map (fun w => w.processed)).flatten.Perm apacheDone.produced ∧
      apacheDone.updated.Perm apacheDone.produced ∧ apacheDone.lines = []) :=
  have e1 : Cgrep.run cgrepExample cgrepSchedule Cgrep.init = some cgrepDone := by decide
  have d1 : Cgrep.Done cgrepExample cgrepDone := by
    unfold Cgrep.Done; decide
  have e2 : Apache.run apacheExample apacheSchedule Apache.init = some apacheDone := by decide
  have d2 : Apache.Done apacheExample apacheDone := by
    unfold Apache.Done; decide
  have h := units_processed_once cgrepExample cgrepSchedule cgrepDone (by decide) e1 d1
    apacheExample apacheSchedule apacheDone (by decide) e2 d2
  ⟨e1, d1, e2, d2, h.1, h.2⟩

/-! ### cgrep: files that cannot be opened -/

theorem Job_Do_log (fs : FileSystem) (lineRx : Str → Bool) (filename : Str)
    (file : File) (hopen : fs filename = some file) (rs : List Result) (ds : List Diag)
    (h : Job.Do fs lineRx filename = some (rs, ds)) :
    ds.filter Diag.isOpenFailed = [] := by
  unfold Job.Do at h
  rw [hopen] at h
  dsimp only at h
  have := doLoop_log lineRx filename _ _ _ _ _ _ h
  rw [List.filter_eq_nil_iff]
  intro d hd
  have hne := this d hd
  cases d <;> simp [Diag.isOpenFailed] at hne ⊢

theorem doJobs_skips_unopenable (fs : FileSystem) (lineRx : Str → Bool)
    (filenames : List Str) :
    (∀ filename, fs filename = none →
      Job.Do fs lineRx filename = some ([], [Diag.openFailed filename]) ∧
      ∀ jobs, doJobs fs lineRx (filename :: jobs)
        = (doJobs fs lineRx jobs).map (fun p => (p.1, Diag.openFailed filename :: p.2))) ∧
    ∃ rs ds ds2, doJobs fs lineRx filenames = some (rs, ds) ∧
      doJobs fs lineRx (filenames.filter (fun f => (fs f).isSome)) = some (rs, ds2) ∧
      ds.filter Diag.isOpenFailed
        = (filenames.filter (fun f => (fs f).isNone)).map Diag.openFailed ∧
      ds2.filter Diag.isOpenFailed = [] := by
  have hdo : ∀ filename, fs filename = none →
      Job.Do fs lineRx filename = some ([], [Diag.openFailed filename]) := by
    intro filename hf
    simp [Job.Do, hf]
  refine ⟨fun filename hf => ⟨hdo filename hf, fun jobs => ?_⟩, ?_⟩
  · cases hj : doJobs fs lineRx jobs with
    | none => simp [doJobs, hdo filename hf, hj]
    | some p => simp [doJobs, hdo filename hf, hj]
  · induction filenames with
    | nil => exact ⟨[], [], [], rfl, rfl, rfl, rfl⟩
    | cons fn rest ih =>
      obtain ⟨rs, ds, ds2, h1, h2, h3, h4⟩ := ih
      cases hf : fs fn with
      | none =>
        refine ⟨rs, Diag.openFailed fn :: ds, ds2, ?_, ?_, ?_, h4⟩
        · simp [doJobs, hdo fn hf, h1]
        · simpa [List.filter_cons, hf] using h2
        · simp [List.filter_cons, hf, Diag.isOpenFailed, h3]
      | some file =>
        obtain ⟨r0, d0, hd⟩ := Job_Do_isSome fs lineRx fn
        have hlog := Job_Do_log fs lineRx fn file hf r0 d0 hd
        refine ⟨r0 ++ rs, d0 ++ ds, d0 ++ ds2, ?_, ?_, ?_, ?_⟩
        · simp [doJobs, hd, h1]
        · simp [List.filter_cons, hf, doJobs, hd, h2]
        · simp [List.filter_cons, hf, List.filter_append, hlog, h3]
        · simp [List.filter_append, hlog, h4]

/-- C5. Unit-local failure: a job whose file cannot be opened sends no Result
and logs one diagnostic, and `doJobs` goes on to the remaining jobs; so the
Results of the whole list are those of the files that can be opened, with one
open failure logged for each file that cannot; and in the Done state of every
run of the goroutines these are, in some order, the Results printed and the
lines logged. -/
theorem unopenable_files_send_nothing (c : Cgrep.Config) (lineRx : Str → Bool)
    (hrx : c.lineRx = some lineRx) (hw : 0 < c.workers)
    (sched : List Cgrep.Actor) (s : Cgrep.State)
    (hr : Cgrep.run c sched Cgrep.init = some s) (hd : Cgrep.Done c s) :
    (∀ filename, c.fs filename = none →
      Job.Do c.fs lineRx filename = some ([], [Diag.openFailed filename]) ∧
      ∀ jobs, doJobs c.fs lineRx (filename :: jobs)
        = (doJobs c.fs lineRx jobs).map (fun p => (p.1, Diag.openFailed filename :: p.2))) ∧
    ∃ rs ds ds2, doJobs c.fs lineRx c.filenames = some (rs, ds) ∧
      doJobs c.fs lineRx (c.filenames.filter (fun f => (c.fs f).isSome)) = some (rs, ds2) ∧
      ds.filter Diag.isOpenFailed
        = (c.filenames.filter (fun f => (c.fs f).isNone)).map Diag.openFailed ∧
      ds2.filter Diag.isOpenFailed = [] ∧
      s.printed.Perm rs ∧ s.log.Perm ds := by
  have hi := Cgrep.Inv_run c sched _ _ (Cgrep.Inv_init c) hr
  have hh := Cgrep.Sent_run c sched _ _ (Cgrep.Inv_init c) (Cgrep.Sent_init c) hr
  obtain ⟨p1, p2⟩ := Cgrep.Done_printed c hw s hi hh hd
  obtain ⟨g1, rs, ds, ds2, g2, g3, g4, g5⟩ :=
    doJobs_skips_unopenable c.fs lineRx c.filenames
  refine ⟨g1, rs, ds, ds2, g2, g3, g4, g5, ?_, ?_⟩
  · rw [Cgrep.doJobs_eq c lineRx hrx] at g2
    simp only [Option.some.injEq, Prod.mk.injEq] at g2
    rw [← g2.1]; exact p1
  · rw [Cgrep.doJobs_eq c lineRx hrx] at g2
    simp only [Option.some.injEq, Prod.mk.injEq] at g2
    rw [← g2.2]; exact p2

/-- C5 at `cgrepMixed`: the file `b` cannot be opened, the file `a` can. -/
theorem unopenable_files_send_nothing_witness :
    Cgrep.run cgrepMixed cgrepMixedSchedule Cgrep.init = some cgrepMixedDone ∧
    Cgrep.Done cgrepMixed cgrepMixedDone ∧
    doJobs cgrepMixed.fs (fun l => l = "foo".toList) cgrepMixed.filenames
      = some ([⟨"a".toList, 1, "foo".toList⟩], [Diag.openFailed "b".toList]) ∧
    ∃ rs ds ds2, doJobs cgrepMixed.fs (fun l => l = "foo".toList) cgrepMixed.filenames
        = some (rs, ds) ∧
      doJobs cgrepMixed.fs (fun l => l = "foo".toList)
        (cgrepMixed.filenames.filter (fun f => (cgrepMixed.fs f).isSome)) = some (rs, ds2) ∧
      ds.filter Diag.isOpenFailed
        = (cgrepMixed.filenames.filter (fun f => (cgrepMixed.fs f).isNone)).map
            Diag.openFailed ∧
      ds2.filter Diag.isOpenFailed = [] ∧
      cgrepMixedDone.printed.Perm rs ∧ cgrepMixedDone.log.Perm ds :=
  have e : Cgrep.run cgrepMixed cgrepMixedSchedule Cgrep.init = some cgrepMixedDone := by
    decide
  have d : Cgrep.Done cgrepMixed cgrepMixedDone := by
    unfold Cgrep.Done; decide
  ⟨e, d, by decide,
    (unopenable_files_send_nothing cgrepMixed (fun l => l = "foo".toList) rfl (by decide)
      cgrepMixedSchedule cgrepMixedDone e d).2⟩

/-! ### americanise: the substitution -/

theorem isLetter_iff (c : Char) :
    isLetter c = true ↔ (65 ≤ c.toNat ∧ c.toNat ≤ 90) ∨ (97 ≤ c.toNat ∧ c.toNat ≤ 122) := by
  unfold isLetter
  simp only [Bool.or_eq_true, Bool.and_eq_true, decide_eq_true_eq, Char.le_def, UInt32.le_def,
    Fin.le_def, Char.toNat, UInt32.toNat]
  rfl

theorem asciiLetters_iff (c : Char) :
    c ∈ asciiLetters ↔ (65 ≤ c.toNat ∧ c.toNat ≤ 90) ∨ (97 ≤ c.toNat ∧ c.toNat ≤ 122) := by
  constructor
  · have h : ∀ d ∈ asciiLetters,
        (65 ≤ d.toNat ∧ d.toNat ≤ 90) ∨ (97 ≤ d.toNat ∧ d.toNat ≤ 122) := by decide
    exact h c
  · intro h
    rw [← Char.ofNat_toNat c]
    generalize c.toNat = n at h
    rcases h with ⟨h1, h2⟩ | ⟨h1, h2⟩ <;> interval_cases n <;> decide

theorem isLetter_eq (c : Char) : isLetter c = decide (c ∈ asciiLetters) := by
  rw [Bool.eq_iff_iff, decide_eq_true_eq, isLetter_iff, asciiLetters_iff]

theorem isSpace_iff (c : Char) :
    isSpace c = true ↔ (9 ≤ c.toNat ∧ c.toNat ≤ 13) ∨ c.toNat = 0x20 ∨ c.toNat = 0x85 ∨
      c.toNat = 0xa0 ∨ c.toNat = 0x1680 ∨ (0x2000 ≤ c.toNat ∧ c.toNat ≤ 0x200a) ∨
      c.toNat = 0x2028 ∨ c.toNat = 0x2029 ∨ c.toNat = 0x202f ∨ c.toNat = 0x205f ∨
      c.toNat = 0x3000 := by
  have e : ∀ d : Char, c = d ↔ c.toNat = d.toNat := by
    intro d
    constructor
    · intro h; rw [h]
    · intro h
      rw [← Char.ofNat_toNat c, ← Char.ofNat_toNat d, h]
  unfold isSpace
  simp only [Bool.or_eq_true, Bool.and_eq_true, decide_eq_true_eq, e]
  have e1 : '\t'.toNat = 9 := rfl
  have e2 : '\n'.toNat = 10 := rfl
  have e3 : '\r'.toNat = 13 := rfl
  have e4 : ' '.toNat = 32 := rfl
  rw [e1, e2, e3, e4]
  omega

theorem whitespace_iff (c : Char) :
    c ∈ whitespace ↔ (9 ≤ c.toNat ∧ c.toNat ≤ 13) ∨ c.toNat = 0x20 ∨ c.toNat = 0x85 ∨
      c.toNat = 0xa0 ∨ c.toNat = 0x1680 ∨ (0x2000 ≤ c.toNat ∧ c.toNat ≤ 0x200a) ∨
      c.toNat = 0x2028 ∨ c.toNat = 0x2029 ∨ c.toNat = 0x202f ∨ c.toNat = 0x205f ∨
      c.toNat = 0x3000 := by
  constructor
  · have h : ∀ d ∈ whitespace, (9 ≤ d.toNat ∧ d.toNat ≤ 13) ∨ d.toNat = 0x20 ∨ d.toNat = 0x85 ∨
      d.toNat = 0xa0 ∨ d.toNat = 0x1680 ∨ (0x2000 ≤ d.toNat ∧ d.toNat ≤ 0x200a) ∨
      d.toNat = 0x2028 ∨ d.toNat = 0x2029 ∨ d.toNat = 0x202f ∨ d.toNat = 0x205f ∨
      d.toNat = 0x3000 := by decide
    exact h c
  · intro h
    rw [← Char.ofNat_toNat c]
    generalize c.toNat = n at h
    rcases h with ⟨h1, h2⟩ | h | h | h | h | ⟨h1, h2⟩ | h | h | h | h | h
    · interval_cases n <;> decide
    all_goals first | (subst h; decide) | (interval_cases n <;> decide)

theorem isSpace_eq (c : Char) : isSpace c = decide (c ∈ whitespace) := by
  rw [Bool.eq_iff_iff, decide_eq_true_eq, isSpace_iff, whitespace_iff]

theorem Split_eq (text : Str) : Split text = tableLines text := by
  unfold tableLines
  induction text with
  | nil => rfl
  | cons c cs ih =>
    unfold Split
    rw [List.splitOnP_cons, ih]
    by_cases hc : c = '\n'
    · simp [hc]
    · simp only [hc, if_false, decide_False]
      have hne := List.splitOnP_ne_nil (fun c => decide (c = '\n')) cs
      cases hsp : List.splitOnP (fun c => decide (c = '\n')) cs with
      | nil => exact absurd hsp hne
      | cons piece pieces => simp [List.modifyHead]

theorem FieldsAux_eq (p : Char → Bool) (hp : ∀ c, isSpace c = p c) (s : Str) :
    ∀ cur : Str, FieldsAux s cur
      = ((s.splitOnP p).modifyHead (fun f => cur ++ f)).filter (fun f => decide (f ≠ [])) := by
  induction s with
  | nil =>
    intro cur
    by_cases hcur : cur = [] <;> simp [FieldsAux, List.modifyHead, hcur]
  | cons c cs ih =>
    intro cur
    have hne := List.splitOnP_ne_nil p cs
    unfold FieldsAux
    rw [List.splitOnP_cons, ih, ih, hp]
    cases hsp : List.splitOnP p cs with
    | nil => exact absurd hsp hne
    | cons piece pieces =>
      by_cases hc : p c = true
      · by_cases hcur : cur = [] <;> simp [List.modifyHead, hc, hcur]
      · simp [List.modifyHead, hc]

theorem Fields_eq (line : Str) : Fields line = lineFields line := by
  unfold Fields lineFields
  rw [FieldsAux_eq (fun c => decide (c ∈ whitespace)) isSpace_eq]
  cases hsp : List.splitOnP (fun c => decide (c ∈ whitespace)) line <;> simp [List.modifyHead]

theorem segments_runs (s : Str) :
    (segments s).flatten = s ∧
    (∀ seg ∈ segments s, ∃ d rest, seg = d :: rest ∧
      ∀ c ∈ rest, decide (c ∈ asciiLetters) = decide (d ∈ asciiLetters)) ∧
    List.Chain' (fun a b => ∀ x ∈ a.head?, ∀ y ∈ b.head?,
      decide (x ∈ asciiLetters) ≠ decide (y ∈ asciiLetters)) (segments s) := by
  induction s with
  | nil => exact ⟨rfl, by simp [segments], by simp [segments]⟩
  | cons c cs ih =>
    obtain ⟨h1, h2, h3⟩ := ih
    unfold segments
    rcases hseg : segments cs with _ | ⟨_ | ⟨d, seg⟩, segs⟩
    · rw [hseg] at h1
      simp at h1
      subst h1
      exact ⟨rfl, fun seg hs => ⟨c, [], by simpa using hs, by simp⟩, by simp⟩
    · rw [hseg] at h2
      obtain ⟨d, rest, e, -⟩ := h2 [] (by simp)
      cases e
    · rw [hseg] at h1 h2 h3
      by_cases h : decide (c ∈ asciiLetters) = decide (d ∈ asciiLetters)
      · simp only [h, if_true]
        refine ⟨by simpa using h1, ?_, ?_⟩
        · intro sg hsg
          rcases List.mem_cons.1 hsg with e | hm
          · subst e
            obtain ⟨d2, rest2, e2, hr⟩ := h2 (d :: seg) (by simp)
            simp only [List.cons.injEq] at e2
            obtain ⟨e3, e4⟩ := e2
            subst e3 e4
            refine ⟨c, d :: seg, rfl, ?_⟩
            intro x hx
            rcases List.mem_cons.1 hx with e | hm
            · subst e; exact h.symm
            · rw [hr x hm, h]
          · exact h2 sg (List.mem_cons_of_mem _ hm)
        · cases segs with
          | nil => simp
          | cons sg2 segs2 =>
            rw [List.chain'_cons] at h3 ⊢
            refine ⟨?_, h3.2⟩
            intro x hx y hy
            simp only [List.head?_cons, Option.mem_def, Option.some.injEq] at hx
            subst hx
            rw [h]
            exact h3.1 d (by simp) y hy
      · simp only [h, if_false]
        refine ⟨by simpa using h1, ?_, ?_⟩
        · intro sg hsg
          rcases List.mem_cons.1 hsg with e | hm
          · subst e
            exact ⟨c, [], rfl, by simp⟩
          · exact h2 sg hm
        · rw [List.chain'_cons]
          refine ⟨?_, h3⟩
          intro x hx y hy
          simp only [List.head?_cons, Option.mem_def, Option.some.injEq] at hx hy
          subst hx hy
          exact h

theorem isWord_run (d : Char) (rest : Str)
    (h : ∀ c ∈ rest, decide (c ∈ asciiLetters) = decide (d ∈ asciiLetters)) :
    isWord (d :: rest) = isLetter d := by
  rw [isLetter_eq]
  unfold isWord
  by_cases hd : d ∈ asciiLetters
  · simp only [hd, decide_True] at h ⊢
    rw [List.all_eq_true]
    intro x hx
    rcases List.mem_cons.1 hx with e | hm
    · subst e; simpa using hd
    · exact h x hm
  · simp [hd]

theorem StrMap.get_append (xs ys : StrMap) (w : Str) :
    StrMap.get (xs ++ ys) w
      = match StrMap.get xs w with
        | some v => some v
        | none => StrMap.get ys w := by
  induction xs with
  | nil => rfl
  | cons p xs ih =>
    obtain ⟨k, v⟩ := p
    by_cases hk : k = w
    · simp [StrMap.get, hk]
    · simp [StrMap.get, hk, ih]

theorem StrMap.get_reverse (l : List (Str × Str)) (w : Str) :
    StrMap.get l.reverse w
      = ((l.filter (fun p => decide (p.1 = w))).getLast?).map (fun p => p.2) := by
  induction l with
  | nil => rfl
  | cons x l ih =>
    obtain ⟨k, v⟩ := x
    rw [List.reverse_cons, StrMap.get_append, ih]
    by_cases hk : k = w
    · rw [List.filter_cons_of_pos (by simpa using hk)]
      cases hfl : l.filter (fun p => decide (p.1 = w)) with
      | nil => simp [StrMap.get, hk]
      | cons q fl =>
        cases hgl : (q :: fl).getLast? with
        | none => simp at hgl
        | some z => simp [List.getLast?_cons_cons, hgl]
    · rw [List.filter_cons_of_neg (by simpa using hk)]
      cases hfl : (l.filter (fun p => decide (p.1 = w))).getLast? with
      | none => simp [StrMap.get, hk]
      | some q => simp

theorem usForBritish_foldl (lines : List Str) :
    ∀ m : StrMap,
      lines.foldl (fun m line =>
        match Fields line with
        | [british, us] => (british, us) :: m
        | _ => m) m
      = (lines.filterMap (fun line =>
          match Fields line with
          | [british, us] => some (british, us)
          | _ => none)).reverse ++ m := by
  induction lines with
  | nil => intro m; rfl
  | cons line lines ih =>
    intro m
    rw [List.foldl_cons, ih]
    rcases hf : Fields line with _ | ⟨a, _ | ⟨b, _ | ⟨c, r⟩⟩⟩ <;>
      simp [List.filterMap_cons, hf]

theorem replacer_eq (table word : Str) :
    replacer table word
      = match tableEntry table word with
        | some us => us
        | none => word := by
  unfold replacer usForBritish tableEntry tableEntries
  rw [usForBritish_foldl, List.append_nil, StrMap.get_reverse, Split_eq]
  simp only [Fields_eq]

theorem rewriteSegment_eq (table : Str) (d : Char) (rest : Str)
    (h : ∀ c ∈ rest, decide (c ∈ asciiLetters) = decide (d ∈ asciiLetters)) :
    rewriteSegment (replacer table) (d :: rest) = substituteSegment table (d :: rest) := by
  unfold rewriteSegment substituteSegment
  dsimp only
  rw [isWord_run d rest h, replacer_eq]

theorem replaceWords_segments (repl : Str → Str) (s : Str) :
    ∀ word : Str, replaceWords repl s word
      = match segments s with
        | [] => flush repl word
        | [] :: segs => flush repl word ++ (segs.map (rewriteSegment repl)).flatten
        | (d :: seg) :: segs =>
          if isLetter d then
            repl (word ++ d :: seg) ++ (segs.map (rewriteSegment repl)).flatten
          else flush repl word ++ (d :: seg) ++ (segs.map (rewriteSegment repl)).flatten := by
  induction s with
  | nil => intro word; rfl
  | cons c cs ih =>
    intro word
    unfold replaceWords segments
    simp only [← isLetter_eq]
    by_cases hc : isLetter c = true
    · rw [if_pos hc, ih]
      have hfl : flush repl (word ++ [c]) = repl (word ++ [c]) := by simp [flush]
      rcases hseg : segments cs with _ | ⟨_ | ⟨d, seg⟩, segs⟩
      · simp [hc, hfl]
      · simp [hc, hfl]
      · by_cases hd : isLetter d = true
        · simp [hc, hd]
        · simp [hc, hd, hfl, rewriteSegment]
    · rw [if_neg hc, ih]
      have hfl : flush repl [] = [] := rfl
      rcases hseg : segments cs with _ | ⟨_ | ⟨d, seg⟩, segs⟩
      · simp [hc, hfl, flush]
      · simp [hc, hfl, flush]
      · by_cases hd : isLetter d = true
        · simp [hc, hd, flush, rewriteSegment]
        · simp [hc, hd, hfl, flush]

theorem ReplaceAllStringFunc_eq (repl : Str → Str) (s : Str) :
    ReplaceAllStringFunc repl s = ((segments s).map (rewriteSegment repl)).flatten := by
  unfold ReplaceAllStringFunc
  rw [replaceWords_segments]
  rcases hseg : segments s with _ | ⟨_ | ⟨d, seg⟩, segs⟩
  · rfl
  · simp [flush, rewriteSegment]
  · by_cases hd : isLetter d = true <;> simp [hd, flush, rewriteSegment]

theorem ReplaceAllStringFunc_substituteText (table s : Str) :
    ReplaceAllStringFunc (replacer table) s = substituteText table s := by
  rw [ReplaceAllStringFunc_eq]
  unfold substituteText
  congr 1
  apply List.map_congr_left
  intro seg hseg
  obtain ⟨d, rest, e, h⟩ := (segments_runs s).2.1 seg hseg
  subst e
  exact rewriteSegment_eq table d rest h

theorem replaceWords_append (repl : Str → Str) (a b : Str) (c : Char)
    (hc : isLetter c = false) :
    ∀ word : Str, replaceWords repl (a ++ c :: b) word
      = replaceWords repl (a ++ [c]) word ++ replaceWords repl b [] := by
  induction a with
  | nil => intro word; simp [replaceWords, hc]
  | cons x a ih =>
    intro word
    by_cases hx : isLetter x = true
    · simp [replaceWords, hx, ih]
    · simp [replaceWords, hx, ih]

theorem Writer.takes_initial (w : Writer) (a b : Str) (h : w.takes (a ++ b) = true) :
    w.takes a = true := by
  unfold Writer.takes at h ⊢
  cases hr : w.room with
  | none => rfl
  | some r =>
    rw [hr] at h
    simp only [List.length_append, decide_eq_true_eq] at h ⊢
    omega

theorem Writer.takes_below (w0 w : Writer) (fl x : Str)
    (hroom : w.room = w0.room.map (fun r => r - fl.length)) (hfl : w0.takes fl = true) :
    w.takes x = w0.takes (fl ++ x) := by
  unfold Writer.takes at hfl ⊢
  rw [hroom]
  cases hr : w0.room with
  | none => rfl
  | some r =>
    rw [hr] at hfl
    simp only [decide_eq_true_eq] at hfl
    simp only [Option.map_some', List.length_append]
    rw [Bool.eq_iff_iff, decide_eq_true_eq, decide_eq_true_eq]
    omega

theorem Writer.Write_takes (w : Writer) (p : Str) (h : w.takes p = true) :
    w.Write p = (⟨w.data ++ p, w.room.map (fun r => r - p.length)⟩, p.length, false) := by
  unfold Writer.takes at h
  unfold Writer.Write
  cases hr : w.room with
  | none => rfl
  | some r =>
    rw [hr] at h
    simp only [decide_eq_true_eq] at h
    simp [h]

theorem Writer.Write_fails (w : Writer) (p : Str) (h : w.takes p = false) :
    (w.Write p).2.2 = true := by
  unfold Writer.takes at h
  unfold Writer.Write
  cases hr : w.room with
  | none => rw [hr] at h; cases h
  | some r =>
    rw [hr] at h
    simp only [decide_eq_false_iff_not] at h
    simp [h]

theorem Flush_Buffered (w0 : Writer) (out : Str) (b : BufWriter) (h : Buffered w0 out b) :
    (w0.takes out = true → b.Flush.2 = false ∧ Buffered w0 out b.Flush.1 ∧
      b.Flush.1.buf = [] ∧ b.Flush.1.wr.data = w0.data ++ out ∧
      b.Flush.1.wr.room = w0.room.map (fun r => r - out.length)) ∧
    (w0.takes out = false → b.Flush.2 = true ∧ b.Flush.1.err = true) := by
  obtain ⟨herr, hsize, hlen, fl, hout, hdata, hroom, hfl⟩ := h
  have htk := Writer.takes_below w0 b.wr fl b.buf hroom hfl
  rw [hout] at htk
  unfold BufWriter.Flush
  rw [herr]
  simp only [Bool.false_eq_true, if_false]
  by_cases hb : b.buf = []
  · rw [if_pos hb]
    rw [hb, List.append_nil] at hout
    subst hout
    refine ⟨fun _ => ⟨rfl, ⟨herr, hsize, hlen, fl, by rw [hb, List.append_nil], hdata, hroom,
      hfl⟩, hb, hdata, hroom⟩, fun hno => ?_⟩
    rw [hfl] at hno
    cases hno
  · rw [if_neg hb]
    constructor
    · intro hyes
      rw [hyes] at htk
      rw [Writer.Write_takes b.wr b.buf htk]
      dsimp only
      refine ⟨rfl, ⟨rfl, hsize, by simp, out, by simp, ?_, ?_, hyes⟩, rfl, ?_, ?_⟩
      · rw [hdata, List.append_assoc, hout]
      · rw [hroom, ← hout]
        cases w0.room <;> simp [Nat.sub_sub]
      · rw [hdata, List.append_assoc, hout]
      · rw [hroom, ← hout]
        cases w0.room <;> simp [Nat.sub_sub]
    · intro hno
      rw [hno] at htk
      have hf := Writer.Write_fails b.wr b.buf htk
      rcases hw : b.wr.Write b.buf with ⟨w, n, e⟩
      rw [hw] at hf
      dsimp only at hf
      subst hf
      exact ⟨rfl, rfl⟩

theorem WriteStringLoop_spec (w0 : Writer) (fuel : Nat) :
    ∀ (b : BufWriter) (s out : Str), Buffered w0 out b →
      s.length + 1 + (if b.Available = 0 then 1 else 0) ≤ fuel →
      ∃ b2 s2, BufWriter.WriteStringLoop fuel b s = some (b2, s2) ∧
        ((b2.err = false ∧ ∃ pre, s = pre ++ s2 ∧ Buffered w0 (out ++ pre) b2 ∧
            s2.length ≤ b2.Available) ∨
          (b2.err = true ∧ w0.takes (out ++ s) = false)) := by
  induction fuel with
  | zero => intro b s out _ h; omega
  | succ fuel ih =>
    intro b s out hb hfuel
    have hb0 := hb
    obtain ⟨herr, hsize, hlen, fl, hout, hdata, hroom, hfl⟩ := hb
    unfold BufWriter.WriteStringLoop
    by_cases hlt : b.Available < s.length
    · rw [if_pos ⟨hlt, herr⟩]
      have hav : b.Available = b.size - b.buf.length := rfl
      have hb1 : Buffered w0 (out ++ s.take b.Available)
          { b with buf := b.buf ++ s.take b.Available } := by
        refine ⟨herr, hsize, ?_, fl, ?_, hdata, hroom, hfl⟩
        · simp only [List.length_append, List.length_take]
          omega
        · rw [← hout, List.append_assoc]
      obtain ⟨hyes, hno⟩ := Flush_Buffered w0 _ _ hb1
      cases htk : w0.takes (out ++ s.take b.Available) with
      | true =>
        obtain ⟨-, hb2, hbuf, -, -⟩ := hyes htk
        have hav2 : (BufWriter.Flush { b with buf := b.buf ++ s.take b.Available }).1.Available
            ≠ 0 := by
          have hsz := hb2.2.1
          have hav3 : ∀ x : BufWriter, x.Available = x.size - x.buf.length := fun _ => rfl
          rw [hav3, hbuf]
          simp only [List.length_nil]
          omega
        obtain ⟨b2, s2, hrun, hres⟩ := ih _ (s.drop b.Available) _ hb2 (by
          rw [if_neg hav2]
          simp only [List.length_drop]
          by_cases h0 : b.Available = 0
          · rw [if_pos h0] at hfuel; omega
          · rw [if_neg h0] at hfuel; omega)
        refine ⟨b2, s2, hrun, ?_⟩
        rcases hres with ⟨he, pre, hpre, hbf, hle⟩ | ⟨he, hfail⟩
        · left
          refine ⟨he, s.take b.Available ++ pre, ?_, ?_, hle⟩
          · rw [List.append_assoc, ← hpre, List.take_append_drop]
          · rw [← List.append_assoc]; exact hbf
        · right
          refine ⟨he, ?_⟩
          rw [List.append_assoc, List.take_append_drop] at hfail
          exact hfail
      | false =>
        obtain ⟨-, he⟩ := hno htk
        have hfuel1 : 0 < fuel := by omega
        obtain ⟨f, hf⟩ : ∃ f, fuel = f + 1 := ⟨fuel - 1, by omega⟩
        subst hf
        refine ⟨_, s.drop b.Available, ?_, Or.inr ⟨he, ?_⟩⟩
        · unfold BufWriter.WriteStringLoop
          rw [if_neg (by rw [he]; simp)]
        · cases hall : w0.takes (out ++ s) with
          | false => rfl
          | true =>
            rw [← List.take_append_drop b.Available s, ← List.append_assoc] at hall
            rw [Writer.takes_initial w0 _ _ hall] at htk
            cases htk
    · rw [if_neg (fun h => hlt h.1)]
      exact ⟨b, s, rfl, Or.inl ⟨herr, [], rfl, by rw [List.append_nil]; exact hb0, by omega⟩⟩

theorem WriteString_spec (w0 : Writer) (b : BufWriter) (s out : Str)
    (hb : Buffered w0 out b) :
    ∃ b2 e, b.WriteString s = some (b2, e) ∧
      (e = false → Buffered w0 (out ++ s) b2) ∧
      (e = true → w0.takes (out ++ s) = false) := by
  obtain ⟨b2, s2, hrun, hres⟩ := WriteStringLoop_spec w0 (s.length + 2) b s out hb (by
    split <;> omega)
  unfold BufWriter.WriteString
  rw [hrun]
  dsimp only
  rcases hres with ⟨he, pre, hpre, hbf, hle⟩ | ⟨he, hfail⟩
  · rw [he]
    simp only [Bool.false_eq_true, if_false]
    refine ⟨_, false, rfl, fun _ => ?_, fun h => by cases h⟩
    obtain ⟨herr, hsize, hlen, fl, hout, hdata, hroom, hfl⟩ := hbf
    refine ⟨rfl, hsize, ?_, fl, ?_, hdata, hroom, hfl⟩
    · unfold BufWriter.Available at hle
      simp only [List.length_append]
      omega
    · dsimp only
      rw [← List.append_assoc, hout, hpre, List.append_assoc]
  · rw [he]
    simp only [if_true]
    exact ⟨_, true, rfl, fun h => (by cases h), fun _ => hfail⟩

theorem americaniseLoop_spec (w0 : Writer) (repl : Str → Str) (fuel : Nat) :
    ∀ (data out : Str) (b : BufWriter), data.length < fuel → Buffered w0 out b →
      ∃ e b2, americaniseLoop repl fuel ⟨data, false⟩ b = some (e, b2) ∧
        ((e = none ∧ Buffered w0 (out ++ ReplaceAllStringFunc repl data) b2) ∨
          (e = some AmericaniseErr.writeFailed ∧
            w0.takes (out ++ ReplaceAllStringFunc repl data) = false)) := by
  induction fuel with
  | zero => intro data out b h; omega
  | succ fuel ih =>
    intro data out b hlen hb
    unfold americaniseLoop ReadString
    cases hcut : cutLine data with
    | none =>
      dsimp only
      obtain ⟨b2, e, hw, hok, hfail⟩ := WriteString_spec w0 b (ReplaceAllStringFunc repl data)
        out hb
      rw [hw]
      cases e with
      | false => exact ⟨none, b2, by simp, Or.inl ⟨rfl, hok rfl⟩⟩
      | true => exact ⟨_, b2, by simp, Or.inr ⟨rfl, hfail rfl⟩⟩
    | some p =>
      obtain ⟨line, rest⟩ := p
      obtain ⟨e, hne, hlast, -⟩ := cutLine_some data line rest hcut
      have hrest := cutLine_length data line rest hcut
      obtain ⟨body, hbody⟩ := List.getLast?_eq_some_iff.1 hlast
      have hsplit : ReplaceAllStringFunc repl data
          = ReplaceAllStringFunc repl line ++ ReplaceAllStringFunc repl rest := by
        unfold ReplaceAllStringFunc
        rw [e, hbody, List.append_assoc, List.singleton_append]
        exact replaceWords_append repl body rest '\n' (by decide) []
      dsimp only
      obtain ⟨b2, e2, hw, hok, hfail⟩ := WriteString_spec w0 b (ReplaceAllStringFunc repl line)
        out hb
      rw [hw]
      cases e2 with
      | false =>
        obtain ⟨e3, b3, hrun, hres⟩ := ih rest _ b2 (by omega) (hok rfl)
        refine ⟨e3, b3, by simpa using hrun, ?_⟩
        rw [hsplit, ← List.append_assoc]
        exact hres
      | true =>
        refine ⟨_, b2, by simp, Or.inr ⟨rfl, ?_⟩⟩
        cases hall : w0.takes (out ++ ReplaceAllStringFunc repl data) with
        | false => rfl
        | true =>
          rw [hsplit, ← List.append_assoc] at hall
          rw [Writer.takes_initial w0 _ _ hall] at hfail
          exact absurd (hfail rfl) (by simp)

theorem Buffered_NewWriter (w : Writer) : Buffered w [] (NewWriter w) :=
  ⟨rfl, by simp [NewWriter, defaultBufSize], by simp [NewWriter], [], rfl,
    by simp [NewWriter], by cases h : w.room <;> simp [NewWriter, h],
    by unfold Writer.takes; cases w.room <;> simp⟩

/-- C10. Text substitution: for every table text, every input read without
error and every output file, `americanise` returns, and returns `nil` exactly
when the output file takes the whole output; the output written is then the
input in which every maximal run of letters `[A-Za-z]+` that is the first
field of a table line with exactly two whitespace-separated fields is replaced
by the second field of the last such line, every other character being copied:
reading line by line gives what the substitution gives on the whole text. The
runs are the maximal runs: together they are the input, each is not empty and
of letters only or of other characters only, and neighbours are of different
kinds. With no two-field line in the table the output is the input. -/
theorem americanise_substitutes (table input : Str) (outFile : Writer) :
    (∃ out : Outcome, americanise (some table) ⟨input, false⟩ outFile = some out ∧
      (outFile.takes (substituteText table input) = true →
        out = ⟨none, ⟨outFile.data ++ substituteText table input,
          outFile.room.map (fun r => r - (substituteText table input).length)⟩⟩) ∧
      (outFile.takes (substituteText table input) = false →
        out.err = some AmericaniseErr.writeFailed)) ∧
    (outFile.room = none → americanise (some table) ⟨input, false⟩ outFile
      = some ⟨none, ⟨outFile.data ++ substituteText table input, none⟩⟩) ∧
    ((segments input).flatten = input ∧
      (∀ seg ∈ segments input, seg ≠ [] ∧
        (isWord seg = true ∨ ∀ c ∈ seg, c ∉ asciiLetters)) ∧
      List.Chain' (fun a b => isWord a ≠ isWord b) (segments input)) ∧
    (tableEntries table = [] → substituteText table input = input) := by
  have hmain : ∃ out : Outcome, americanise (some table) ⟨input, false⟩ outFile = some out ∧
      (outFile.takes (substituteText table input) = true →
        out = ⟨none, ⟨outFile.data ++ substituteText table input,
          outFile.room.map (fun r => r - (substituteText table input).length)⟩⟩) ∧
      (outFile.takes (substituteText table input) = false →
        out.err = some AmericaniseErr.writeFailed) := by
    obtain ⟨e, b2, hrun, hres⟩ := americaniseLoop_spec outFile (replacer table)
      (input.length + 1) input [] (NewWriter outFile) (Nat.lt_succ_self _)
      (Buffered_NewWriter outFile)
    rw [List.nil_append, ReplaceAllStringFunc_substituteText] at hres
    unfold americanise makeReplacerFunction
    dsimp only
    rw [hrun]
    rcases hres with ⟨he, hb⟩ | ⟨he, hfail⟩
    · subst he
      dsimp only
      obtain ⟨hyes, hno⟩ := Flush_Buffered outFile _ b2 hb
      cases htk : outFile.takes (substituteText table input) with
      | true =>
        obtain ⟨h1, -, -, h2, h3⟩ := hyes htk
        rcases hfl : b2.Flush with ⟨b3, e3⟩
        rw [hfl] at h1 h2 h3
        dsimp only at h1 h2 h3
        subst h1
        refine ⟨_, rfl, fun _ => ?_, fun h => by cases h⟩
        rcases hw : b3.wr with ⟨d, r⟩
        rw [hw] at h2 h3
        dsimp only at h2 h3
        rw [h2, h3]
      | false =>
        obtain ⟨h1, -⟩ := hno htk
        rcases hfl : b2.Flush with ⟨b3, e3⟩
        rw [hfl] at h1
        dsimp only at h1
        subst h1
        exact ⟨_, rfl, fun h => (by cases h), fun _ => rfl⟩
    · subst he
      dsimp only
      refine ⟨_, rfl, fun h => ?_, fun _ => rfl⟩
      rw [hfail] at h
      cases h
  have hruns := segments_runs input
  refine ⟨hmain, ?_, ⟨hruns.1, ?_, ?_⟩, ?_⟩
  · intro hroom
    obtain ⟨out, hrun, hyes, -⟩ := hmain
    rw [hrun, hyes (by unfold Writer.takes; rw [hroom]), hroom]
    rfl
  · intro seg hseg
    obtain ⟨d, rest, e, h⟩ := hruns.2.1 seg hseg
    subst e
    refine ⟨by simp, ?_⟩
    by_cases hd : d ∈ asciiLetters
    · left
      rw [isWord_run d rest h, isLetter_eq]
      simpa using hd
    · right
      intro c hc
      rcases List.mem_cons.1 hc with e | hm
      · subst e; exact hd
      · have := h c hm
        simpa [hd] using this
  · refine (List.Chain'.iff_mem.1 hruns.2.2).imp ?_
    rintro a b ⟨ha, hb, hab⟩
    obtain ⟨d, rest, e, h⟩ := hruns.2.1 a ha
    obtain ⟨d2, rest2, e2, h2⟩ := hruns.2.1 b hb
    subst e e2
    rw [isWord_run d rest h, isWord_run d2 rest2 h2, isLetter_eq, isLetter_eq]
    exact hab d rfl d2 rfl
  · intro hempty
    unfold substituteText
    have hid : ∀ seg, substituteSegment table seg = seg := by
      intro seg
      unfold substituteSegment
      by_cases hw : isWord seg = true <;> simp [tableEntry, hempty, hw]
    rw [funext hid, List.map_id', hruns.1]

/-- C10 at a table that gives `colour` twice and has lines of one and of three
fields, and an input with a word in capitals and a last line without newline:
the text substituted, the run on a file that takes everything, and the run on a
file that takes five characters, where the flush returns the error. -/
theorem americanise_substitutes_witness :
    substituteText americaniseTable americaniseInput = americaniseOutput ∧
    americanise (some americaniseTable) ⟨americaniseInput, false⟩ ⟨[], none⟩
      = some ⟨none, ⟨americaniseOutput, none⟩⟩ ∧
    americanise (some americaniseTable) ⟨americaniseInput, false⟩ ⟨[], some 5⟩
      = some ⟨some AmericaniseErr.writeFailed, ⟨"The c".toList, some 0⟩⟩ ∧
    segments "a colour.".toList = ["a".toList, " ".toList, "colour".toList, ".".toList] ∧
    substituteText "one two three\nalone\n".toList americaniseInput = americaniseInput :=
  have h := americanise_substitutes americaniseTable americaniseInput ⟨[], none⟩
  have h2 := americanise_substitutes "one two three\nalone\n".toList americaniseInput ⟨[], none⟩
  ⟨by decide, (h.2.1 rfl).trans (by decide), by decide, by decide, h2.2.2.2 (by decide)⟩

end Gobook
